import Mathlib

/-!
Quorum initiator core (`core/quorum_initiator.go`).

A shallow embedding of the request-state registry, the consensus reporter
(`startConsensus` / `finishConsensus`), the quorum dialer (`connectQuorum`), the pledge
collector (`initPledgeQuorumToken`), the block assembler (`pledgeQuorumToken`) and the
initiator (`initiateConsensus`), followed by the properties proved about them.

Conventions of the embedding:

* Go `int` counters are `Int`; no run considered here comes near `2^63` calls.
* Go maps keyed by `string` are association lists with unique keys (`GoMap`).
* A `*ipfsport.Peer` is `Option Peer`; `Close()` on a peer is recorded by appending
  the peer's handle to the `closed` log of the `Core`.
* A run-time panic (nil dereference, index out of range) is the result `none`.
* A `float64` is the rational number it denotes; an arithmetic operation on `float64`
  values is the exact operation followed by `roundF64`, the rounding to the nearest
  `float64` (ties to even). Infinities and NaN are not modelled.
* The registry mutex and the per-request pledge mutex serialise the critical
  sections; each critical section is one function of the embedding.
-/

namespace Rubix

/-! ## Constants -/

def MinQuorumRequired : Int := 5
def MinConsensusRequired : Int := 5

def RBTTransferMode : Int := 0
def NFTTransferMode : Int := 1
def DTCommitMode : Int := 2
def NFTSaleContractMode : Int := 3
def SmartContractDeployMode : Int := 4
def SmartContractExecuteMode : Int := 5

def AlphaQuorumType : Int := 0
def BetaQuorumType : Int := 1
def GammaQuorumType : Int := 2

/-! ## Go maps with string keys -/

/-- A Go `map[string]V`: an association list in which every key occurs at most once. -/
abbrev GoMap (V : Type) := List (String × V)

namespace GoMap

/-- The lookup `v, ok := m[k]`. -/
def get {V : Type} (m : GoMap V) (k : String) : Option V :=
  match m with
  | [] => none
  | (k', v) :: rest => if k' = k then some v else get rest k

/-- The statement `delete(m, k)`. -/
def delete {V : Type} (m : GoMap V) (k : String) : GoMap V :=
  m.filter (fun e => decide (e.1 ≠ k))

/-- The assignment `m[k] = v`. -/
def set {V : Type} (m : GoMap V) (k : String) (v : V) : GoMap V :=
  (k, v) :: delete m k

/-- The keys of the map (a `range` over the map visits them in some order). -/
def keys {V : Type} (m : GoMap V) : List String :=
  m.map Prod.fst

end GoMap

/-! ## Data model -/

/-- Raw bytes (`[]byte`). -/
abbrev Bytes := List Nat

/-- An open connection to a remote peer (`ipfsport.Peer`): `handle` identifies the
connection, `did` is what `GetPeerDID` returns. -/
structure Peer where
  handle : Nat
  did : String
deriving DecidableEq, Repr

structure CreditSignature where
  Signature : String
  PrivSignature : String
  DID : String
  Hash : String
deriving DecidableEq, Repr

structure ConsensusResult where
  RunningCount : Int
  SuccessCount : Int
  FailedCount : Int
deriving DecidableEq, Repr

/-- The request state. `Credit` is `CreditScore.Credit`; the `PledgeLock` mutex has no
data and is left out. -/
structure ConsensusStatus where
  Credit : List CreditSignature
  P : GoMap Peer
  Result : ConsensusResult
deriving DecidableEq, Repr

/-- The pledge details of one request. `TransferAmount` and `RemPledgeTokens` are
`float64` in the source: each is the rational number the `float64` denotes. -/
structure PledgeDetails where
  TransferAmount : ℚ
  RemPledgeTokens : ℚ
  NumPledgedTokens : Int
  PledgedTokens : GoMap (List String)
  PledgedTokenChainBlock : GoMap Bytes
  TokenList : List String
deriving DecidableEq

/-- The part of `Core` the quorum initiator works on: the two registries guarded by
`qlock`, and the log of `Close()` calls made on peer handles. -/
structure Core where
  quorumRequest : GoMap ConsensusStatus
  pd : GoMap PledgeDetails
  closed : List Nat
deriving DecidableEq

/-- The call `p.Close()`. -/
def Core.close (c : Core) (p : Peer) : Core :=
  { c with closed := c.closed ++ [p.handle] }

/-- The guarded call `if p != nil { p.Close() }`. -/
def Core.closeIfSet (c : Core) (p : Option Peer) : Core :=
  match p with
  | some q => c.close q
  | none => c

/-- The number of times `Close()` was called on handle `h`. -/
def Core.closeCount (c : Core) (h : Nat) : Nat :=
  c.closed.count h

/-! ## Hex encoding (`util.HexToStr`) -/

def hexDigit (n : Nat) : Char :=
  if n < 10 then Char.ofNat (48 + n) else Char.ofNat (87 + n)

/-- Modelled from the spec: `util.HexToStr` is not part of this file; it is the
lower-case hex encoding of a byte string. -/
def HexToStr (bs : Bytes) : String :=
  String.mk (bs.flatMap (fun b => [hexDigit (b / 16 % 16), hexDigit (b % 16)]))

/-! ## The consensus reporter -/

/-- The function `startConsensus`. -/
def startConsensus (c : Core) (id : String) (qt : Int) : Core :=
  match c.quorumRequest.get id with
  | none => c
  | some cs =>
    if qt = 0 then
      let r1 : ConsensusResult := { cs.Result with RunningCount := cs.Result.RunningCount + 1 }
      { c with quorumRequest := c.quorumRequest.set id { cs with Result := r1 } }
    else c

/-- The function `finishConsensus`. The result is `none` when the source dereferences
a nil peer (`p.GetPeerDID()` with `status` true and `p == nil`). -/
def finishConsensus (c : Core) (id : String) (qt : Int) (p : Option Peer) (status : Bool)
    (hash : String) (ss ps : Bytes) : Option Core :=
  match c.quorumRequest.get id with
  | none => some (c.closeIfSet p)
  | some cs =>
    if qt = 0 then
      let r1 : ConsensusResult := { cs.Result with RunningCount := cs.Result.RunningCount - 1 }
      if status then
        match p with
        | none => none
        | some q =>
          let did := q.did
          if r1.SuccessCount < MinConsensusRequired then
            let csig : CreditSignature :=
              { Signature := HexToStr ss, PrivSignature := HexToStr ps, DID := did, Hash := hash }
            let cs1 : ConsensusStatus := { cs with P := cs.P.set did q, Credit := cs.Credit ++ [csig] }
            let r2 : ConsensusResult := { r1 with SuccessCount := r1.SuccessCount + 1 }
            some { c with quorumRequest := c.quorumRequest.set id { cs1 with Result := r2 } }
          else
            let r2 : ConsensusResult := { r1 with SuccessCount := r1.SuccessCount + 1 }
            some { c.close q with quorumRequest := c.quorumRequest.set id { cs with Result := r2 } }
      else
        let r2 : ConsensusResult := { r1 with FailedCount := r1.FailedCount + 1 }
        some { c.closeIfSet p with quorumRequest := c.quorumRequest.set id { cs with Result := r2 } }
    else some (c.closeIfSet p)

/-- The arguments of one `finishConsensus` call, the request id and role apart. -/
structure FinishCall where
  p : Option Peer
  status : Bool
  hash : String
  ss : Bytes
  ps : Bytes
deriving DecidableEq

/-- The credit signature a successful call records. -/
def FinishCall.csig (k : FinishCall) : List CreditSignature :=
  match k.p with
  | some q => [{ Signature := HexToStr k.ss, PrivSignature := HexToStr k.ps,
                 DID := q.did, Hash := k.hash }]
  | none => []

/-- A sequence of alpha-role `finishConsensus` calls on one request id. -/
def finishAll (c : Core) (id : String) : List FinishCall → Option Core
  | [] => some c
  | k :: rest =>
    match finishConsensus c id AlphaQuorumType k.p k.status k.hash k.ss k.ps with
    | none => none
    | some c' => finishAll c' id rest

/-! ## Sample data -/

/-- A fresh request state, as `initiateConsensus` registers it. -/
def freshStatus : ConsensusStatus :=
  { Credit := [], P := [], Result := ⟨0, 0, 0⟩ }

/-- A registry holding the single request `"req"`, freshly registered. -/
def sampleCore : Core :=
  { quorumRequest := [("req", freshStatus)], pd := [], closed := [] }

/-- Validator number `n`: handle `n`, DID `"did" ++ n`. -/
def samplePeer (n : Nat) : Peer :=
  { handle := n, did := "did" ++ toString n }

/-- A successful report by validator `n`. -/
def okCall (n : Nat) : FinishCall :=
  { p := some (samplePeer n), status := true, hash := "h", ss := [1, 2], ps := [255] }

/-- Seven validators all reporting success. -/
def sevenSuccesses : List FinishCall :=
  [okCall 1, okCall 2, okCall 3, okCall 4, okCall 5, okCall 6, okCall 7]

/-! ## The quorum dialer (`connectQuorum`) as a step model -/

/-- How one run of `connectQuorum` ends: the replies the environment gives to
`getPeer`, to `initPledgeQuorumToken` and to the consensus RPC. -/
inductive DialOutcome where
  | noPeer
  | pledgeFailed (p : Peer)
  | consensusError (p : Peer)
  | consensusRefused (p : Peer)
  | consensusOk (p : Peer) (hash : String) (ss ps : Bytes)
deriving DecidableEq

/-- The arguments of the single `finishConsensus` call on each exit of `connectQuorum`. -/
def DialOutcome.report : DialOutcome → FinishCall
  | .noPeer => { p := none, status := false, hash := "", ss := [], ps := [] }
  | .pledgeFailed p => { p := some p, status := false, hash := "", ss := [], ps := [] }
  | .consensusError p => { p := some p, status := false, hash := "", ss := [], ps := [] }
  | .consensusRefused p => { p := some p, status := false, hash := "", ss := [], ps := [] }
  | .consensusOk p hash ss ps => { p := some p, status := true, hash := hash, ss := ss, ps := ps }

/-- The function `connectQuorum` run without interruption; its effect on the pledge
details is that of the pledge collector and is left to the collector. -/
def connectQuorum (c : Core) (id : String) (qt : Int) (o : DialOutcome) : Option Core :=
  let k := o.report
  finishConsensus (startConsensus c id qt) id qt k.p k.status k.hash k.ss k.ps

/-- Where the dial of one candidate stands: not yet at `startConsensus`, between
`startConsensus` and `finishConsensus`, or past `finishConsensus`. -/
inductive DialPhase where
  | idle
  | running
  | done
deriving DecidableEq, Repr

/-- A round in progress: the registry and, per candidate of the quorum list, its dial. -/
structure Round where
  core : Core
  dials : List DialPhase
deriving DecidableEq

/-- One atomic step of a dial; both are critical sections under `qlock`. -/
inductive DialEvent where
  | start (i : Nat)
  | finish (i : Nat) (o : DialOutcome)
deriving DecidableEq

/-- The state after the fan-out loop has launched one dial per candidate. -/
def Round.init (c : Core) (ql : List String) : Round :=
  { core := c, dials := ql.map (fun _ => DialPhase.idle) }

/-- One step of the round for request `id`; `none` when the event is not enabled. -/
def Round.step (id : String) (r : Round) : DialEvent → Option Round
  | .start i =>
    if r.dials[i]? = some DialPhase.idle then
      some { core := startConsensus r.core id AlphaQuorumType,
             dials := r.dials.set i DialPhase.running }
    else none
  | .finish i o =>
    if r.dials[i]? = some DialPhase.running then
      let k := o.report
      match finishConsensus r.core id AlphaQuorumType k.p k.status k.hash k.ss k.ps with
      | some c' => some { core := c', dials := r.dials.set i DialPhase.done }
      | none => none
    else none

/-- A schedule of dial steps. -/
def Round.run (id : String) (r : Round) : List DialEvent → Option Round
  | [] => some r
  | e :: rest =>
    match r.step id e with
    | some r' => Round.run id r' rest
    | none => none

/-- A schedule over three candidates: all start, two succeed, one has no peer. -/
def sampleSchedule : List DialEvent :=
  [.start 0, .start 2, .finish 0 (.consensusOk (samplePeer 0) "h" [1] [2]), .start 1,
   .finish 1 .noPeer, .finish 2 (.consensusOk (samplePeer 2) "h" [3] [4])]

/-- The state `sampleSchedule` leads to from `sampleCore`. -/
def sampleScheduleEnd : Round :=
  { core :=
      { quorumRequest :=
          [("req", { Credit := [⟨"01", "02", "did0", "h"⟩, ⟨"03", "04", "did2", "h"⟩],
                     P := [("did2", samplePeer 2), ("did0", samplePeer 0)],
                     Result := ⟨0, 2, 1⟩ })],
        pd := [], closed := [] },
    dials := [DialPhase.done, DialPhase.done, DialPhase.done] }

/-- The counters of request `id` agree with the phases of the dials. -/
def Round.Coherent (id : String) (r : Round) : Prop :=
  ∃ cs, r.core.quorumRequest.get id = some cs ∧
    cs.Result.RunningCount = (r.dials.count DialPhase.running : Int) ∧
    cs.Result.SuccessCount + cs.Result.FailedCount = (r.dials.count DialPhase.done : Int) ∧
    0 ≤ cs.Result.SuccessCount ∧ 0 ≤ cs.Result.FailedCount

/-! ## The barrier of `initiateConsensus` -/

/-- The variables `loop` and `err` after one pass of the polling loop. -/
structure BarrierObservation where
  loop : Bool
  err : Option String
deriving DecidableEq, Repr

/-- One pass of the polling loop of `initiateConsensus`: the critical section between
`c.qlock.Lock()` and `c.qlock.Unlock()`, starting from `loop = true`, `err = nil`. -/
def barrierObserve (c : Core) (id : String) : BarrierObservation :=
  match c.quorumRequest.get id with
  | none => { loop := false, err := some "invalid request" }
  | some cs =>
    if cs.Result.SuccessCount ≥ MinConsensusRequired then
      { loop := false, err := none }
    else if cs.Result.RunningCount = 0 then
      { loop := false, err := some "consensus failed" }
    else
      { loop := true, err := none }

/-- The polling loop of `initiateConsensus` run against the registry states it observes,
one per second; the value is `err` at the `break`, or `none` while the loop has not left
the barrier after all the given observations. -/
def barrierLoop (id : String) : List Core → Option (Option String)
  | [] => none
  | c :: rest =>
    let o := barrierObserve c id
    if o.loop then barrierLoop id rest else some o.err

/-- A registry in which request `"req"` has the given counters. -/
def coreWithResult (res : ConsensusResult) : Core :=
  { quorumRequest := [("req", { Credit := [], P := [], Result := res })], pd := [], closed := [] }

/-! ## The pledge collector (`initPledgeQuorumToken`) -/

/-- Modelled from the spec: the transaction-type constant `block.TokenPledgedType` is
declared in the block library; the spec names it `TOKEN_PLEDGED`. -/
def TokenPledgedType : String := "TOKEN_PLEDGED"

/-- Modelled from the spec: the transaction-type constant `block.TokenTransferredType`,
named `TOKEN_TRANSFERRED` in the spec. -/
def TokenTransferredType : String := "TOKEN_TRANSFERRED"

/-- A decoded token-chain block (`*block.Block`), as far as the collector reads it:
`transType` is what `GetTransType` returns. -/
structure Block where
  transType : String
deriving DecidableEq, Repr

/-- The function `checkIsPledged`. `GetTransType` on a nil block is a nil dereference. -/
def checkIsPledged (tcb : Option Block) : Option Bool :=
  match tcb with
  | none => none
  | some b => if b.transType = TokenPledgedType then some true else some false

/-! ### `float64` arithmetic -/

/-- The power `2^e` for an integer exponent. -/
def pow2 (e : ℤ) : ℚ :=
  if 0 ≤ e then ((2 ^ e.toNat : ℕ) : ℚ) else 1 / ((2 ^ (-e).toNat : ℕ) : ℚ)

/-- The number of times `n` can be halved before it is below 2, at most `fuel` times. -/
def halvings : Nat → Nat → Nat
  | 0, _ => 0
  | fuel + 1, n => if 2 ≤ n then halvings fuel (n / 2) + 1 else 0

/-- The exponent `e` with `2^e ≤ a < 2^(e+1)`, for a positive `a`. -/
def floorLog2 (a : ℚ) : ℤ :=
  let e0 : ℤ := (halvings a.num.natAbs a.num.natAbs : ℤ) - (halvings a.den a.den : ℤ)
  if a < pow2 e0 then e0 - 1 else e0

/-- Rounding to the nearest integer, a tie going to the even one. -/
def roundHalfEven (x : ℚ) : ℤ :=
  let f := ⌊x⌋
  let r := x - f
  if r < 1 / 2 then f
  else if 1 / 2 < r then f + 1
  else if f % 2 = 0 then f else f + 1

/-- The `float64` nearest to the rational `q`: 53 significant bits, round to nearest,
ties to even, gradual underflow below `2^(-1022)`. Overflow to an infinity is not
modelled. -/
def roundF64 (q : ℚ) : ℚ :=
  if q = 0 then 0
  else
    let e := max (floorLog2 |q|) (-1022)
    let ulp := pow2 (e - 52)
    (roundHalfEven (q / ulp) : ℚ) * ulp

/-- Half a unit in the last place of the `float64` format at the rational `q`: half of
`2^(e-52)` for the binary exponent `e` of `q`, or for `-1022` if that is larger. -/
def halfUlp (q : ℚ) : ℚ :=
  pow2 (max (floorLog2 |q|) (-1022) - 52) / 2

/-- The `float64` sum `a + b`. -/
def f64Add (a b : ℚ) : ℚ := roundF64 (a + b)

/-- The `float64` difference `a - b`. -/
def f64Sub (a b : ℚ) : ℚ := roundF64 (a - b)

/-- The `float64` quotient `a / b`, for `b` other than 0. -/
def f64Div (a b : ℚ) : ℚ := roundF64 (a / b)

/-- The nearest multiple of `10^(-precision)`, a tie going away from zero. -/
def roundDecimal (num : ℚ) (precision : ℕ) : ℚ :=
  let scaled := num * 10 ^ precision
  ((if 0 ≤ scaled then ⌊scaled + 1 / 2⌋ else ⌈scaled - 1 / 2⌉ : ℤ) : ℚ) / 10 ^ precision

/-- Modelled from the spec: `floatPrecision` is defined elsewhere in the package; the
collector uses it to round to `precision` fractional digits. The value is the `float64`
nearest to the nearest multiple of `10^(-precision)`. -/
def floatPrecision (num : ℚ) (precision : ℕ) : ℚ :=
  roundF64 (roundDecimal num precision)

structure PledgeReply where
  Status : Bool
  Tokens : List String
  TokenValue : List ℚ
  TokenChainBlock : List Bytes
deriving DecidableEq

/-- The result of the `REQ_PLEDGE_TOKEN` RPC: a transport error or a decoded reply. -/
inductive PledgeRPC where
  | error
  | reply (prs : PledgeReply)
deriving DecidableEq

/-- The pledge details `initiateConsensus` registers for a round. -/
def newPledgeDetails (reqPledgeTokens : ℚ) : PledgeDetails :=
  { TransferAmount := reqPledgeTokens, RemPledgeTokens := reqPledgeTokens,
    NumPledgedTokens := 0, PledgedTokens := [], PledgedTokenChainBlock := [], TokenList := [] }

/-- The body of the acceptance loop of `initPledgeQuorumToken` for index `i` and token
`t` of the reply `prs` of peer `did`. `initBlock` is `block.InitBlock(·, nil)` of the
block library. Indexing `prs.TokenChainBlock` or `prs.TokenValue` out of range
panics. -/
def acceptToken (initBlock : Bytes → Option Block) (pd : PledgeDetails) (did : String)
    (prs : PledgeReply) (i : Nat) (t : String) : Option PledgeDetails :=
  match prs.TokenChainBlock[i]? with
  | none => none
  | some blk =>
    match checkIsPledged (initBlock blk) with
    | none => none
    | some true => some pd
    | some false =>
      match prs.TokenValue[i]? with
      | none => none
      | some v =>
        some { pd with
          NumPledgedTokens := pd.NumPledgedTokens + 1
          RemPledgeTokens := floatPrecision (f64Sub pd.RemPledgeTokens v) 10
          PledgedTokenChainBlock := pd.PledgedTokenChainBlock.set t blk
          PledgedTokens := pd.PledgedTokens.set did (((pd.PledgedTokens.get did).getD []) ++ [t])
          TokenList := pd.TokenList ++ [t] }

/-- The acceptance loop `for i, t := range prs.Tokens`, from index `i` on. -/
def acceptLoop (initBlock : Bytes → Option Block) (did : String) (prs : PledgeReply) :
    Nat → List String → PledgeDetails → Option PledgeDetails
  | _, [], pd => some pd
  | i, t :: ts, pd =>
    match acceptToken initBlock pd did prs i t with
    | none => none
    | some pd' => acceptLoop initBlock did prs (i + 1) ts pd'

/-- The amount `pledgeTokensPerQuorum` asked of each validator. -/
def pledgeTokensPerQuorum (pd : PledgeDetails) : ℚ :=
  f64Div pd.TransferAmount (MinQuorumRequired : ℚ)

/-- The pledge section of `initPledgeQuorumToken` (alpha role) on the pledge details of
the request, between `cs.PledgeLock.Lock()` and `cs.PledgeLock.Unlock()`: the new
pledge details and the error returned, if any. `rpc` is the result of the
`REQ_PLEDGE_TOKEN` request for `pledgeTokensPerQuorum pd` tokens sent to peer `p`. -/
def pledgeTokens (initBlock : Bytes → Option Block) (pd : PledgeDetails) (p : Peer)
    (rpc : PledgeRPC) : Option (PledgeDetails × Option String) :=
  if pd.RemPledgeTokens ≠ 0 then
    match rpc with
    | .error => some (pd, some "invalid pledge request")
    | .reply prs =>
      if prs.Status then
        let did := p.did
        let pd0 := { pd with PledgedTokens := pd.PledgedTokens.set did [] }
        match acceptLoop initBlock did prs 0 prs.Tokens pd0 with
        | none => none
        | some pd' => some (pd', none)
      else some (pd, none)
  else some (pd, none)

/-- The pledge sections of a sequence of dials, in the order in which they hold the
pledge lock; a dial whose section returns an error leaves the details as they are. -/
def collectPledges (initBlock : Bytes → Option Block) :
    PledgeDetails → List (Peer × PledgeRPC) → Option PledgeDetails
  | pd, [] => some pd
  | pd, (p, rpc) :: rest =>
    match pledgeTokens initBlock pd p rpc with
    | none => none
    | some (pd', _) => collectPledges initBlock pd' rest

/-- A block library for the samples: bytes starting with `4` decode to a pledged block,
other non-empty bytes to a transferred block, and the empty byte string does not decode. -/
def sampleInitBlock : Bytes → Option Block
  | [] => none
  | 4 :: _ => some { transType := TokenPledgedType }
  | _ :: _ => some { transType := TokenTransferredType }

/-- A reply offering one transferred token `"t1"` and one already pledged token `"t2"`. -/
def mixedReply : PledgeReply :=
  { Status := true, Tokens := ["t1", "t2"], TokenValue := [1, 1], TokenChainBlock := [[1], [4]] }

/-! ## The signature and pledge-update loops of `pledgeQuorumToken` -/

/-- The result of a `SIGNATURE_REQUEST` RPC: a transport error or a `SignatureReply`. -/
inductive SignatureRPC where
  | error
  | reply (status : Bool) (message : String) (signature : String)
deriving DecidableEq

/-- The result of an RPC answered by a `model.BasicResponse`. -/
inductive BasicRPC where
  | error
  | reply (status : Bool) (message : String)
deriving DecidableEq

/-- What `pledgeQuorumToken` does towards the validators, in the order in which it does
it: the two RPCs it issues, and the successful `ReplaceSignature` calls on the new block. -/
inductive AssemblyEvent where
  | signatureRequest (did : String)
  | signatureReplaced (did : String)
  | updatePledgeToken (did : String)
deriving DecidableEq, Repr

def AssemblyEvent.isUpdate : AssemblyEvent → Bool
  | .updatePledgeToken _ => true
  | _ => false

/-- The collaborators of the two loops; `β` is the new block `nb`. `signature p` is the
reply of peer `p` to `SIGNATURE_REQUEST`, `replaceSignature nb did sig` is
`nb.ReplaceSignature(did, sig)` (`none` on error), and `updatePledge p tokens nb` is the
reply of peer `p` to `UPDATE_PLEDGE_TOKEN` for `tokens` and the block `nb`. -/
structure AssemblyEnv (β : Type) where
  signature : Peer → SignatureRPC
  replaceSignature : β → String → String → Option β
  updatePledge : Peer → List String → β → BasicRPC

/-- The loop `for k := range pd.PledgedTokens` that collects the signatures, over the
entries in the order the `range` visits them: the events and the result. -/
def signatureLoop {β : Type} (env : AssemblyEnv β) (P : GoMap Peer) :
    List (String × List String) → β → List AssemblyEvent × Except String β
  | [], nb => ([], .ok nb)
  | (k, _) :: rest, nb =>
    match P.get k with
    | none => ([], .error "invalid pledge request, failed to get peer connection")
    | some p =>
      match env.signature p with
      | .error => ([.signatureRequest k], .error "failed to get signature from the quorum")
      | .reply status message signature =>
        if !status then
          ([.signatureRequest k], .error ("failed to get signature from the quorum, " ++ message))
        else
          match env.replaceSignature nb k signature with
          | none => ([.signatureRequest k], .error "failed to update signature to block")
          | some nb' =>
            let r := signatureLoop env P rest nb'
            (.signatureRequest k :: .signatureReplaced k :: r.1, r.2)

/-- The loop `for k, v := range pd.PledgedTokens` that sends the pledge updates. The
peers map holds no nil peer, so the source's `p == nil` exit is not taken. -/
def pledgeUpdateLoop {β : Type} (env : AssemblyEnv β) (P : GoMap Peer) (nb : β) :
    List (String × List String) → List AssemblyEvent × Except String β
  | [] => ([], .ok nb)
  | (k, v) :: rest =>
    match P.get k with
    | none => ([], .error "invalid pledge request")
    | some p =>
      match env.updatePledge p v nb with
      | .error => ([.updatePledgeToken k], .error "failed to update pledge token status")
      | .reply status _ =>
        if !status then
          ([.updatePledgeToken k], .error "failed to update pledge token status")
        else
          let r := pledgeUpdateLoop env P nb rest
          (.updatePledgeToken k :: r.1, r.2)

/-- The part of `pledgeQuorumToken` after the new block `nb` has been created: the
signature loop, then the pledge-update loop. `order1` and `order2` are the entries of
`pd.PledgedTokens` in the orders in which the two `range` loops visit them. -/
def pledgeQuorumTokenSend {β : Type} (env : AssemblyEnv β) (P : GoMap Peer)
    (order1 order2 : List (String × List String)) (nb : β) :
    List AssemblyEvent × Except String β :=
  match signatureLoop env P order1 nb with
  | (tr, .error e) => (tr, .error e)
  | (tr, .ok nb1) =>
    let r := pledgeUpdateLoop env P nb1 order2
    (tr ++ r.1, r.2)

/-- Sample collaborators: the block is the list of DIDs that signed; peer 3 refuses to
sign; every pledge update is accepted. -/
def sampleAssemblyEnv : AssemblyEnv (List String) :=
  { signature := fun p =>
      if p.handle = 3 then .reply false "refused" "" else .reply true "" ("sig" ++ p.did)
    replaceSignature := fun nb did _ => some (nb ++ [did])
    updatePledge := fun _ _ _ => .reply true "" }

/-- Pledged tokens of the validators 1, 2 and 3. -/
def samplePledged : GoMap (List String) :=
  [("did1", ["t1"]), ("did2", ["t2"]), ("did3", ["t3"])]

/-- The peers of the validators 1, 2 and 3. -/
def samplePeers : GoMap Peer :=
  [("did1", samplePeer 1), ("did2", samplePeer 2), ("did3", samplePeer 3)]

/-- Pledge details in which the validators 1, 2 and 3 have pledged one token each. -/
def samplePledgeDetails : PledgeDetails :=
  { newPledgeDetails 3 with RemPledgeTokens := 0, PledgedTokens := samplePledged }

/-- A reply offering the single token `"t1"` of value 2 with a transferred block. -/
def overPledgeReply : PledgeReply :=
  { Status := true, Tokens := ["t1"], TokenValue := [2], TokenChainBlock := [[1]] }

/-- The pledge details after the token `"t1"` of `mixedReply`, offered by validator 1, has
been accepted into fresh pledge details for a transfer of 2. -/
def afterFirstToken : PledgeDetails :=
  { TransferAmount := 2, RemPledgeTokens := 1, NumPledgedTokens := 1,
    PledgedTokens := [("did1", ["t1"])], PledgedTokenChainBlock := [("t1", [1])],
    TokenList := ["t1"] }

/-! ## Value of the recorded pledge -/

/-- The sum of the values of the tokens recorded in `PledgedTokens`, over all validator
DIDs, where `val t` is the value of token `t`. -/
def pledgedValue (val : String → ℚ) (pd : PledgeDetails) : ℚ :=
  (pd.PledgedTokens.map (fun e => (e.2.map val).sum)).sum

/-- Every reply of the sequence reports, for each token it offers, that token's value. -/
def reportsValues (val : String → ℚ) (rs : List (Peer × PledgeRPC)) : Bool :=
  rs.all (fun x =>
    match x.2 with
    | .error => true
    | .reply prs => (prs.Tokens.zip prs.TokenValue).all (fun tv => decide (tv.2 = val tv.1)))

/-- Two dials whose peers have the same DID `"did1"`, each offering one token of value 1. -/
def repeatedPledges : List (Peer × PledgeRPC) :=
  [({ handle := 1, did := "did1" },
      .reply { Status := true, Tokens := ["t1"], TokenValue := [1], TokenChainBlock := [[1]] }),
   ({ handle := 2, did := "did1" },
      .reply { Status := true, Tokens := ["t2"], TokenValue := [1], TokenChainBlock := [[1]] })]

/-- Two validators each offering one token of value 1. -/
def unitPledges : List (Peer × PledgeRPC) :=
  [(samplePeer 1,
      .reply { Status := true, Tokens := ["t1"], TokenValue := [1], TokenChainBlock := [[1]] }),
   (samplePeer 2,
      .reply { Status := true, Tokens := ["t2"], TokenValue := [1], TokenChainBlock := [[1]] })]

/-- The pledge details after `unitPledges` against a transfer of 2. -/
def afterUnitPledges : PledgeDetails :=
  { TransferAmount := 2, RemPledgeTokens := 0, NumPledgedTokens := 2,
    PledgedTokens := [("did2", ["t2"]), ("did1", ["t1"])],
    PledgedTokenChainBlock := [("t2", [1]), ("t1", [1])],
    TokenList := ["t1", "t2"] }

/-! ## Origin of the pledged blocks -/

/-- In the sequence `rs`, a peer with DID `d` answered with status true and offered the
token `t` with the token-chain block `blk`, which is not a pledged block. -/
def offers (initBlock : Bytes → Option Block) (rs : List (Peer × PledgeRPC)) (d t : String)
    (blk : Bytes) : Prop :=
  ∃ (p : Peer) (prs : PledgeReply) (i : Nat), (p, PledgeRPC.reply prs) ∈ rs ∧ p.did = d ∧
    prs.Status = true ∧ prs.Tokens[i]? = some t ∧ prs.TokenChainBlock[i]? = some blk ∧
    checkIsPledged (initBlock blk) = some false

/-- Every recorded token was offered by the validator it is recorded for and has a
block stored, and every stored block was offered for its token by some validator. -/
def BlocksTraced (initBlock : Bytes → Option Block) (rs : List (Peer × PledgeRPC))
    (pd : PledgeDetails) : Prop :=
  (∀ d t, t ∈ (pd.PledgedTokens.get d).getD [] →
      (∃ blk, offers initBlock rs d t blk) ∧
      ∃ blk, pd.PledgedTokenChainBlock.get t = some blk) ∧
    ∀ t blk, pd.PledgedTokenChainBlock.get t = some blk → ∃ d, offers initBlock rs d t blk

/-- Two validators offering the same token `"t1"` with different blocks. -/
def sharedTokenPledges : List (Peer × PledgeRPC) :=
  [(samplePeer 1,
      .reply { Status := true, Tokens := ["t1"], TokenValue := [1], TokenChainBlock := [[1]] }),
   (samplePeer 2,
      .reply { Status := true, Tokens := ["t1"], TokenValue := [1], TokenChainBlock := [[2]] })]

/-! ## The exits of `initiateConsensus` -/

/-- The function `sendQuorumCredit`: for every credit signature whose DID has a peer in
the request state, the credit list is sent to that peer and the peer is closed; what the
peer answers is only logged. -/
def sendQuorumCredit (c : Core) (id : String) : Core :=
  match c.quorumRequest.get id with
  | none => c
  | some cs =>
    cs.Credit.foldl
      (fun c' v =>
        match cs.P.get v.DID with
        | none => c'
        | some p => c'.close p)
      c

/-- The deferred function of `initiateConsensus`: both registry entries are deleted. -/
def deferredCleanup (c : Core) (id : String) : Core :=
  { c with quorumRequest := c.quorumRequest.delete id, pd := c.pd.delete id }

/-- The function `initiateConsensus` from the pass of the polling loop that leaves the
barrier to its return, on the registry `c` observed by that pass; `none` when that pass
does not leave the barrier. `assembly` is the error returned by `pledgeQuorumToken` and
`delivery` the error of the mode-specific steps after `sendQuorumCredit` (receiver
delivery, wallet updates), `none` for no error. The value is the registry at the return
and the error returned. -/
def initiateConsensusReturn (c : Core) (id : String) (assembly delivery : Option String) :
    Option (Core × Option String) :=
  let o := barrierObserve c id
  if o.loop then none
  else
    match o.err with
    | some e => some (deferredCleanup c id, some e)
    | none =>
      match assembly with
      | some e => some (deferredCleanup c id, some e)
      | none =>
        let c1 := sendQuorumCredit c id
        match delivery with
        | some e => some (deferredCleanup c1 id, some e)
        | none => some (deferredCleanup c1 id, none)

/-- Five candidates: the validators 1 to 4 report consensus success, validator 5 refuses. -/
def shortfallSchedule : List DialEvent :=
  [.start 0, .start 1, .start 2, .start 3, .start 4,
   .finish 0 (.consensusOk (samplePeer 1) "h" [] []),
   .finish 1 (.consensusOk (samplePeer 2) "h" [] []),
   .finish 2 (.consensusOk (samplePeer 3) "h" [] []),
   .finish 3 (.consensusOk (samplePeer 4) "h" [] []),
   .finish 4 (.consensusRefused (samplePeer 5))]

/-- Six candidates: the validators 1 to 6 all report consensus success. -/
def successSchedule : List DialEvent :=
  [.start 0, .start 1, .start 2, .start 3, .start 4, .start 5,
   .finish 0 (.consensusOk (samplePeer 1) "h" [] []),
   .finish 1 (.consensusOk (samplePeer 2) "h" [] []),
   .finish 2 (.consensusOk (samplePeer 3) "h" [] []),
   .finish 3 (.consensusOk (samplePeer 4) "h" [] []),
   .finish 4 (.consensusOk (samplePeer 5) "h" [] []),
   .finish 5 (.consensusOk (samplePeer 6) "h" [] [])]

/-- The handles closed and the error returned when `initiateConsensus` returns after
the dial steps `events` on a quorum list `ql`, from the registry `sampleCore`. -/
def roundOutcome (ql : List String) (events : List DialEvent)
    (assembly delivery : Option String) : Option (List Nat × Option String) :=
  match Round.run "req" (Round.init sampleCore ql) events with
  | none => none
  | some r =>
    match initiateConsensusReturn r.core "req" assembly delivery with
    | none => none
    | some out => some (out.1.closed, out.2)

/-! ## Block composition in `pledgeQuorumToken` -/

/-- Modelled from the spec: the transaction-type constant `block.TokenGeneratedType`,
named `TOKEN_GENERATED` in the spec. -/
def TokenGeneratedType : String := "TOKEN_GENERATED"

/-- Modelled from the spec: the transaction-type constant `block.TokenCommittedType`,
named `TOKEN_COMMITTED` in the spec. -/
def TokenCommittedType : String := "TOKEN_COMMITTED"

/-- A `contract.TokenInfo`, as far as `pledgeQuorumToken` reads it. -/
structure TokenInfo where
  Token : String
  TokenType : Int
  TokenValue : ℚ
  OwnerDID : String
deriving DecidableEq

/-- What `pledgeQuorumToken` reads of the contract `sc` through its getters. -/
structure Contract where
  TransTokenInfo : List TokenInfo
  CommitedTokensInfo : List TokenInfo
  DeployerDID : String
  ExecutorDID : String
  SenderDID : String
  ReceiverDID : String
  Comment : String
  Block : Bytes
  SmartContractData : String
deriving DecidableEq

structure PledgeDetail where
  Token : String
  TokenType : Int
  DID : String
  TokenBlockID : String
deriving DecidableEq, Repr

structure TransTokens where
  Token : String
  TokenType : Int
  CommitedDID : String := ""
deriving DecidableEq, Repr

structure TransInfo where
  SenderDID : String := ""
  ReceiverDID : String := ""
  Comment : String
  TID : String
  Tokens : List TransTokens
  DeployerDID : String := ""
  ExecutorDID : String := ""
deriving DecidableEq, Repr

structure GenesisTokenInfo where
  Token : String
  CommitedTokens : List TransTokens
  SmartContractValue : ℚ
deriving DecidableEq

/-- A `block.GenesisBlock`; `GenesisType` is its field `Type`. -/
structure GenesisBlock where
  GenesisType : String
  Info : List GenesisTokenInfo
deriving DecidableEq

structure TokenChainBlock where
  TransactionType : String
  TokenOwner : String
  TransInfo : TransInfo
  QuorumSignature : List String
  SmartContract : Bytes
  GenesisBlock : Option GenesisBlock := none
  PledgeDetails : List PledgeDetail
  SmartContractData : String := ""
deriving DecidableEq

/-- The committed-token records and their total value, as the deploy branch of
`pledgeQuorumToken` accumulates them. -/
def commitedTokenInfoArray (commitedTokens : List TokenInfo) : List TransTokens × ℚ :=
  commitedTokens.foldl
    (fun acc t =>
      (acc.1 ++ [{ Token := t.Token, TokenType := t.TokenType, CommitedDID := t.OwnerDID }],
       f64Add acc.2 t.TokenValue))
    ([], 0)

/-- The composition of the token-chain block `tcb` in `pledgeQuorumToken`: the branch on
`cr.Mode`, followed by the override for the data-commit mode. `bti` is the transaction
info built so far, `credit` the serialized credit list and `ptds` the pledge details. -/
def composeTokenChainBlock (mode : Int) (smartContractToken : String) (sc : Contract)
    (bti : TransInfo) (credit : List String) (ptds : List PledgeDetail) : TokenChainBlock :=
  let tcb : TokenChainBlock :=
    if mode = SmartContractDeployMode then
      let bti1 := { bti with DeployerDID := sc.DeployerDID }
      let commited := commitedTokenInfoArray sc.CommitedTokensInfo
      let smartContractGensisBlock : GenesisBlock :=
        { GenesisType := TokenGeneratedType,
          Info := [{ Token := smartContractToken, CommitedTokens := commited.1,
                     SmartContractValue := commited.2 }] }
      { TransactionType := TokenGeneratedType, TokenOwner := sc.DeployerDID, TransInfo := bti1,
        QuorumSignature := credit, SmartContract := sc.Block,
        GenesisBlock := some smartContractGensisBlock, PledgeDetails := ptds }
    else if mode = SmartContractExecuteMode then
      let bti1 := { bti with ExecutorDID := sc.ExecutorDID }
      { TransactionType := TokenGeneratedType, TokenOwner := sc.ExecutorDID, TransInfo := bti1,
        QuorumSignature := credit, SmartContract := sc.Block, PledgeDetails := ptds,
        SmartContractData := sc.SmartContractData }
    else
      let bti1 := { bti with SenderDID := sc.SenderDID, ReceiverDID := sc.ReceiverDID }
      { TransactionType := TokenTransferredType, TokenOwner := sc.ReceiverDID, TransInfo := bti1,
        QuorumSignature := credit, SmartContract := sc.Block, PledgeDetails := ptds }
  if mode = DTCommitMode then { tcb with TransactionType := TokenCommittedType } else tcb

/-! ## The poll loop of `initPledgeQuorumToken` -/

/-- What one pass of the poll loop reads under `qlock`: `none` when the pledge details
of the request have been dropped, otherwise their `RemPledgeTokens`. -/
def pledgeObservation (c : Core) (id : String) : Option ℚ :=
  match c.pd.get id with
  | none => none
  | some pd => some pd.RemPledgeTokens

/-- The poll loop of `initPledgeQuorumToken`, entered with the counter at `count`:
`obs k` is what the pass that raises the counter to `k` observes. The value is the
counter at the return and the error returned; it is `none` when `fuel` passes do not
reach a return. -/
def pledgePollLoop (obs : Nat → Option ℚ) : Nat → Nat → Option (Nat × Option String)
  | 0, _ => none
  | fuel + 1, count =>
    let count1 := count + 1
    match obs count1 with
    | none => some (count1, some "invalid pledge request")
    | some rem =>
      if rem = 0 then some (count1, none)
      else if count1 = 300 then some (count1, some "unable to pledge token")
      else pledgePollLoop obs fuel count1

/-- The poll loop run against the registry states `cores k` seen by its passes. -/
def initPledgePoll (id : String) (cores : Nat → Core) (fuel : Nat) :
    Option (Nat × Option String) :=
  pledgePollLoop (fun k => pledgeObservation (cores k) id) fuel 0

/-- A registry in which the pledge details of `"req"` have the given remaining pledge. -/
def coreWithRemaining (rem : ℚ) : Core :=
  { quorumRequest := [("req", freshStatus)],
    pd := [("req", { newPledgeDetails 5 with RemPledgeTokens := rem })], closed := [] }

/-- Registry states in which the remaining pledge is 1 up to the second pass and 0 from
the third pass on. -/
def sampleCores (k : Nat) : Core :=
  if k < 3 then coreWithRemaining 1 else coreWithRemaining 0

/-! ## The round up to the barrier exit, as a step model -/

/-- A step of the round after the fan-out: a step of a dial, or a pass of the polling
loop of the initiator. -/
inductive RoundEvent where
  | dial (e : DialEvent)
  | poll
deriving DecidableEq

/-- The round together with the initiator: `exit` is `none` while the initiator is in
the polling loop and holds `err` once a pass has left it. -/
structure BarrierRound where
  round : Round
  exit : Option (Option String)
deriving DecidableEq

/-- The state after the fan-out over the quorum list `ql`. -/
def BarrierRound.init (c : Core) (ql : List String) : BarrierRound :=
  { round := Round.init c ql, exit := none }

/-- One step of the round for request `id`, up to the pass that leaves the barrier;
`none` when the event is not enabled. -/
def BarrierRound.step (id : String) (s : BarrierRound) : RoundEvent → Option BarrierRound
  | .dial e =>
    match s.exit with
    | some _ => none
    | none =>
      match s.round.step id e with
      | some r => some { s with round := r }
      | none => none
  | .poll =>
    match s.exit with
    | some _ => none
    | none =>
      let o := barrierObserve s.round.core id
      if o.loop then some s else some { s with exit := some o.err }

/-- A schedule of steps of the round. -/
def BarrierRound.run (id : String) (s : BarrierRound) : List RoundEvent → Option BarrierRound
  | [] => some s
  | e :: rest =>
    match s.step id e with
    | some s' => BarrierRound.run id s' rest
    | none => none

/-- The counters of the request as a triple `(running, success, failed)`. -/
def BarrierRound.counters (id : String) (s : BarrierRound) : Option (Int × Int × Int) :=
  match s.round.core.quorumRequest.get id with
  | none => none
  | some cs => some (cs.Result.RunningCount, cs.Result.SuccessCount, cs.Result.FailedCount)

/-- The state in which the initiator has polled before any of five dials has started. -/
def earlyPollEnd : BarrierRound :=
  { round := Round.init sampleCore ["a", "b", "c", "d", "e"], exit := some (some "consensus failed") }

/-- Two candidates: both dials start, both are refused, then the initiator polls. -/
def refusedSchedule : List RoundEvent :=
  [.dial (.start 0), .dial (.start 1), .dial (.finish 0 (.consensusRefused (samplePeer 1))),
   .poll, .dial (.finish 1 (.consensusRefused (samplePeer 2))), .poll]

/-- The state `refusedSchedule` leads to from `sampleCore`. -/
def refusedScheduleEnd : BarrierRound :=
  { round :=
      { core := { quorumRequest := [("req", { Credit := [], P := [], Result := ⟨0, 0, 2⟩ })],
                  pd := [], closed := [1, 2] },
        dials := [DialPhase.done, DialPhase.done] },
    exit := some (some "consensus failed") }

/-! ## The function `pledgeQuorumToken` -/

/-- The collaborators of `pledgeQuorumToken` before its two loops; `β` is the new block.
`marshal` is `json.Marshal` on a credit signature, `initBlock` is `block.InitBlock(·, nil)`,
`getTokenType` and `getBlockID` are the methods of a decoded block, `getLatestTokenBlock`
is the wallet lookup, `createNewBlock` is `block.CreateNewBlock` and `getBlock` is
`nb.GetBlock()`. `none` stands for an error, or for a nil result. -/
structure AssemblerLib (β : Type) where
  marshal : CreditSignature → Option String
  initBlock : Bytes → Option Block
  getTokenType : Block → String → Int
  getBlockID : Block → String → Option String
  getLatestTokenBlock : String → Int → Option Block
  createNewBlock : GoMap (Option Block) → TokenChainBlock → Option β
  getBlock : β → Option Bytes

/-- The loop that serializes the credit list. -/
def marshalCredit {β : Type} (lib : AssemblerLib β) :
    List CreditSignature → Except String (List String)
  | [] => .ok []
  | csig :: rest =>
    match lib.marshal csig with
    | none => .error "failed to parse quorum credit"
    | some jb =>
      match marshalCredit lib rest with
      | .error e => .error e
      | .ok credit => .ok (jb :: credit)

/-- The inner loop `for _, t := range v` that builds the pledge details of the tokens
pledged by the validator `k`. -/
def pledgeDetailsOf {β : Type} (lib : AssemblerLib β) (pd : PledgeDetails) (k : String) :
    List String → Except String (List PledgeDetail)
  | [] => .ok []
  | t :: ts =>
    match pd.PledgedTokenChainBlock.get t with
    | none => .error "failed to get pledge token block"
    | some blk =>
      match lib.initBlock blk with
      | none => .error "invalid pledge token block"
      | some ptb =>
        match lib.getBlockID ptb t with
        | none => .error "failed to get block id"
        | some bid =>
          match pledgeDetailsOf lib pd k ts with
          | .error e => .error e
          | .ok ptds =>
            .ok ({ Token := t, TokenType := lib.getTokenType ptb t, DID := k,
                   TokenBlockID := bid } :: ptds)

/-- The outer loop `for k, v := range pd.PledgedTokens` that builds the pledge details,
over the entries in the order the `range` visits them. -/
def pledgeDetailList {β : Type} (lib : AssemblerLib β) (pd : PledgeDetails) :
    List (String × List String) → Except String (List PledgeDetail)
  | [] => .ok []
  | (k, v) :: rest =>
    match pledgeDetailsOf lib pd k v with
    | .error e => .error e
    | .ok ptds =>
      match pledgeDetailList lib pd rest with
      | .error e => .error e
      | .ok more => .ok (ptds ++ more)

/-- The transacted tokens `tks` and the map `ctcb` of their latest blocks. Indexing
`ti[0]` panics when the contract carries no token. -/
def transTokens {β : Type} (lib : AssemblerLib β) (sc : Contract) :
    Option (List TransTokens × GoMap (Option Block)) :=
  let ti := sc.TransTokenInfo
  if sc.DeployerDID ≠ "" then
    match ti[0]? with
    | none => none
    | some t0 =>
      some ([{ Token := t0.Token, TokenType := t0.TokenType }],
            GoMap.set [] t0.Token none)
  else if sc.ExecutorDID ≠ "" then
    match ti[0]? with
    | none => none
    | some t0 =>
      some ([{ Token := t0.Token, TokenType := t0.TokenType }],
            GoMap.set [] t0.Token (lib.getLatestTokenBlock t0.Token t0.TokenType))
  else
    some (ti.map (fun t => { Token := t.Token, TokenType := t.TokenType }),
          ti.foldl (fun m t => GoMap.set m t.Token (lib.getLatestTokenBlock t.Token t.TokenType))
            [])

/-- The function `pledgeQuorumToken` for the request `id`: the events towards the
validators and the result; `none` is a panic. `order0`, `order1` and `order2` are the
entries of `pd.PledgedTokens` in the orders in which the three `range` loops visit them. -/
def pledgeQuorumToken {β : Type} (lib : AssemblerLib β) (env : AssemblyEnv β) (c : Core)
    (id : String) (mode : Int) (smartContractToken : String) (sc : Contract) (tid : String)
    (order0 order1 order2 : List (String × List String)) :
    Option (List AssemblyEvent × Except String β) :=
  match c.pd.get id, c.quorumRequest.get id with
  | some pd, some cs =>
    match marshalCredit lib cs.Credit with
    | .error e => some ([], .error e)
    | .ok credit =>
      match pledgeDetailList lib pd order0 with
      | .error e => some ([], .error e)
      | .ok ptds =>
        match transTokens lib sc with
        | none => none
        | some (tks, ctcb) =>
          let bti : TransInfo := { Comment := sc.Comment, TID := tid, Tokens := tks }
          let tcb := composeTokenChainBlock mode smartContractToken sc bti credit ptds
          match lib.createNewBlock ctcb tcb with
          | none => some ([], .error "failed to create new token chain block")
          | some nb =>
            match lib.getBlock nb with
            | none => some ([], .error "failed to get new block")
            | some _ => some (pledgeQuorumTokenSend env cs.P order1 order2 nb)
  | _, _ => some ([], .error "invalid pledge request")

/-- The error of a result, if it is one. -/
def errorOf {β : Type} : Except String β → Option String
  | .error e => some e
  | .ok _ => none

/-- Sample collaborators: every call succeeds, and the new block is the list of the
DIDs that signed. -/
def sampleAssemblerLib : AssemblerLib (List String) :=
  { marshal := fun csig => some csig.DID
    initBlock := sampleInitBlock
    getTokenType := fun _ _ => 0
    getBlockID := fun _ t => some ("block-" ++ t)
    getLatestTokenBlock := fun _ _ => some { transType := TokenTransferredType }
    createNewBlock := fun _ _ => some []
    getBlock := fun _ => some [0] }

/-- Sample validators that answer every request with status true. -/
def okAssemblyEnv : AssemblyEnv (List String) :=
  { signature := fun p => .reply true "" ("sig" ++ p.did)
    replaceSignature := fun nb did _ => some (nb ++ [did])
    updatePledge := fun _ _ _ => .reply true "" }

/-- A transfer contract of five tokens of value 1. -/
def sampleContract : Contract :=
  { TransTokenInfo := (List.range 5).map (fun n =>
      { Token := "tok" ++ toString n, TokenType := 0, TokenValue := 1, OwnerDID := "sender" })
    CommitedTokensInfo := [], DeployerDID := "", ExecutorDID := "", SenderDID := "sender",
    ReceiverDID := "receiver", Comment := "", Block := [7], SmartContractData := "" }

/-- The validators 1 to `n`, each answering the pledge request with one token of value
`v` and a transferred block. -/
def equalPledges (n : Nat) (v : ℚ) : List (Peer × PledgeRPC) :=
  (List.range n).map (fun i =>
    (samplePeer (i + 1),
     PledgeRPC.reply { Status := true, Tokens := ["t" ++ toString (i + 1)], TokenValue := [v],
                       TokenChainBlock := [[1]] }))

/-- The dials of `n` candidates all start and then all report consensus success, the
dial of candidate `i` with the peer of validator `i + 1`. -/
def allSucceed (n : Nat) : List DialEvent :=
  (List.range n).map (fun i => DialEvent.start i) ++
    (List.range n).map (fun i =>
      DialEvent.finish i (DialOutcome.consensusOk (samplePeer (i + 1)) "h" [1, 2] [255]))

/-- The registry after the validators 1 to `n` have each pledged one token of value `v`
towards a transfer of 5 and have then all reported consensus success. -/
def pledgedRound (n : Nat) (v : ℚ) : Option Core :=
  match collectPledges sampleInitBlock (newPledgeDetails 5) (equalPledges n v),
        Round.run "req" (Round.init sampleCore ((List.range n).map toString)) (allSucceed n) with
  | some pd, some r => some { r.core with pd := GoMap.set r.core.pd "req" pd }
  | _, _ => none

/-- The events and the error of `pledgeQuorumToken` on the registry `c`, for the sample
contract and collaborators, the three `range` loops visiting the entries of
`PledgedTokens` in the order of the association list. -/
def sampleAssembly (c : Core) : Option (List AssemblyEvent × Option String) :=
  match c.pd.get "req" with
  | none => none
  | some pd =>
    match pledgeQuorumToken sampleAssemblerLib okAssemblyEnv c "req" RBTTransferMode ""
        sampleContract "tid" pd.PledgedTokens pd.PledgedTokens pd.PledgedTokens with
    | none => none
    | some out => some (out.1, errorOf out.2)

/-- The tokens pledged by the validators 1 to 5, one each. -/
def fivePledged : GoMap (List String) :=
  (List.range 5).reverse.map (fun i => ("did" ++ toString (i + 1), ["t" ++ toString (i + 1)]))

/-- The blocks of the tokens pledged by the validators 1 to 5. -/
def fiveBlocks : GoMap Bytes :=
  (List.range 5).reverse.map (fun i => ("t" ++ toString (i + 1), [1]))

/-- The peers of the validators 1 to 5. -/
def fivePeers : GoMap Peer :=
  (List.range 5).reverse.map (fun i => ("did" ++ toString (i + 1), samplePeer (i + 1)))

/-- The registry after five validators have each pledged one token of value 1 towards a
transfer of 5 and have all reported consensus success. -/
def fivePledgersCore : Core :=
  { quorumRequest :=
      [("req",
        { Credit := (List.range 5).map (fun i =>
            { Signature := "0102", PrivSignature := "ff", DID := "did" ++ toString (i + 1),
              Hash := "h" }),
          P := fivePeers,
          Result := ⟨0, 5, 0⟩ })],
    pd :=
      [("req",
        { TransferAmount := 5, RemPledgeTokens := 0, NumPledgedTokens := 5,
          PledgedTokens := fivePledged,
          PledgedTokenChainBlock := fiveBlocks,
          TokenList := (List.range 5).map (fun i => "t" ++ toString (i + 1)) })],
    closed := [] }

/-! ## The locks in `initPledgeQuorumToken` -/

/-- An operation on the registry lock `c.qlock` or on the pledge lock `cs.PledgeLock`. -/
inductive LockOp where
  | qLock
  | qUnlock
  | pledgeLock
  | pledgeUnlock
deriving DecidableEq, Repr

/-- The registry lock as seen by one call, after the call has performed the operations
`ops` starting with the lock held by it (`true`) or not (`false`): `none` when the call
unlocks the lock while not holding it, or locks it again while holding it. -/
def qlockAfter : Bool → List LockOp → Option Bool
  | held, [] => some held
  | held, .qLock :: rest => if held then none else qlockAfter true rest
  | held, .qUnlock :: rest => if held then qlockAfter false rest else none
  | held, .pledgeLock :: rest => qlockAfter held rest
  | held, .pledgeUnlock :: rest => qlockAfter held rest

/-- Every acquisition of the registry lock is followed by exactly one release, and the
lock is never released while not held. -/
def qlockBalanced (ops : List LockOp) : Bool :=
  qlockAfter false ops = some false

/-- The lock operations of `k` passes of the poll loop. -/
def pollLockOps : Nat → List LockOp
  | 0 => []
  | k + 1 => LockOp.qLock :: LockOp.qUnlock :: pollLockOps k

/-- The lock operations of the pledge section once both lookups have succeeded, up to
the release of the pledge lock: the registry lock is taken again only to store the
pledge details after a reply with status true. -/
def pledgeSectionLockOps (pd : PledgeDetails) (rpc : PledgeRPC) : List LockOp :=
  if pd.RemPledgeTokens ≠ 0 then
    match rpc with
    | .error => [.pledgeUnlock]
    | .reply prs =>
      if prs.Status then [.qLock, .qUnlock, .pledgeUnlock] else [.pledgeUnlock]
  else [.pledgeUnlock]

/-- The function `initPledgeQuorumToken` for the request `id`, on the registry `c` seen
by its pledge section and the registries `cores k` seen by the passes of its poll loop:
the lock operations it performs, in order, and the error it returns. `rpc` is the result
of the pledge request, should it be sent. The value is `none` on a panic and when `fuel`
passes of the poll loop do not reach a return. An unlock is recorded whether or not the
lock is held; what the run time does on an unlock of a lock that is not held is left to
`qlockAfter`. -/
def initPledgeQuorumToken (initBlock : Bytes → Option Block) (c : Core) (id : String)
    (p : Peer) (qt : Int) (rpc : PledgeRPC) (cores : Nat → Core) (fuel : Nat) :
    Option (List LockOp × Option String) :=
  let poll (ops : List LockOp) : Option (List LockOp × Option String) :=
    match initPledgePoll id cores fuel with
    | none => none
    | some (k, err) => some (ops ++ pollLockOps k, err)
  if qt = AlphaQuorumType then
    match c.quorumRequest.get id with
    | none => some ([.qLock, .qUnlock, .qUnlock], some "invalid request")
    | some _ =>
      match c.pd.get id with
      | none =>
        some ([.qLock, .qUnlock, .pledgeLock, .qLock, .qUnlock, .pledgeUnlock],
              some "invalid pledge request")
      | some pd =>
        let ops := [LockOp.qLock, .qUnlock, .pledgeLock, .qLock, .qUnlock] ++
          pledgeSectionLockOps pd rpc
        match pledgeTokens initBlock pd p rpc with
        | none => none
        | some (_, some err) => some (ops, some err)
        | some (_, none) => poll ops
  else poll []

/-! ## Rounding loss of the deductions -/

/-- The value of `RemPledgeTokens` after the acceptance loop has deducted, in this order,
tokens of the values `vs` from `rem`: each deduction is the `float64` subtraction of
the source followed by `floatPrecision(·, 10)`. -/
def remainingAfter (rem : ℚ) : List ℚ → ℚ
  | [] => rem
  | v :: vs => remainingAfter (floatPrecision (f64Sub rem v) 10) vs

/-- For each of the deductions of `remainingAfter rem vs`, the amount by which the
deduction lowers `RemPledgeTokens` beyond the value of the token: the exact difference
less the result of the `float64` subtraction and rounding. -/
def deductionLosses (rem : ℚ) : List ℚ → List ℚ
  | [] => []
  | v :: vs =>
    (rem - v - floatPrecision (f64Sub rem v) 10) ::
      deductionLosses (floatPrecision (f64Sub rem v) 10) vs

/-- The pledge details balance for the token values `val`: `RemPledgeTokens` is what the
deductions for the tokens of `TokenList` leave of the transfer amount,
`NumPledgedTokens` is the number of those tokens, and the value recorded in
`PledgedTokens`, the remaining pledge and the losses of the deductions add up to the
transfer amount. -/
def PledgeBalanced (val : String → ℚ) (pd : PledgeDetails) : Prop :=
  pd.RemPledgeTokens = remainingAfter pd.TransferAmount (pd.TokenList.map val) ∧
  pd.NumPledgedTokens = (pd.TokenList.length : ℤ) ∧
  pledgedValue val pd + pd.RemPledgeTokens +
      (deductionLosses pd.TransferAmount (pd.TokenList.map val)).sum = pd.TransferAmount

/-- The value of the tokens of `roundingPledges`: `"t1"` is worth `3 · 2^(-33)` and
`"t2"` is worth `2^22 - 2^(-31)`; both are `float64` values. -/
def roundingValue (t : String) : ℚ :=
  if t = "t1" then 3 / 2 ^ 33 else 4194304 - 1 / 2 ^ 31

/-- Two validators with distinct DIDs: the first offers `"t1"`, the second `"t2"`. -/
def roundingPledges : List (Peer × PledgeRPC) :=
  [(samplePeer 1,
      .reply { Status := true, Tokens := ["t1"], TokenValue := [3 / 2 ^ 33],
               TokenChainBlock := [[1]] }),
   (samplePeer 2,
      .reply { Status := true, Tokens := ["t2"], TokenValue := [4194304 - 1 / 2 ^ 31],
               TokenChainBlock := [[1]] })]

/-- The pledge details after `roundingPledges` against a transfer of `2^22`. -/
def afterRoundingPledges : PledgeDetails :=
  { TransferAmount := 4194304, RemPledgeTokens := 0, NumPledgedTokens := 2,
    PledgedTokens := [("did2", ["t2"]), ("did1", ["t1"])],
    PledgedTokenChainBlock := [("t2", [1]), ("t1", [1])],
    TokenList := ["t1", "t2"] }

/-! ## The function `initiateConsensus` as a step model -/

/-- The registration in `initiateConsensus`: under `qlock`, a fresh request state and
fresh pledge details for `reqPledgeTokens` are stored under the request id. -/
def initiateConsensusRegister (c : Core) (id : String) (reqPledgeTokens : ℚ) : Core :=
  { c with quorumRequest := c.quorumRequest.set id freshStatus,
           pd := c.pd.set id (newPledgeDetails reqPledgeTokens) }

/-- The function `initiateConsensus` from the `break` of the polling loop, left with
`err`, to its return, on the registry `c` at that time: the registry at the return and
the error returned. `assembly` and `delivery` are as in `initiateConsensusReturn`. The
deferred function runs on every one of these returns. -/
def initiateConsensusExit (c : Core) (id : String) (err assembly delivery : Option String) :
    Core × Option String :=
  match err with
  | some e => (deferredCleanup c id, some e)
  | none =>
    match assembly with
    | some e => (deferredCleanup c id, some e)
    | none =>
      let c1 := sendQuorumCredit c id
      match delivery with
      | some e => (deferredCleanup c1 id, some e)
      | none => (deferredCleanup c1 id, none)

/-- Where the initiator stands in `initiateConsensus`: before the check of the quorum
list; registered and in the fan-out loop with the candidates `rest` still to be
launched (in the polling loop once `rest` is empty); past the `break` of the polling
loop with `err`; or returned with the error `err`. -/
inductive InitiatorPhase where
  | entry
  | fanOut (rest : List String)
  | leaving (err : Option String)
  | returned (err : Option String)
deriving DecidableEq

/-- A run of `initiateConsensus` in progress: the registry with the dials launched so
far, the candidates they were launched for, and where the initiator stands. -/
structure Initiator where
  round : Round
  launched : List String
  phase : InitiatorPhase
deriving DecidableEq

/-- The atomic steps of `initiateConsensus` and of the goroutines it launches: the check
of the quorum list with, when it passes, the registration; one iteration of the fan-out
loop; a `startConsensus` or `finishConsensus` step of a launched dial; the pledge
section of `initPledgeQuorumToken` in a launched dial; one pass of the polling loop;
and the rest of the function from the `break` to the return, taken as one step: the
last thing it does is the deferred function, one critical section under `qlock`. -/
inductive InitiatorEvent where
  | register
  | launch
  | dial (e : DialEvent)
  | pledge (i : Nat) (p : Peer) (rpc : PledgeRPC)
  | poll
  | finish (assembly delivery : Option String)
deriving DecidableEq

/-- The state in which `initiateConsensus` is entered on the registry `c`. -/
def Initiator.init (c : Core) : Initiator :=
  { round := { core := c, dials := [] }, launched := [], phase := InitiatorPhase.entry }

/-- One step of `initiateConsensus` for request `id`, the quorum list `ql` returned by
the quorum manager (a nil list is the empty list) and the pledge `reqPledgeTokens`;
`none` when the event is not enabled. The steps of the dials are enabled in every
phase: a dial runs on after the initiator has returned. -/
def Initiator.step (initBlock : Bytes → Option Block) (id : String) (ql : List String)
    (reqPledgeTokens : ℚ) (s : Initiator) : InitiatorEvent → Option Initiator
  | .register =>
    match s.phase with
    | .entry =>
      if (ql.length : Int) < MinQuorumRequired then
        some { s with phase := InitiatorPhase.returned (some "failed to get required quorums") }
      else
        some { s with
          round := { s.round with
            core := initiateConsensusRegister s.round.core id reqPledgeTokens }
          phase := InitiatorPhase.fanOut ql }
    | _ => none
  | .launch =>
    match s.phase with
    | .fanOut (a :: rest) =>
      some { round := { s.round with dials := s.round.dials ++ [DialPhase.idle] },
             launched := s.launched ++ [a],
             phase := InitiatorPhase.fanOut rest }
    | _ => none
  | .dial e =>
    match s.round.step id e with
    | some r => some { s with round := r }
    | none => none
  | .pledge i p rpc =>
    if s.round.dials[i]? = some DialPhase.running then
      match s.round.core.quorumRequest.get id with
      | none => some s
      | some _ =>
        match s.round.core.pd.get id with
        | none => some s
        | some pd =>
          match pledgeTokens initBlock pd p rpc with
          | none => none
          | some (pd', _) =>
            some { s with
              round := { s.round with
                core := { s.round.core with pd := s.round.core.pd.set id pd' } } }
    else none
  | .poll =>
    match s.phase with
    | .fanOut [] =>
      let o := barrierObserve s.round.core id
      if o.loop then some s else some { s with phase := InitiatorPhase.leaving o.err }
    | _ => none
  | .finish assembly delivery =>
    match s.phase with
    | .leaving err =>
      let out := initiateConsensusExit s.round.core id err assembly delivery
      some { s with round := { s.round with core := out.1 },
                    phase := InitiatorPhase.returned out.2 }
    | _ => none

/-- A schedule of steps of `initiateConsensus` and its dials. -/
def Initiator.run (initBlock : Bytes → Option Block) (id : String) (ql : List String)
    (reqPledgeTokens : ℚ) (s : Initiator) : List InitiatorEvent → Option Initiator
  | [] => some s
  | e :: rest =>
    match s.step initBlock id ql reqPledgeTokens e with
    | some s' => Initiator.run initBlock id ql reqPledgeTokens s' rest
    | none => none

/-- Both registries hold an entry for the request. -/
def Core.Registered (c : Core) (id : String) : Prop :=
  (c.quorumRequest.get id).isSome = true ∧ (c.pd.get id).isSome = true

/-- Neither registry holds an entry for the request. -/
def Core.Dropped (c : Core) (id : String) : Prop :=
  c.quorumRequest.get id = none ∧ c.pd.get id = none

/-- What holds of a run of `initiateConsensus` entered on the registry `c`, phase by
phase. -/
def Initiator.Lifecycle (c : Core) (id : String) (ql : List String) (s : Initiator) : Prop :=
  s.round.dials.length = s.launched.length ∧
  match s.phase with
  | .entry => s.round.core = c ∧ s.launched = []
  | .fanOut rest =>
    ¬ (ql.length : Int) < MinQuorumRequired ∧ s.round.core.Registered id ∧
      s.launched ++ rest = ql
  | .leaving _ =>
    ¬ (ql.length : Int) < MinQuorumRequired ∧ s.round.core.Registered id ∧ s.launched = ql
  | .returned err =>
    s.round.core.Dropped id ∧
      (((ql.length : Int) < MinQuorumRequired ∧ s.round.core = c ∧ s.launched = [] ∧
          err = some "failed to get required quorums") ∨
        (¬ (ql.length : Int) < MinQuorumRequired ∧ s.launched = ql))

/-- A registry without any request. -/
def emptyCore : Core :=
  { quorumRequest := [], pd := [], closed := [] }

/-- A run of `initiateConsensus` over five candidates: registration, five launches, the
five dials start, the first validator pledges one token, the validators 1 to 4 report
consensus success while the initiator polls, validator 5 refuses, and the next pass of
the polling loop leaves the barrier. -/
def shortfallRun : List InitiatorEvent :=
  [.register, .launch, .launch, .launch, .launch, .launch,
   .dial (.start 0), .dial (.start 1), .dial (.start 2), .dial (.start 3), .dial (.start 4),
   .pledge 0 (samplePeer 1) (.reply mixedReply),
   .dial (.finish 0 (.consensusOk (samplePeer 1) "h" [] [])),
   .dial (.finish 1 (.consensusOk (samplePeer 2) "h" [] [])),
   .poll,
   .dial (.finish 2 (.consensusOk (samplePeer 3) "h" [] [])),
   .dial (.finish 3 (.consensusOk (samplePeer 4) "h" [] [])),
   .dial (.finish 4 (.consensusRefused (samplePeer 5))),
   .poll, .finish none none]

/-- The state `shortfallRun` leads to from `emptyCore`: only handle 5 is closed. -/
def shortfallRunEnd : Initiator :=
  { round := { core := { quorumRequest := [], pd := [], closed := [5] },
               dials := [.done, .done, .done, .done, .done] },
    launched := ["a", "b", "c", "d", "e"],
    phase := InitiatorPhase.returned (some "consensus failed") }

/-- The `float64` value of the literal `0.51e-10`. -/
def smallValue : ℚ := roundF64 (51 / 10 ^ 12)

/-- Three validators with distinct DIDs, each offering one token of value `smallValue`. -/
def smallPledges : List (Peer × PledgeRPC) :=
  [1, 2, 3].map (fun n =>
    (samplePeer n,
      PledgeRPC.reply { Status := true, Tokens := ["t" ++ toString n],
                        TokenValue := [smallValue], TokenChainBlock := [[1]] }))

/-! # Properties -/

/-! ## Go map lemmas -/

theorem GoMap.get_delete_ne {V : Type} (m : GoMap V) (k k' : String) (h : k' ≠ k) :
    (GoMap.delete m k).get k' = m.get k' := by
  induction m with
  | nil => rfl
  | cons e rest ih =>
    obtain ⟨a, v⟩ := e
    by_cases ha : a = k
    · subst ha
      have hne : a ≠ k' := fun e => h e.symm
      simp [GoMap.delete, GoMap.get, hne] at ih ⊢
      exact ih
    · by_cases hk : a = k'
      · subst hk
        simp [GoMap.delete, GoMap.get, ha, List.filter]
      · simp [GoMap.delete, GoMap.get, ha, hk] at ih ⊢
        exact ih

theorem GoMap.get_delete_self {V : Type} (m : GoMap V) (k : String) :
    (GoMap.delete m k).get k = none := by
  induction m with
  | nil => rfl
  | cons e rest ih =>
    obtain ⟨a, v⟩ := e
    by_cases ha : a = k
    · simp [GoMap.delete, GoMap.get, ha] at ih ⊢
      exact ih
    · simp [GoMap.delete, GoMap.get, ha] at ih ⊢
      exact ih

theorem GoMap.get_set_self {V : Type} (m : GoMap V) (k : String) (v : V) :
    (m.set k v).get k = some v := by
  simp [GoMap.set, GoMap.get]

theorem GoMap.get_set_ne {V : Type} (m : GoMap V) (k k' : String) (v : V) (h : k' ≠ k) :
    (m.set k v).get k' = m.get k' := by
  have hne : k ≠ k' := fun e => h e.symm
  simp only [GoMap.set, GoMap.get, hne, if_false]
  exact GoMap.get_delete_ne m k k' h

/-! ## Rounding -/

theorem pow2_pos (e : ℤ) : 0 < pow2 e := by
  simp only [pow2]
  split
  · positivity
  · positivity

theorem roundHalfEven_nonneg (x : ℚ) (hx : 0 ≤ x) : 0 ≤ roundHalfEven x := by
  have hf : (0 : ℤ) ≤ ⌊x⌋ := Int.floor_nonneg.mpr hx
  simp only [roundHalfEven]
  split
  · exact hf
  · split
    · omega
    · split
      · exact hf
      · omega

theorem roundHalfEven_nonpos (x : ℚ) (hx : x ≤ 0) : roundHalfEven x ≤ 0 := by
  have hf : ⌊x⌋ ≤ (0 : ℤ) := by
    have := Int.floor_le x
    have h : ((⌊x⌋ : ℤ) : ℚ) ≤ ((0 : ℤ) : ℚ) := by push_cast; linarith
    exact_mod_cast h
  by_cases h0 : ⌊x⌋ = 0
  · have hx0 : x = 0 := by
      have := Int.floor_le x
      rw [h0] at this
      push_cast at this
      linarith
    subst hx0
    simp [roundHalfEven]
  · have hneg : ⌊x⌋ ≤ -1 := by omega
    simp only [roundHalfEven]
    split
    · exact hf
    · split
      · omega
      · split
        · exact hf
        · omega

theorem roundF64_nonneg (q : ℚ) (hq : 0 ≤ q) : 0 ≤ roundF64 q := by
  simp only [roundF64]
  split
  · exact le_refl _
  · have hulp := pow2_pos (max (floorLog2 |q|) (-1022) - 52)
    have h := roundHalfEven_nonneg (q / pow2 (max (floorLog2 |q|) (-1022) - 52))
      (div_nonneg hq hulp.le)
    exact mul_nonneg (by exact_mod_cast h) hulp.le

theorem roundF64_nonpos (q : ℚ) (hq : q ≤ 0) : roundF64 q ≤ 0 := by
  simp only [roundF64]
  split
  · exact le_refl _
  · have hulp := pow2_pos (max (floorLog2 |q|) (-1022) - 52)
    have h := roundHalfEven_nonpos (q / pow2 (max (floorLog2 |q|) (-1022) - 52))
      (div_nonpos_of_nonpos_of_nonneg hq hulp.le)
    exact mul_nonpos_of_nonpos_of_nonneg (by exact_mod_cast h) hulp.le

theorem roundDecimal_nonneg (x : ℚ) (p : ℕ) (hx : 0 ≤ x) : 0 ≤ roundDecimal x p := by
  have hpos : (0 : ℚ) < 10 ^ p := by positivity
  have hs : 0 ≤ x * 10 ^ p := mul_nonneg hx hpos.le
  simp only [roundDecimal, hs, if_true]
  have : (0 : ℤ) ≤ ⌊x * 10 ^ p + 1 / 2⌋ := Int.floor_nonneg.mpr (by linarith)
  exact div_nonneg (by exact_mod_cast this) hpos.le

theorem roundDecimal_nonpos (x : ℚ) (p : ℕ) (hx : x ≤ 0) : roundDecimal x p ≤ 0 := by
  have hpos : (0 : ℚ) < 10 ^ p := by positivity
  have hs : x * 10 ^ p ≤ 0 := mul_nonpos_of_nonpos_of_nonneg hx hpos.le
  by_cases h0 : 0 ≤ x * 10 ^ p
  · have hz : x * 10 ^ p = 0 := le_antisymm hs h0
    simp only [roundDecimal, hz]
    norm_num
  · simp only [roundDecimal, h0, if_false]
    have : ⌈x * 10 ^ p - 1 / 2⌉ ≤ (0 : ℤ) := by
      rw [Int.ceil_le]
      push_cast
      linarith
    exact div_nonpos_of_nonpos_of_nonneg (by exact_mod_cast this) hpos.le

theorem floatPrecision_nonneg (x : ℚ) (p : ℕ) (hx : 0 ≤ x) : 0 ≤ floatPrecision x p :=
  roundF64_nonneg _ (roundDecimal_nonneg x p hx)

theorem floatPrecision_nonpos (x : ℚ) (p : ℕ) (hx : x ≤ 0) : floatPrecision x p ≤ 0 :=
  roundF64_nonpos _ (roundDecimal_nonpos x p hx)

/-! ## The rounding to `float64` -/

theorem pow2_eq_zpow (e : ℤ) : pow2 e = (2 : ℚ) ^ e := by
  simp only [pow2]
  split
  · rename_i h
    obtain ⟨n, rfl⟩ := Int.eq_ofNat_of_zero_le h
    simp
  · rename_i h
    obtain ⟨n, hn⟩ := Int.eq_ofNat_of_zero_le (by omega : 0 ≤ -e)
    have he : e = -(n : ℤ) := by omega
    subst he
    simp

theorem halvings_spec (fuel : Nat) : ∀ n : Nat, 1 ≤ n → n ≤ fuel →
    2 ^ halvings fuel n ≤ n ∧ n < 2 ^ (halvings fuel n + 1) := by
  induction fuel with
  | zero => intro n h1 h2; omega
  | succ fuel ih =>
    intro n h1 h2
    simp only [halvings]
    split
    · rename_i h
      obtain ⟨ha, hb⟩ := ih (n / 2) (by omega) (by omega)
      rw [pow_succ] at hb ⊢
      rw [pow_succ]
      constructor <;> omega
    · simp
      omega

/-- The exponent computed by `floorLog2` is the binary exponent of a positive
rational. -/
theorem floorLog2_spec (a : ℚ) (ha : 0 < a) :
    pow2 (floorLog2 a) ≤ a ∧ a < pow2 (floorLog2 a + 1) := by
  have hnum : 0 < a.num := Rat.num_pos.mpr ha
  have hden : 0 < a.den := a.den_pos
  obtain ⟨N, hN⟩ := Int.eq_ofNat_of_zero_le hnum.le
  have hNpos : 1 ≤ N := by omega
  have hnat : a.num.natAbs = N := by simp [hN]
  obtain ⟨hn1, hn2⟩ := halvings_spec N N hNpos (le_refl _)
  obtain ⟨hd1, hd2⟩ := halvings_spec a.den a.den hden (le_refl _)
  have haq : a = (N : ℚ) / (a.den : ℚ) := by
    have h := (Rat.num_div_den a).symm
    rw [hN] at h
    rw [Int.cast_natCast] at h
    exact h
  have hDq : (0 : ℚ) < (a.den : ℚ) := by exact_mod_cast hden
  have hn1q : (2 : ℚ) ^ (halvings N N) ≤ (N : ℚ) := by exact_mod_cast hn1
  have hn2q : (N : ℚ) < (2 : ℚ) ^ (halvings N N + 1) := by exact_mod_cast hn2
  have hd1q : (2 : ℚ) ^ (halvings a.den a.den) ≤ (a.den : ℚ) := by exact_mod_cast hd1
  have hd2q : (a.den : ℚ) < (2 : ℚ) ^ (halvings a.den a.den + 1) := by exact_mod_cast hd2
  set hn := halvings N N with hhn
  set hd := halvings a.den a.den with hhd
  have h2 : (0 : ℚ) < 2 := by norm_num
  have hlow : (2 : ℚ) ^ ((hn : ℤ) - (hd : ℤ) - 1) ≤ a := by
    rw [haq, le_div_iff₀ hDq]
    have : (2 : ℚ) ^ ((hn : ℤ) - (hd : ℤ) - 1) * (2 : ℚ) ^ (hd + 1) = (2 : ℚ) ^ hn := by
      rw [← zpow_natCast, ← zpow_natCast, ← zpow_add₀ (by norm_num : (2 : ℚ) ≠ 0)]
      congr 1
      push_cast
      ring
    have hpos : (0 : ℚ) < (2 : ℚ) ^ ((hn : ℤ) - (hd : ℤ) - 1) := zpow_pos h2 _
    calc (2 : ℚ) ^ ((hn : ℤ) - (hd : ℤ) - 1) * (a.den : ℚ)
        ≤ (2 : ℚ) ^ ((hn : ℤ) - (hd : ℤ) - 1) * (2 : ℚ) ^ (hd + 1) :=
          mul_le_mul_of_nonneg_left hd2q.le hpos.le
      _ = (2 : ℚ) ^ hn := this
      _ ≤ (N : ℚ) := hn1q
  have hhigh : a < (2 : ℚ) ^ ((hn : ℤ) - (hd : ℤ) + 1) := by
    rw [haq, div_lt_iff₀ hDq]
    have : (2 : ℚ) ^ ((hn : ℤ) - (hd : ℤ) + 1) * (2 : ℚ) ^ hd = (2 : ℚ) ^ (hn + 1) := by
      rw [← zpow_natCast, ← zpow_natCast, ← zpow_add₀ (by norm_num : (2 : ℚ) ≠ 0)]
      congr 1
      push_cast
      ring
    have hpos : (0 : ℚ) < (2 : ℚ) ^ ((hn : ℤ) - (hd : ℤ) + 1) := zpow_pos h2 _
    calc (N : ℚ) < (2 : ℚ) ^ (hn + 1) := hn2q
      _ = (2 : ℚ) ^ ((hn : ℤ) - (hd : ℤ) + 1) * (2 : ℚ) ^ hd := this.symm
      _ ≤ (2 : ℚ) ^ ((hn : ℤ) - (hd : ℤ) + 1) * (a.den : ℚ) :=
          mul_le_mul_of_nonneg_left hd1q hpos.le
  simp only [floorLog2, hnat, pow2_eq_zpow]
  rw [← hhn, ← hhd]
  split
  · rename_i hlt
    refine ⟨hlow, ?_⟩
    rw [show (hn : ℤ) - (hd : ℤ) - 1 + 1 = (hn : ℤ) - (hd : ℤ) by ring]
    exact hlt
  · rename_i hge
    exact ⟨not_lt.mp hge, hhigh⟩

theorem roundHalfEven_error (x : ℚ) : |(roundHalfEven x : ℚ) - x| ≤ 1 / 2 := by
  have h1 := Int.floor_le x
  have h2 := Int.lt_floor_add_one x
  simp only [roundHalfEven]
  rw [abs_le]
  split
  · constructor <;> linarith
  · rename_i hr
    split
    · push_cast
      constructor <;> linarith
    · rename_i hr2
      have : x - (⌊x⌋ : ℚ) = 1 / 2 := le_antisymm (not_lt.mp hr2) (not_lt.mp hr)
      split
      · constructor <;> linarith
      · push_cast
        constructor <;> linarith

/-- The rounding to `float64` moves a rational by at most half a unit in the last
place. -/
theorem roundF64_error (q : ℚ) : |roundF64 q - q| ≤ halfUlp q := by
  have hulp := pow2_pos (max (floorLog2 |q|) (-1022) - 52)
  simp only [roundF64, halfUlp]
  split
  · rename_i h0
    subst h0
    simp only [sub_zero, abs_zero]
    exact div_nonneg (pow2_pos _).le (by norm_num)
  · set ulp := pow2 (max (floorLog2 |q|) (-1022) - 52) with hu
    have herr := roundHalfEven_error (q / ulp)
    have : (roundHalfEven (q / ulp) : ℚ) * ulp - q =
        ((roundHalfEven (q / ulp) : ℚ) - q / ulp) * ulp := by
      field_simp
    rw [this, abs_mul, abs_of_pos hulp]
    calc |(roundHalfEven (q / ulp) : ℚ) - q / ulp| * ulp ≤ 1 / 2 * ulp :=
          mul_le_mul_of_nonneg_right herr hulp.le
      _ = ulp / 2 := by ring

/-- For a rational of magnitude at least `2^(-1022)` the rounding to `float64` has a
relative error of at most `2^(-53)`. -/
theorem roundF64_relative_error (q : ℚ) (hq : pow2 (-1022) ≤ |q|) :
    |roundF64 q - q| ≤ |q| / 2 ^ 53 := by
  have hpos : 0 < |q| := lt_of_lt_of_le (pow2_pos _) hq
  obtain ⟨hlo, _⟩ := floorLog2_spec |q| hpos
  have hmax : pow2 (max (floorLog2 |q|) (-1022)) ≤ |q| := by
    rcases le_total (floorLog2 |q|) (-1022) with h | h
    · rw [max_eq_right h]; exact hq
    · rw [max_eq_left h]; exact hlo
  have hsplit : pow2 (max (floorLog2 |q|) (-1022) - 52) =
      pow2 (max (floorLog2 |q|) (-1022)) / 2 ^ 52 := by
    rw [pow2_eq_zpow, pow2_eq_zpow, zpow_sub₀ (by norm_num : (2 : ℚ) ≠ 0)]
    norm_num
  have h := roundF64_error q
  simp only [halfUlp] at h
  rw [hsplit] at h
  calc |roundF64 q - q| ≤ pow2 (max (floorLog2 |q|) (-1022)) / 2 ^ 52 / 2 := h
    _ = pow2 (max (floorLog2 |q|) (-1022)) / 2 ^ 53 := by ring
    _ ≤ |q| / 2 ^ 53 := by
        apply div_le_div_of_nonneg_right hmax
        positivity

/-- The rounding to a multiple of `10^(-precision)` moves a rational by at most half of
`10^(-precision)`. -/
theorem roundDecimal_error (x : ℚ) (p : ℕ) : |roundDecimal x p - x| ≤ 1 / 2 / 10 ^ p := by
  have hpos : (0 : ℚ) < 10 ^ p := by positivity
  have key : ∀ n : ℤ, |(n : ℚ) - x * 10 ^ p| ≤ 1 / 2 → |(n : ℚ) / 10 ^ p - x| ≤ 1 / 2 / 10 ^ p := by
    intro n hn
    have : (n : ℚ) / 10 ^ p - x = ((n : ℚ) - x * 10 ^ p) / 10 ^ p := by
      field_simp
      ring
    rw [this, abs_div, abs_of_pos hpos]
    exact div_le_div_of_nonneg_right hn hpos.le
  simp only [roundDecimal]
  apply key
  split
  · have h1 := Int.floor_le (x * 10 ^ p + 1 / 2)
    have h2 := Int.lt_floor_add_one (x * 10 ^ p + 1 / 2)
    rw [abs_le]
    constructor <;> linarith
  · have h1 := Int.le_ceil (x * 10 ^ p - 1 / 2)
    have h2 := Int.ceil_lt_add_one (x * 10 ^ p - 1 / 2)
    rw [abs_le]
    constructor <;> linarith

/-- One deduction of the acceptance loop, the `float64` subtraction followed by
`floatPrecision(·, 10)`, differs from the exact difference by at most half of `10^(-10)`
and two roundings to `float64`. -/
theorem deduction_error (rem v : ℚ) :
    |floatPrecision (f64Sub rem v) 10 - (rem - v)| ≤
      halfUlp (rem - v) + 1 / 2 / 10 ^ 10 + halfUlp (roundDecimal (f64Sub rem v) 10) := by
  have h1 := roundF64_error (rem - v)
  have h2 := roundDecimal_error (f64Sub rem v) 10
  have h3 := roundF64_error (roundDecimal (f64Sub rem v) 10)
  have hsum : floatPrecision (f64Sub rem v) 10 - (rem - v) =
      (roundF64 (roundDecimal (f64Sub rem v) 10) - roundDecimal (f64Sub rem v) 10) +
      (roundDecimal (f64Sub rem v) 10 - f64Sub rem v) + (roundF64 (rem - v) - (rem - v)) := by
    simp only [floatPrecision, f64Sub]
    ring
  rw [hsum]
  have hA := abs_add
    ((roundF64 (roundDecimal (f64Sub rem v) 10) - roundDecimal (f64Sub rem v) 10) +
      (roundDecimal (f64Sub rem v) 10 - f64Sub rem v)) (roundF64 (rem - v) - (rem - v))
  have hB := abs_add
    (roundF64 (roundDecimal (f64Sub rem v) 10) - roundDecimal (f64Sub rem v) 10)
    (roundDecimal (f64Sub rem v) 10 - f64Sub rem v)
  linarith

/-! ## Success cap -/

theorem finishConsensus_failed (c : Core) (id : String) (cs : ConsensusStatus)
    (p : Option Peer) (hash : String) (ss ps : Bytes)
    (hreg : c.quorumRequest.get id = some cs) :
    finishConsensus c id AlphaQuorumType p false hash ss ps =
      some { c.closeIfSet p with quorumRequest := (c.quorumRequest.set id
        { cs with Result := ⟨cs.Result.RunningCount - 1, cs.Result.SuccessCount,
                              cs.Result.FailedCount + 1⟩ }) } := by
  simp [finishConsensus, hreg, AlphaQuorumType]

theorem finishConsensus_success_retained (c : Core) (id : String) (cs : ConsensusStatus)
    (q : Peer) (hash : String) (ss ps : Bytes)
    (hreg : c.quorumRequest.get id = some cs)
    (hlt : cs.Result.SuccessCount < MinConsensusRequired) :
    finishConsensus c id AlphaQuorumType (some q) true hash ss ps =
      some { c with quorumRequest := (c.quorumRequest.set id
        { Credit := cs.Credit ++ [⟨HexToStr ss, HexToStr ps, q.did, hash⟩],
          P := cs.P.set q.did q,
          Result := ⟨cs.Result.RunningCount - 1, cs.Result.SuccessCount + 1,
                      cs.Result.FailedCount⟩ }) } := by
  simp [finishConsensus, hreg, AlphaQuorumType, hlt]

theorem finishConsensus_success_surplus (c : Core) (id : String) (cs : ConsensusStatus)
    (q : Peer) (hash : String) (ss ps : Bytes)
    (hreg : c.quorumRequest.get id = some cs)
    (hge : ¬ cs.Result.SuccessCount < MinConsensusRequired) :
    finishConsensus c id AlphaQuorumType (some q) true hash ss ps =
      some { c.close q with quorumRequest := (c.quorumRequest.set id
        { cs with Result := ⟨cs.Result.RunningCount - 1, cs.Result.SuccessCount + 1,
                              cs.Result.FailedCount⟩ }) } := by
  simp [finishConsensus, hreg, AlphaQuorumType, hge]

/-- One reporter call on a registered request, with the credit list tracked against the
list `L` of all credit signatures reported so far. -/
theorem finishConsensus_credit_step (c : Core) (id : String) (cs : ConsensusStatus)
    (k : FinishCall) (L : List CreditSignature)
    (hreg : c.quorumRequest.get id = some cs)
    (hL : (L.length : Int) = cs.Result.SuccessCount) (hcredit : cs.Credit = L.take 5)
    (hp : k.status = true → k.p ≠ none) :
    ∃ c' cs', finishConsensus c id AlphaQuorumType k.p k.status k.hash k.ss k.ps = some c' ∧
      c'.quorumRequest.get id = some cs' ∧
      ((L ++ (if k.status then k.csig else [])).length : Int) = cs'.Result.SuccessCount ∧
      cs'.Credit = (L ++ (if k.status then k.csig else [])).take 5 := by
  obtain ⟨p, status, hash, ss, ps⟩ := k
  cases status with
  | false =>
    refine ⟨_, _, finishConsensus_failed c id cs p hash ss ps hreg,
      GoMap.get_set_self _ _ _, ?_, ?_⟩
    · simpa using hL
    · simpa using hcredit
  | true =>
    cases p with
    | none => exact absurd rfl (hp rfl)
    | some q =>
      by_cases hlt : cs.Result.SuccessCount < MinConsensusRequired
      · refine ⟨_, _, finishConsensus_success_retained c id cs q hash ss ps hreg hlt,
          GoMap.get_set_self _ _ _, ?_, ?_⟩
        · simp [FinishCall.csig]; omega
        · have hlen : L.length < 5 := by simp only [MinConsensusRequired] at hlt; omega
          simp [FinishCall.csig, hcredit, List.take_of_length_le (Nat.le_of_lt hlen),
            List.take_of_length_le (show (L ++ [_]).length ≤ 5 by simp; omega)]
      · refine ⟨_, _, finishConsensus_success_surplus c id cs q hash ss ps hreg hlt,
          GoMap.get_set_self _ _ _, ?_, ?_⟩
        · simp [FinishCall.csig]; omega
        · have hlen : 5 ≤ L.length := by simp only [MinConsensusRequired] at hlt; omega
          simp [FinishCall.csig, hcredit, List.take_append_of_le_length hlen]

/-- The credit signatures reported by the successful calls of a sequence. -/
theorem finishAll_credit_aux (id : String) (calls : List FinishCall) :
    ∀ (c : Core) (cs : ConsensusStatus) (L : List CreditSignature),
      c.quorumRequest.get id = some cs →
      (L.length : Int) = cs.Result.SuccessCount → cs.Credit = L.take 5 →
      (∀ k ∈ calls, k.status = true → k.p ≠ none) →
      ∃ c' cs', finishAll c id calls = some c' ∧ c'.quorumRequest.get id = some cs' ∧
        ((L ++ (calls.filter (fun k => k.status)).flatMap FinishCall.csig).length : Int)
          = cs'.Result.SuccessCount ∧
        cs'.Credit = (L ++ (calls.filter (fun k => k.status)).flatMap FinishCall.csig).take 5 := by
  induction calls with
  | nil =>
    intro c cs L hreg hL hcredit _
    exact ⟨c, cs, rfl, hreg, by simpa using hL, by simpa using hcredit⟩
  | cons k rest ih =>
    intro c cs L hreg hL hcredit hp
    obtain ⟨c1, cs1, h1, hreg1, hL1, hcredit1⟩ :=
      finishConsensus_credit_step c id cs k L hreg hL hcredit (hp k (List.mem_cons_self _ _))
    obtain ⟨c2, cs2, h2, hreg2, hL2, hcredit2⟩ :=
      ih c1 cs1 _ hreg1 hL1 hcredit1 (fun k' hk' => hp k' (List.mem_cons_of_mem _ hk'))
    refine ⟨c2, cs2, ?_, hreg2, ?_, ?_⟩
    · simp only [finishAll, h1]; exact h2
    · rw [← hL2]; cases hs : k.status <;> simp [hs, List.filter_cons]
    · rw [hcredit2]; cases hs : k.status <;> simp [hs, List.filter_cons]

theorem csig_length_of_peers (calls : List FinishCall)
    (hp : ∀ k ∈ calls, k.status = true → k.p ≠ none) :
    ((calls.filter (fun k => k.status)).flatMap FinishCall.csig).length
      = (calls.filter (fun k => k.status)).length := by
  induction calls with
  | nil => rfl
  | cons k rest ih =>
    have ih' := ih (fun k' hk' => hp k' (List.mem_cons_of_mem _ hk'))
    cases hs : k.status with
    | false => simpa [List.filter_cons, hs] using ih'
    | true =>
      have hk := hp k (List.mem_cons_self _ _) hs
      obtain ⟨q, hq⟩ := Option.ne_none_iff_exists'.mp hk
      simp [List.filter_cons, hs, FinishCall.csig, hq] at ih' ⊢
      omega

/-- C1 (success cap). Take a registered request whose credit list is empty and whose
success counter is zero, and any sequence of alpha-role `finishConsensus` calls in which
every successful report carries a peer. After every prefix of the sequence the calls
have all returned, the request is still registered, `SuccessCount` is the number of
successful reports so far, the credit list is the credit signatures of the first five
successful reports, and hence its length is `min SuccessCount MinConsensusRequired`
and never exceeds `MinConsensusRequired`: a sixth or later success raises
`SuccessCount` and leaves the credit list as it is. -/
theorem finishAll_credit_cap (c : Core) (id : String) (cs : ConsensusStatus)
    (calls : List FinishCall)
    (hreg : c.quorumRequest.get id = some cs) (hcredit : cs.Credit = [])
    (hsucc : cs.Result.SuccessCount = 0)
    (hpeer : ∀ k ∈ calls, k.status = true → k.p ≠ none) :
    ∀ pre, pre <+: calls →
      ∃ c' cs', finishAll c id pre = some c' ∧ c'.quorumRequest.get id = some cs' ∧
        cs'.Result.SuccessCount = ((pre.filter (fun k => k.status)).length : Int) ∧
        cs'.Credit = ((pre.filter (fun k => k.status)).flatMap FinishCall.csig).take 5 ∧
        (cs'.Credit.length : Int) = min cs'.Result.SuccessCount MinConsensusRequired ∧
        (cs'.Credit.length : Int) ≤ MinConsensusRequired := by
  intro pre hpre
  have hp : ∀ k ∈ pre, k.status = true → k.p ≠ none :=
    fun k hk => hpeer k (hpre.subset hk)
  obtain ⟨c', cs', hrun, hreg', hlen, hcr⟩ :=
    finishAll_credit_aux id pre c cs [] hreg (by simp [hsucc]) (by simp [hcredit]) hp
  have hcount := csig_length_of_peers pre hp
  simp only [List.nil_append] at hlen hcr
  rw [hcount] at hlen
  refine ⟨c', cs', hrun, hreg', hlen.symm, hcr, ?_, ?_⟩
  · rw [hcr, List.length_take, hcount, ← hlen]
    simp only [MinConsensusRequired]
    omega
  · rw [hcr, List.length_take]
    simp only [MinConsensusRequired]
    omega

/-- Witness for C1: seven successful reports on a freshly registered request. -/
theorem finishAll_credit_cap_witness :
    ∃ c' cs', finishAll sampleCore "req" sevenSuccesses = some c' ∧
      c'.quorumRequest.get "req" = some cs' ∧
      cs'.Result.SuccessCount = ((sevenSuccesses.filter (fun k => k.status)).length : Int) ∧
      cs'.Credit = ((sevenSuccesses.filter (fun k => k.status)).flatMap FinishCall.csig).take 5 ∧
      (cs'.Credit.length : Int) = min cs'.Result.SuccessCount MinConsensusRequired ∧
      (cs'.Credit.length : Int) ≤ MinConsensusRequired :=
  finishAll_credit_cap sampleCore "req" freshStatus sevenSuccesses (by decide) rfl rfl
    (by decide) sevenSuccesses (List.prefix_refl _)

/-! ## Counter invariant -/

theorem startConsensus_registered (c : Core) (id : String) (cs : ConsensusStatus)
    (hreg : c.quorumRequest.get id = some cs) :
    (startConsensus c id AlphaQuorumType).quorumRequest.get id =
      some { cs with Result := ⟨cs.Result.RunningCount + 1, cs.Result.SuccessCount,
                                  cs.Result.FailedCount⟩ } := by
  simp [startConsensus, hreg, AlphaQuorumType, GoMap.get_set_self]

/-- What a reporter call by a dial does to the counters of a registered request. -/
theorem finishConsensus_report_counters (c : Core) (id : String) (cs : ConsensusStatus)
    (o : DialOutcome) (hreg : c.quorumRequest.get id = some cs) :
    ∃ c' cs', finishConsensus c id AlphaQuorumType o.report.p o.report.status o.report.hash
        o.report.ss o.report.ps = some c' ∧
      c'.quorumRequest.get id = some cs' ∧
      cs'.Result.RunningCount = cs.Result.RunningCount - 1 ∧
      ((cs'.Result.SuccessCount = cs.Result.SuccessCount + 1 ∧
          cs'.Result.FailedCount = cs.Result.FailedCount) ∨
        (cs'.Result.SuccessCount = cs.Result.SuccessCount ∧
          cs'.Result.FailedCount = cs.Result.FailedCount + 1)) := by
  have hfail : ∀ p : Option Peer, ∃ c' cs',
      finishConsensus c id AlphaQuorumType p false "" [] [] = some c' ∧
      c'.quorumRequest.get id = some cs' ∧
      cs'.Result.RunningCount = cs.Result.RunningCount - 1 ∧
      ((cs'.Result.SuccessCount = cs.Result.SuccessCount + 1 ∧
          cs'.Result.FailedCount = cs.Result.FailedCount) ∨
        (cs'.Result.SuccessCount = cs.Result.SuccessCount ∧
          cs'.Result.FailedCount = cs.Result.FailedCount + 1)) := fun p =>
    ⟨_, _, finishConsensus_failed c id cs p "" [] [] hreg, GoMap.get_set_self _ _ _, rfl,
      Or.inr ⟨rfl, rfl⟩⟩
  cases o with
  | noPeer => exact hfail none
  | pledgeFailed p => exact hfail (some p)
  | consensusError p => exact hfail (some p)
  | consensusRefused p => exact hfail (some p)
  | consensusOk q hash ss ps =>
    by_cases hlt : cs.Result.SuccessCount < MinConsensusRequired
    · exact ⟨_, _, finishConsensus_success_retained c id cs q hash ss ps hreg hlt,
        GoMap.get_set_self _ _ _, rfl, Or.inl ⟨rfl, rfl⟩⟩
    · exact ⟨_, _, finishConsensus_success_surplus c id cs q hash ss ps hreg hlt,
        GoMap.get_set_self _ _ _, rfl, Or.inl ⟨rfl, rfl⟩⟩

theorem DialPhase.count_running_add_done (l : List DialPhase) :
    l.count DialPhase.running + l.count DialPhase.done ≤ l.length := by
  induction l with
  | nil => simp
  | cons a rest ih =>
    cases a <;> simp [List.count_cons] <;> omega

theorem getElem?_some_lt {α : Type} (l : List α) (i : Nat) (a : α) (h : l[i]? = some a) :
    ∃ hi : i < l.length, l[i] = a := by
  obtain ⟨hi, ha⟩ := List.getElem?_eq_some_iff.mp h
  exact ⟨hi, ha⟩

theorem Round.step_coherent (id : String) (r r' : Round) (e : DialEvent)
    (hinv : r.Coherent id) (hstep : r.step id e = some r') : r'.Coherent id := by
  obtain ⟨cs, hreg, hrun, hdone, hs, hf⟩ := hinv
  cases e with
  | start i =>
    simp only [Round.step] at hstep
    split at hstep
    · rename_i hi
      obtain ⟨hlt, hget⟩ := getElem?_some_lt _ _ _ hi
      simp only [Option.some.injEq] at hstep
      subst hstep
      refine ⟨_, startConsensus_registered _ id cs hreg, ?_, ?_, hs, hf⟩
      · simp [List.count_set, hlt, hget, hrun]
      · simp [List.count_set, hlt, hget, hdone]
    · cases hstep
  | finish i o =>
    simp only [Round.step] at hstep
    split at hstep
    · rename_i hi
      obtain ⟨hlt, hget⟩ := getElem?_some_lt _ _ _ hi
      obtain ⟨c', cs', hfin, hreg', hr', hsf⟩ := finishConsensus_report_counters _ id cs o hreg
      simp only [hfin, Option.some.injEq] at hstep
      subst hstep
      have hpos : 0 < r.dials.count DialPhase.running :=
        List.count_pos_iff.mpr (hget ▸ List.getElem_mem _)
      refine ⟨cs', hreg', ?_, ?_, ?_, ?_⟩
      · simp [List.count_set, hlt, hget, hr', hrun]
        omega
      · simp [List.count_set, hlt, hget]
        omega
      · omega
      · omega
    · cases hstep

theorem Round.run_coherent (id : String) (events : List DialEvent) :
    ∀ r r' : Round, r.Coherent id → Round.run id r events = some r' → r'.Coherent id := by
  induction events with
  | nil =>
    intro r r' hinv hrun
    simp only [Round.run, Option.some.injEq] at hrun
    exact hrun ▸ hinv
  | cons e rest ih =>
    intro r r' hinv hrun
    simp only [Round.run] at hrun
    cases hstep : r.step id e with
    | none => simp [hstep] at hrun
    | some r1 =>
      simp only [hstep] at hrun
      exact ih r1 r' (Round.step_coherent id r r1 e hinv hstep) hrun

theorem Round.run_dials_length (id : String) (events : List DialEvent) :
    ∀ r r' : Round, Round.run id r events = some r' → r'.dials.length = r.dials.length := by
  induction events with
  | nil =>
    intro r r' hrun
    simp only [Round.run, Option.some.injEq] at hrun
    rw [hrun]
  | cons e rest ih =>
    intro r r' hrun
    simp only [Round.run] at hrun
    cases hstep : r.step id e with
    | none => simp [hstep] at hrun
    | some r1 =>
      simp only [hstep] at hrun
      rw [ih r1 r' hrun]
      cases e with
      | start i =>
        simp only [Round.step] at hstep
        split at hstep
        · simp only [Option.some.injEq] at hstep
          subst hstep; simp
        · cases hstep
      | finish i o =>
        simp only [Round.step] at hstep
        split at hstep
        · split at hstep
          · simp only [Option.some.injEq] at hstep
            subst hstep; simp
          · cases hstep
        · cases hstep

/-- C2 (counter invariant). A request is registered with all three counters zero and
one dial per candidate of the quorum list is launched; each dial calls `startConsensus`
once and afterwards `finishConsensus` once, in any interleaving. In every state reached,
`SuccessCount + FailedCount + RunningCount ≤ |quorum list|` and all three counters are
non-negative; and every `finishConsensus` step enabled there returns, lowers
`RunningCount` by one and raises exactly one of `SuccessCount`, `FailedCount` by one. -/
theorem counter_invariant (c : Core) (id : String) (cs : ConsensusStatus) (ql : List String)
    (events : List DialEvent) (r : Round)
    (hreg : c.quorumRequest.get id = some cs)
    (hzero : cs.Result = ⟨0, 0, 0⟩)
    (hrun : Round.run id (Round.init c ql) events = some r) :
    ∃ cs', r.core.quorumRequest.get id = some cs' ∧
      cs'.Result.SuccessCount + cs'.Result.FailedCount + cs'.Result.RunningCount
        ≤ (ql.length : Int) ∧
      0 ≤ cs'.Result.RunningCount ∧ 0 ≤ cs'.Result.SuccessCount ∧
      0 ≤ cs'.Result.FailedCount ∧
      ∀ (i : Nat) (o : DialOutcome), r.dials[i]? = some DialPhase.running →
        ∃ r1 cs1, r.step id (DialEvent.finish i o) = some r1 ∧
          r1.core.quorumRequest.get id = some cs1 ∧
          cs1.Result.RunningCount = cs'.Result.RunningCount - 1 ∧
          ((cs1.Result.SuccessCount = cs'.Result.SuccessCount + 1 ∧
              cs1.Result.FailedCount = cs'.Result.FailedCount) ∨
            (cs1.Result.SuccessCount = cs'.Result.SuccessCount ∧
              cs1.Result.FailedCount = cs'.Result.FailedCount + 1)) := by
  have hinit : (Round.init c ql).Coherent id := by
    refine ⟨cs, hreg, ?_, ?_, ?_, ?_⟩ <;>
      simp [hzero, Round.init, List.count_replicate]
  obtain ⟨cs', hreg', hr, hd, hs, hf⟩ := Round.run_coherent id events _ r hinit hrun
  have hlen : r.dials.length = ql.length := by
    rw [Round.run_dials_length id events _ r hrun]; simp [Round.init]
  have hcount := DialPhase.count_running_add_done r.dials
  refine ⟨cs', hreg', by omega, by omega, hs, hf, ?_⟩
  intro i o hi
  obtain ⟨c1, cs1, hfin, hreg1, hr1, hsf⟩ :=
    finishConsensus_report_counters r.core id cs' o hreg'
  exact ⟨{ core := c1, dials := r.dials.set i DialPhase.done }, cs1,
    by simp only [Round.step, hi, if_true, hfin], hreg1, hr1, hsf⟩

/-- Witness for C2: three candidates, two successes and one dial without a peer. -/
theorem counter_invariant_witness :
    ∃ cs', sampleScheduleEnd.core.quorumRequest.get "req" = some cs' ∧
      cs'.Result.SuccessCount + cs'.Result.FailedCount + cs'.Result.RunningCount
        ≤ ((["a", "b", "c"] : List String).length : Int) ∧
      0 ≤ cs'.Result.RunningCount ∧ 0 ≤ cs'.Result.SuccessCount ∧
      0 ≤ cs'.Result.FailedCount :=
  let ⟨cs', h1, h2, h3, h4, h5, _⟩ :=
    counter_invariant sampleCore "req" freshStatus ["a", "b", "c"] sampleSchedule
      sampleScheduleEnd (by decide) rfl (by decide)
  ⟨cs', h1, h2, h3, h4, h5⟩

/-! ## Barrier exit -/

/-- C3 (barrier exit). On an observation of a registered request state, the polling loop
of `initiateConsensus` leaves the barrier exactly when `SuccessCount ≥ 5` or
`RunningCount = 0`; it leaves without error exactly when `SuccessCount ≥ 5`, whatever
`RunningCount` is; it leaves with "consensus failed" exactly when `SuccessCount < 5` and
`RunningCount = 0`; and it polls again exactly when `SuccessCount < 5` and
`RunningCount ≠ 0`, the loop then continuing with the next observation. -/
theorem barrier_exit (c : Core) (id : String) (cs : ConsensusStatus) (rest : List Core)
    (hreg : c.quorumRequest.get id = some cs) :
    ((barrierObserve c id).loop = false ↔
        (cs.Result.SuccessCount ≥ MinConsensusRequired ∨ cs.Result.RunningCount = 0)) ∧
      (((barrierObserve c id).loop = false ∧ (barrierObserve c id).err = none) ↔
        cs.Result.SuccessCount ≥ MinConsensusRequired) ∧
      (((barrierObserve c id).loop = false ∧
          (barrierObserve c id).err = some "consensus failed") ↔
        (cs.Result.SuccessCount < MinConsensusRequired ∧ cs.Result.RunningCount = 0)) ∧
      ((barrierObserve c id).loop = true ↔
        (cs.Result.SuccessCount < MinConsensusRequired ∧ cs.Result.RunningCount ≠ 0)) ∧
      barrierLoop id (c :: rest) =
        (if cs.Result.SuccessCount ≥ MinConsensusRequired then some none
         else if cs.Result.RunningCount = 0 then some (some "consensus failed")
         else barrierLoop id rest) := by
  by_cases hs : cs.Result.SuccessCount ≥ MinConsensusRequired
  · have hn : ¬ cs.Result.SuccessCount < MinConsensusRequired := not_lt.mpr hs
    simp [barrierLoop, barrierObserve, hreg, hs, hn]
  · have hn : cs.Result.SuccessCount < MinConsensusRequired := not_le.mp hs
    by_cases hr : cs.Result.RunningCount = 0
    · simp [barrierLoop, barrierObserve, hreg, hs, hn, hr]
    · simp [barrierLoop, barrierObserve, hreg, hs, hn, hr]

/-- Witness for C3: four successes and no dial running, then five successes with two
dials still running. -/
theorem barrier_exit_witness :
    barrierLoop "req" [coreWithResult ⟨3, 4, 0⟩, coreWithResult ⟨0, 4, 3⟩] =
        some (some "consensus failed") ∧
      barrierLoop "req" [coreWithResult ⟨3, 4, 0⟩, coreWithResult ⟨2, 5, 0⟩] = some none :=
  ⟨((barrier_exit (coreWithResult ⟨3, 4, 0⟩) "req" ⟨[], [], ⟨3, 4, 0⟩⟩
        [coreWithResult ⟨0, 4, 3⟩] rfl).2.2.2.2).trans (by decide),
   by decide⟩

/-! ## Type filter -/

/-- C4 (type filter). In the acceptance loop of `initPledgeQuorumToken`, take the token
`t` at index `i` of a reply whose token-chain block decodes. If the block's transaction
type is `TOKEN_PLEDGED`, the iteration leaves the pledge details as they are: nothing is
added to `PledgedTokens`, `PledgedTokenChainBlock` or `TokenList` and `RemPledgeTokens`
keeps its value. If the block has any other transaction type, the iteration appends `t`
to `PledgedTokens[did]` and to `TokenList`, stores the block under `t` in
`PledgedTokenChainBlock`, and replaces `RemPledgeTokens` by the `float64` difference of
itself and the token's value, rounded by `floatPrecision` to 10 fractional digits: the
new value differs from the exact difference by at most half of `10^(-10)` and two
roundings to `float64`. The loop then goes on with the next index. -/
theorem type_filter (initBlock : Bytes → Option Block) (pd : PledgeDetails) (did : String)
    (prs : PledgeReply) (i : Nat) (t : String) (ts : List String) (blk : Bytes) (b : Block)
    (hblk : prs.TokenChainBlock[i]? = some blk) (hdec : initBlock blk = some b) :
    (b.transType = TokenPledgedType →
        acceptToken initBlock pd did prs i t = some pd ∧
        acceptLoop initBlock did prs i (t :: ts) pd =
          acceptLoop initBlock did prs (i + 1) ts pd) ∧
      (b.transType ≠ TokenPledgedType → ∀ v, prs.TokenValue[i]? = some v →
        ∃ pd', acceptToken initBlock pd did prs i t = some pd' ∧
          pd'.PledgedTokens.get did = some ((pd.PledgedTokens.get did).getD [] ++ [t]) ∧
          pd'.PledgedTokenChainBlock.get t = some blk ∧
          pd'.TokenList = pd.TokenList ++ [t] ∧
          pd'.RemPledgeTokens = floatPrecision (f64Sub pd.RemPledgeTokens v) 10 ∧
          |pd'.RemPledgeTokens - (pd.RemPledgeTokens - v)| ≤
            halfUlp (pd.RemPledgeTokens - v) + 1 / 2 / 10 ^ 10 +
              halfUlp (roundDecimal (f64Sub pd.RemPledgeTokens v) 10) ∧
          pd'.NumPledgedTokens = pd.NumPledgedTokens + 1 ∧
          acceptLoop initBlock did prs i (t :: ts) pd =
            acceptLoop initBlock did prs (i + 1) ts pd') := by
  constructor
  · intro hty
    have h : acceptToken initBlock pd did prs i t = some pd := by
      simp [acceptToken, hblk, hdec, checkIsPledged, hty]
    exact ⟨h, by simp only [acceptLoop, h]⟩
  · intro hty v hv
    have h : acceptToken initBlock pd did prs i t = some { pd with
          NumPledgedTokens := pd.NumPledgedTokens + 1
          RemPledgeTokens := floatPrecision (f64Sub pd.RemPledgeTokens v) 10
          PledgedTokenChainBlock := pd.PledgedTokenChainBlock.set t blk
          PledgedTokens := pd.PledgedTokens.set did (((pd.PledgedTokens.get did).getD []) ++ [t])
          TokenList := pd.TokenList ++ [t] } := by
      simp [acceptToken, hblk, hdec, checkIsPledged, hty, hv]
    exact ⟨_, h, GoMap.get_set_self _ _ _, GoMap.get_set_self _ _ _, rfl, rfl,
      deduction_error pd.RemPledgeTokens v, rfl, by simp only [acceptLoop, h]⟩

/-- Witness for C4: the pledged token `"t2"` at index 1 of `mixedReply` is skipped. -/
theorem type_filter_witness :
    acceptToken sampleInitBlock (newPledgeDetails 2) "did1" mixedReply 1 "t2" =
      some (newPledgeDetails 2) :=
  ((type_filter sampleInitBlock (newPledgeDetails 2) "did1" mixedReply 1 "t2" [] [4]
    { transType := TokenPledgedType } rfl rfl).1 rfl).1

/-! ## Signature–update ordering -/

theorem signatureLoop_no_update {β : Type} (env : AssemblyEnv β) (P : GoMap Peer)
    (order : List (String × List String)) :
    ∀ nb : β, ∀ e ∈ (signatureLoop env P order nb).1, e.isUpdate = false := by
  induction order with
  | nil => intro nb e he; simp [signatureLoop] at he
  | cons kv rest ih =>
    obtain ⟨k, v⟩ := kv
    intro nb e he
    simp only [signatureLoop] at he
    split at he
    · simp at he
    · split at he
      · simp at he; subst he; rfl
      · split at he
        · simp at he; subst he; rfl
        · split at he
          · simp at he; subst he; rfl
          · simp only [List.mem_cons] at he
            rcases he with he | he | he
            · subst he; rfl
            · subst he; rfl
            · exact ih _ e he

theorem signatureLoop_ok {β : Type} (env : AssemblyEnv β) (P : GoMap Peer)
    (order : List (String × List String)) :
    ∀ nb nb1 : β, (signatureLoop env P order nb).2 = .ok nb1 →
      ∀ kv ∈ order, ∃ p, P.get kv.1 = some p ∧
        (∃ msg sig, env.signature p = .reply true msg sig) ∧
        AssemblyEvent.signatureRequest kv.1 ∈ (signatureLoop env P order nb).1 ∧
        AssemblyEvent.signatureReplaced kv.1 ∈ (signatureLoop env P order nb).1 := by
  induction order with
  | nil => intro nb nb1 _ kv hkv; simp at hkv
  | cons kv0 rest ih =>
    obtain ⟨k, v⟩ := kv0
    intro nb nb1 hok kv hkv
    simp only [signatureLoop] at hok ⊢
    cases hP : P.get k with
    | none => simp [hP] at hok
    | some p =>
      simp only [hP] at hok ⊢
      cases hsig : env.signature p with
      | error => simp [hsig] at hok
      | reply status msg sig =>
        simp only [hsig] at hok ⊢
        cases status with
        | false => simp at hok
        | true =>
          simp only [Bool.not_true, Bool.false_eq_true, if_false] at hok ⊢
          cases hrep : env.replaceSignature nb k sig with
          | none => simp [hrep] at hok
          | some nb' =>
            simp only [hrep] at hok ⊢
            rcases List.mem_cons.mp hkv with h | h
            · subst h
              exact ⟨p, hP, ⟨msg, sig, hsig⟩, by simp, by simp⟩
            · obtain ⟨p', hP', hs', h1, h2⟩ := ih nb' nb1 hok kv h
              exact ⟨p', hP', hs', by simp [h1], by simp [h2]⟩

theorem pledgeUpdateLoop_events {β : Type} (env : AssemblyEnv β) (P : GoMap Peer) (nb : β)
    (order : List (String × List String)) :
    ∃ u : List String, (pledgeUpdateLoop env P nb order).1 = u.map AssemblyEvent.updatePledgeToken := by
  induction order with
  | nil => exact ⟨[], rfl⟩
  | cons kv rest ih =>
    obtain ⟨k, v⟩ := kv
    obtain ⟨u, hu⟩ := ih
    simp only [pledgeUpdateLoop]
    split
    · exact ⟨[], rfl⟩
    · split
      · exact ⟨[k], rfl⟩
      · split
        · exact ⟨[k], rfl⟩
        · exact ⟨k :: u, by simp [hu]⟩

/-- C5 (signature–update ordering). In every run of the two loops of `pledgeQuorumToken`
over the entries of `pd.PledgedTokens`, whatever the order of the two `range`s and
whatever the validators reply: the events are those of the signature loop followed by
`UPDATE_PLEDGE_TOKEN` requests only; if any `UPDATE_PLEDGE_TOKEN` is issued, then for
every validator DID of `pd.PledgedTokens` the peer was found, its `SIGNATURE_REQUEST`
was issued and answered with status true, and its signature was replaced in the block;
and if the signature RPC of some validator of `pd.PledgedTokens` errors or is refused,
the function returns an error and has issued no `UPDATE_PLEDGE_TOKEN` at all. -/
theorem signature_before_update {β : Type} (env : AssemblyEnv β) (P : GoMap Peer)
    (pd : PledgeDetails) (order1 order2 : List (String × List String)) (nb : β)
    (h1 : order1.Perm pd.PledgedTokens) :
    (∃ (s : List AssemblyEvent) (u : List String),
        (pledgeQuorumTokenSend env P order1 order2 nb).1 =
          s ++ u.map AssemblyEvent.updatePledgeToken ∧ ∀ e ∈ s, e.isUpdate = false) ∧
      ((∃ d, AssemblyEvent.updatePledgeToken d ∈ (pledgeQuorumTokenSend env P order1 order2 nb).1) →
        ∀ k ∈ pd.PledgedTokens.keys, ∃ p, P.get k = some p ∧
          (∃ msg sig, env.signature p = .reply true msg sig) ∧
          AssemblyEvent.signatureRequest k ∈ (pledgeQuorumTokenSend env P order1 order2 nb).1 ∧
          AssemblyEvent.signatureReplaced k ∈ (pledgeQuorumTokenSend env P order1 order2 nb).1) ∧
      ((∃ k ∈ pd.PledgedTokens.keys, ∃ p, P.get k = some p ∧
          ∀ msg sig, env.signature p ≠ .reply true msg sig) →
        (∃ e, (pledgeQuorumTokenSend env P order1 order2 nb).2 = .error e) ∧
        ∀ d, AssemblyEvent.updatePledgeToken d ∉ (pledgeQuorumTokenSend env P order1 order2 nb).1) := by
  have hkeys : ∀ k ∈ pd.PledgedTokens.keys, ∃ kv ∈ order1, kv.1 = k := by
    intro k hk
    obtain ⟨kv, hkv, rfl⟩ := List.mem_map.mp hk
    exact ⟨kv, h1.mem_iff.mpr hkv, rfl⟩
  have hno := signatureLoop_no_update env P order1 nb
  have hok := signatureLoop_ok env P order1 nb
  cases hres : signatureLoop env P order1 nb with
  | mk tr res =>
    rw [hres] at hno hok
    cases res with
    | error e =>
      have hsend : pledgeQuorumTokenSend env P order1 order2 nb = (tr, .error e) := by
        simp only [pledgeQuorumTokenSend, hres]
      have hnone : ∀ d, AssemblyEvent.updatePledgeToken d ∉ tr := by
        intro d hd
        have := hno _ hd
        simp [AssemblyEvent.isUpdate] at this
      rw [hsend]
      refine ⟨⟨tr, [], by simp, hno⟩, ?_, ?_⟩
      · rintro ⟨d, hd⟩
        exact absurd hd (hnone d)
      · intro _
        exact ⟨⟨e, rfl⟩, hnone⟩
    | ok nb1 =>
      obtain ⟨u, hu⟩ := pledgeUpdateLoop_events env P nb1 order2
      have hsend : pledgeQuorumTokenSend env P order1 order2 nb =
          (tr ++ u.map AssemblyEvent.updatePledgeToken, (pledgeUpdateLoop env P nb1 order2).2) := by
        simp only [pledgeQuorumTokenSend, hres, hu]
      have hall := hok nb1 rfl
      rw [hsend]
      refine ⟨⟨tr, u, rfl, hno⟩, ?_, ?_⟩
      · intro _ k hk
        obtain ⟨kv, hkv, rfl⟩ := hkeys k hk
        obtain ⟨p, hP, hs, hreq, hrep⟩ := hall kv hkv
        exact ⟨p, hP, hs, List.mem_append_left _ hreq, List.mem_append_left _ hrep⟩
      · rintro ⟨k, hk, p, hP, hfail⟩
        obtain ⟨kv, hkv, rfl⟩ := hkeys k hk
        obtain ⟨p', hP', ⟨msg, sig, hs⟩, _, _⟩ := hall kv hkv
        rw [hP] at hP'
        cases hP'
        exact absurd hs (hfail msg sig)

/-- Witness for C5: validator 3 refuses to sign, so no pledge update is sent to the
validators 1, 2 and 3. -/
theorem signature_before_update_witness :
    (∃ e, (pledgeQuorumTokenSend sampleAssemblyEnv samplePeers samplePledged samplePledged
        ([] : List String)).2 = .error e) ∧
      ∀ d, AssemblyEvent.updatePledgeToken d ∉
        (pledgeQuorumTokenSend sampleAssemblyEnv samplePeers samplePledged samplePledged
          ([] : List String)).1 :=
  (signature_before_update sampleAssemblyEnv samplePeers samplePledgeDetails samplePledged
    samplePledged [] (List.Perm.refl _)).2.2
    ⟨"did3", by decide, samplePeer 3, by decide, fun msg sig h => by
      simp [sampleAssemblyEnv, samplePeer] at h⟩

/-! ## Pledged-block invariant -/

theorem acceptToken_traced (initBlock : Bytes → Option Block) (all : List (Peer × PledgeRPC))
    (pd pd' : PledgeDetails) (p : Peer) (prs : PledgeReply) (i : Nat) (t : String)
    (hmem : (p, PledgeRPC.reply prs) ∈ all) (hstatus : prs.Status = true)
    (ht : prs.Tokens[i]? = some t)
    (hinv : BlocksTraced initBlock all pd)
    (hstep : acceptToken initBlock pd p.did prs i t = some pd') :
    BlocksTraced initBlock all pd' := by
  simp only [acceptToken] at hstep
  split at hstep
  · cases hstep
  · rename_i blk hblk
    split at hstep
    · cases hstep
    · simp only [Option.some.injEq] at hstep
      subst hstep
      exact hinv
    · rename_i hchk
      split at hstep
      · cases hstep
      · rename_i v hv
        simp only [Option.some.injEq] at hstep
        subst hstep
        have hoff : offers initBlock all p.did t blk :=
          ⟨p, prs, i, hmem, rfl, hstatus, ht, hblk, hchk⟩
        obtain ⟨htok, hblks⟩ := hinv
        constructor
        · intro d t' ht'
          simp only at ht' ⊢
          have hstored : ∀ t'', (∃ b, pd.PledgedTokenChainBlock.get t'' = some b) →
              ∃ b, (pd.PledgedTokenChainBlock.set t blk).get t'' = some b := by
            intro t'' ⟨b, hb⟩
            by_cases heq : t'' = t
            · subst heq; exact ⟨blk, GoMap.get_set_self _ _ _⟩
            · exact ⟨b, by rw [GoMap.get_set_ne _ _ _ _ heq]; exact hb⟩
          by_cases hd : d = p.did
          · subst hd
            rw [GoMap.get_set_self] at ht'
            simp only [Option.getD_some, List.mem_append, List.mem_singleton] at ht'
            rcases ht' with h | h
            · obtain ⟨ho, hb⟩ := htok p.did t' h
              exact ⟨ho, hstored t' hb⟩
            · subst h
              exact ⟨⟨blk, hoff⟩, ⟨blk, GoMap.get_set_self _ _ _⟩⟩
          · rw [GoMap.get_set_ne _ _ _ _ hd] at ht'
            obtain ⟨ho, hb⟩ := htok d t' ht'
            exact ⟨ho, hstored t' hb⟩
        · intro t' b hb
          simp only at hb
          by_cases heq : t' = t
          · subst heq
            rw [GoMap.get_set_self] at hb
            cases hb
            exact ⟨p.did, hoff⟩
          · rw [GoMap.get_set_ne _ _ _ _ heq] at hb
            exact hblks t' b hb

theorem acceptLoop_traced (initBlock : Bytes → Option Block) (all : List (Peer × PledgeRPC))
    (p : Peer) (prs : PledgeReply) (hmem : (p, PledgeRPC.reply prs) ∈ all)
    (hstatus : prs.Status = true) (ts : List String) :
    ∀ (i : Nat) (pd pd' : PledgeDetails),
      (∀ j t, ts[j]? = some t → prs.Tokens[i + j]? = some t) →
      BlocksTraced initBlock all pd →
      acceptLoop initBlock p.did prs i ts pd = some pd' →
      BlocksTraced initBlock all pd' := by
  induction ts with
  | nil =>
    intro i pd pd' _ hinv hrun
    simp only [acceptLoop, Option.some.injEq] at hrun
    exact hrun ▸ hinv
  | cons t ts ih =>
    intro i pd pd' hidx hinv hrun
    simp only [acceptLoop] at hrun
    cases hstep : acceptToken initBlock pd p.did prs i t with
    | none => simp [hstep] at hrun
    | some pd1 =>
      simp only [hstep] at hrun
      have ht : prs.Tokens[i]? = some t := by simpa using hidx 0 t (by simp)
      have hinv1 := acceptToken_traced initBlock all pd pd1 p prs i t hmem hstatus ht hinv hstep
      have hidx1 : ∀ j t', ts[j]? = some t' → prs.Tokens[i + 1 + j]? = some t' := by
        intro j t' hj
        have := hidx (j + 1) t' (by simpa using hj)
        rwa [show i + 1 + j = i + (j + 1) by omega]
      exact ih (i + 1) pd1 pd' hidx1 hinv1 hrun

theorem pledgeTokens_traced (initBlock : Bytes → Option Block) (all : List (Peer × PledgeRPC))
    (pd pd' : PledgeDetails) (p : Peer) (rpc : PledgeRPC) (e : Option String)
    (hmem : (p, rpc) ∈ all) (hinv : BlocksTraced initBlock all pd)
    (hstep : pledgeTokens initBlock pd p rpc = some (pd', e)) :
    BlocksTraced initBlock all pd' := by
  simp only [pledgeTokens] at hstep
  split at hstep
  · cases rpc with
    | error =>
      simp only [Option.some.injEq, Prod.mk.injEq] at hstep
      exact hstep.1 ▸ hinv
    | reply prs =>
      simp only at hstep
      split at hstep
      · rename_i hstatus
        cases hloop : acceptLoop initBlock p.did prs 0 prs.Tokens
            { pd with PledgedTokens := pd.PledgedTokens.set p.did [] } with
        | none => simp [hloop] at hstep
        | some pd1 =>
          simp only [hloop, Option.some.injEq, Prod.mk.injEq] at hstep
          obtain ⟨h1, _⟩ := hstep
          subst h1
          have hreset : BlocksTraced initBlock all
              { pd with PledgedTokens := pd.PledgedTokens.set p.did [] } := by
            obtain ⟨htok, hblks⟩ := hinv
            refine ⟨?_, hblks⟩
            intro d t ht
            simp only at ht ⊢
            by_cases hd : d = p.did
            · subst hd
              rw [GoMap.get_set_self] at ht
              simp at ht
            · rw [GoMap.get_set_ne _ _ _ _ hd] at ht
              exact htok d t ht
          exact acceptLoop_traced initBlock all p prs hmem hstatus prs.Tokens 0 _ pd1
            (fun j t hj => by simpa using hj) hreset hloop
      · simp only [Option.some.injEq, Prod.mk.injEq] at hstep
        exact hstep.1 ▸ hinv
  · simp only [Option.some.injEq, Prod.mk.injEq] at hstep
    exact hstep.1 ▸ hinv

theorem collectPledges_traced (initBlock : Bytes → Option Block)
    (all : List (Peer × PledgeRPC)) (rs : List (Peer × PledgeRPC)) :
    ∀ pd pd' : PledgeDetails, (∀ x ∈ rs, x ∈ all) → BlocksTraced initBlock all pd →
      collectPledges initBlock pd rs = some pd' → BlocksTraced initBlock all pd' := by
  induction rs with
  | nil =>
    intro pd pd' _ hinv hrun
    simp only [collectPledges, Option.some.injEq] at hrun
    exact hrun ▸ hinv
  | cons x rest ih =>
    obtain ⟨p, rpc⟩ := x
    intro pd pd' hall hinv hrun
    simp only [collectPledges] at hrun
    cases hstep : pledgeTokens initBlock pd p rpc with
    | none => simp [hstep] at hrun
    | some r =>
      obtain ⟨pd1, e⟩ := r
      simp only [hstep] at hrun
      exact ih pd1 pd' (fun y hy => hall y (List.mem_cons_of_mem _ hy))
        (pledgeTokens_traced initBlock all pd pd1 p rpc e (hall _ (List.mem_cons_self _ _))
          hinv hstep) hrun

/-- C8 fails as stated: validators 1 and 2 both offer the token `"t1"`, with the blocks
`[1]` and `[2]`. Afterwards `"t1"` is recorded for validator 1, whose block for it was
`[1]`, while the block stored for `"t1"` is `[2]`, the one validator 2 returned. -/
theorem pledged_block_counterexample :
    (collectPledges sampleInitBlock (newPledgeDetails 2) sharedTokenPledges).map
        (fun pd => (pd.PledgedTokens.get "did1", pd.PledgedTokenChainBlock.get "t1"))
      = some (some ["t1"], some [2]) ∧
    (([2] : Bytes) ≠ [1]) := by
  refine ⟨by decide!, by decide⟩

/-- C8, amended. After the pledge sections of any sequence of dials, for every validator
DID `d` and every token `t` recorded in `PledgedTokens[d]`: a peer with DID `d` offered
`t` in a reply with status true, with a block that is not a pledged block;
`PledgedTokenChainBlock[t]` is set; and the block stored there is one that some
validator, not necessarily `d`, offered for `t` in such a reply. -/
theorem pledged_block_origin (initBlock : Bytes → Option Block) (amount : ℚ)
    (rs : List (Peer × PledgeRPC)) (pd : PledgeDetails)
    (hrun : collectPledges initBlock (newPledgeDetails amount) rs = some pd) :
    ∀ d t, t ∈ (pd.PledgedTokens.get d).getD [] →
      (∃ blk, offers initBlock rs d t blk) ∧
      ∃ blk, pd.PledgedTokenChainBlock.get t = some blk ∧
        ∃ d', offers initBlock rs d' t blk := by
  have hinit : BlocksTraced initBlock rs (newPledgeDetails amount) := by
    constructor
    · intro d t ht
      simp [newPledgeDetails, GoMap.get] at ht
    · intro t blk hb
      simp [newPledgeDetails, GoMap.get] at hb
  obtain ⟨htok, hblks⟩ := collectPledges_traced initBlock rs rs (newPledgeDetails amount) pd
    (fun _ h => h) hinit hrun
  intro d t ht
  obtain ⟨ho, blk, hb⟩ := htok d t ht
  exact ⟨ho, blk, hb, hblks t blk hb⟩

/-- Witness for the amended C8: the token `"t2"` recorded for validator 2 after
`unitPledges`. -/
theorem pledged_block_origin_witness :
    (∃ blk, offers sampleInitBlock unitPledges "did2" "t2" blk) ∧
      ∃ blk, afterUnitPledges.PledgedTokenChainBlock.get "t2" = some blk ∧
        ∃ d', offers sampleInitBlock unitPledges d' "t2" blk :=
  pledged_block_origin sampleInitBlock 2 unitPledges afterUnitPledges (by decide!)
    "did2" "t2" (by decide)

/-! ## Peer handles -/

/-- C9 (handle closure) does not hold of the code. With five candidates of which the
validators 1 to 4 report consensus success and validator 5 refuses, `initiateConsensus`
returns "consensus failed" and only handle 5 has been closed: the handles 1 to 4, kept
in the peers map of the request state, stay open. With six successes and a signature
failure in `pledgeQuorumToken`, only the surplus handle 6 has been closed. On the path
without error, `sendQuorumCredit` closes the five kept handles. -/
theorem handle_leak_on_abort :
    roundOutcome ["a", "b", "c", "d", "e"] shortfallSchedule none none
        = some ([5], some "consensus failed") ∧
      roundOutcome ["a", "b", "c", "d", "e", "f"] successSchedule
          (some "failed to get signature from the quorum") none
        = some ([6], some "failed to get signature from the quorum") ∧
      roundOutcome ["a", "b", "c", "d", "e", "f"] successSchedule none none
        = some ([6, 1, 2, 3, 4, 5], none) := by
  refine ⟨by decide, by decide, by decide⟩

/-! ## Late completer -/

/-- C10 (late completer). When the request id has no entry in the request-state
registry, `finishConsensus` returns, leaves both registry maps exactly as they are (so
every other request keeps its counters, credit list and peers), and calls `Close` once
on the peer handed in, if there is one, and on no other handle; and `startConsensus`
changes nothing. This holds for every role. -/
theorem late_completer (c : Core) (id : String) (qt : Int) (p : Option Peer) (status : Bool)
    (hash : String) (ss ps : Bytes) (hreg : c.quorumRequest.get id = none) :
    ∃ c', finishConsensus c id qt p status hash ss ps = some c' ∧
      c'.quorumRequest = c.quorumRequest ∧ c'.pd = c.pd ∧
      (∀ q, p = some q → c'.closed = c.closed ++ [q.handle] ∧
        c'.closeCount q.handle = c.closeCount q.handle + 1 ∧
        ∀ h, h ≠ q.handle → c'.closeCount h = c.closeCount h) ∧
      (p = none → c' = c) ∧
      startConsensus c id qt = c := by
  refine ⟨c.closeIfSet p, by simp [finishConsensus, hreg], ?_, ?_, ?_, ?_, ?_⟩
  · cases p <;> rfl
  · cases p <;> rfl
  · intro q hq
    subst hq
    refine ⟨rfl, ?_, ?_⟩
    · simp [Core.closeIfSet, Core.close, Core.closeCount]
    · intro h hne
      simp [Core.closeIfSet, Core.close, Core.closeCount, List.count_append, List.count_cons,
        Ne.symm hne]
  · intro hp
    subst hp
    rfl
  · simp [startConsensus, hreg]

/-- Witness for C10: validator 6 reports success for a request that is not registered. -/
theorem late_completer_witness :
    ∃ c', finishConsensus sampleCore "gone" AlphaQuorumType (some (samplePeer 6)) true "h"
          [] [] = some c' ∧
      c'.quorumRequest = sampleCore.quorumRequest ∧ c'.pd = sampleCore.pd ∧
      (∀ q, some (samplePeer 6) = some q → c'.closed = sampleCore.closed ++ [q.handle] ∧
        c'.closeCount q.handle = sampleCore.closeCount q.handle + 1 ∧
        ∀ h, h ≠ q.handle → c'.closeCount h = sampleCore.closeCount h) ∧
      (some (samplePeer 6) = none → c' = sampleCore) ∧
      startConsensus sampleCore "gone" AlphaQuorumType = sampleCore :=
  late_completer sampleCore "gone" AlphaQuorumType (some (samplePeer 6)) true "h" [] []
    (by decide)

/-! ## Transaction type by mode -/

/-- C11 (transaction type by mode). Whatever the contract, the transaction info, the
credit list and the pledge details are, the token-chain block composed by
`pledgeQuorumToken` has transaction type `TOKEN_TRANSFERRED` in the modes RBT transfer,
NFT transfer and NFT sale, `TOKEN_COMMITTED` in the data-commit mode and
`TOKEN_GENERATED` in the smart-contract deploy and execute modes; the three types are
different from one another. -/
theorem transaction_type_by_mode (smartContractToken : String) (sc : Contract)
    (bti : TransInfo) (credit : List String) (ptds : List PledgeDetail) :
    (composeTokenChainBlock RBTTransferMode smartContractToken sc bti credit
        ptds).TransactionType = TokenTransferredType ∧
      (composeTokenChainBlock NFTTransferMode smartContractToken sc bti credit
        ptds).TransactionType = TokenTransferredType ∧
      (composeTokenChainBlock NFTSaleContractMode smartContractToken sc bti credit
        ptds).TransactionType = TokenTransferredType ∧
      (composeTokenChainBlock DTCommitMode smartContractToken sc bti credit
        ptds).TransactionType = TokenCommittedType ∧
      (composeTokenChainBlock SmartContractDeployMode smartContractToken sc bti credit
        ptds).TransactionType = TokenGeneratedType ∧
      (composeTokenChainBlock SmartContractExecuteMode smartContractToken sc bti credit
        ptds).TransactionType = TokenGeneratedType ∧
      TokenTransferredType ≠ TokenCommittedType ∧ TokenTransferredType ≠ TokenGeneratedType ∧
      TokenCommittedType ≠ TokenGeneratedType := by
  refine ⟨?_, ?_, ?_, ?_, ?_, ?_, by decide, by decide, by decide⟩ <;>
    simp [composeTokenChainBlock, RBTTransferMode, NFTTransferMode, NFTSaleContractMode,
      DTCommitMode, SmartContractDeployMode, SmartContractExecuteMode]

/-! ## Collector poll outcome -/

/-- The poll loop from counter `count < 300` with enough fuel: it returns at the first
pass after `count` that sees the details dropped or a remaining pledge of 0, and at
pass 300 if there is none before. -/
theorem pledgePollLoop_spec (obs : Nat → Option ℚ) (fuel : Nat) :
    ∀ count : Nat, count < 300 → 300 ≤ count + fuel →
      ∃ k res, pledgePollLoop obs fuel count = some (k, res) ∧ count < k ∧ k ≤ 300 ∧
        (∀ j, count < j → j < k → ∃ r, obs j = some r ∧ r ≠ 0) ∧
        (obs k = some 0 → res = none) ∧
        (obs k = none → res = some "invalid pledge request") ∧
        (∀ r, obs k = some r → r ≠ 0 → k = 300 ∧ res = some "unable to pledge token") := by
  induction fuel with
  | zero => intro count h1 h2; omega
  | succ fuel ih =>
    intro count h1 h2
    simp only [pledgePollLoop]
    cases hobs : obs (count + 1) with
    | none =>
      refine ⟨count + 1, _, rfl, by omega, by omega, ?_, ?_, ?_, ?_⟩
      · intro j hj1 hj2; omega
      · intro h; rw [hobs] at h; cases h
      · intro _; rfl
      · intro r h; rw [hobs] at h; cases h
    | some rem =>
      simp only
      by_cases hrem : rem = 0
      · simp only [hrem, if_true]
        refine ⟨count + 1, _, rfl, by omega, by omega, ?_, ?_, ?_, ?_⟩
        · intro j hj1 hj2; omega
        · intro _; rfl
        · intro h; rw [hobs] at h; cases h
        · intro r h hr
          rw [hobs, hrem] at h
          exact absurd (Option.some.inj h).symm hr
      · simp only [hrem, if_false]
        by_cases hc : count + 1 = 300
        · simp only [hc, if_true]
          have hobs' : obs 300 = some rem := hc ▸ hobs
          refine ⟨300, _, rfl, by omega, le_refl _, ?_, ?_, ?_, ?_⟩
          · intro j hj1 hj2; omega
          · intro h; rw [hobs'] at h; exact absurd (Option.some.inj h) hrem
          · intro h; rw [hobs'] at h; cases h
          · intro r _ _; exact ⟨rfl, rfl⟩
        · simp only [hc, if_false]
          obtain ⟨k, res, hrun, hk1, hk2, hbefore, h0, hnone, hlate⟩ :=
            ih (count + 1) (by omega) (by omega)
          refine ⟨k, res, hrun, by omega, hk2, ?_, h0, hnone, hlate⟩
          intro j hj1 hj2
          by_cases hj : j = count + 1
          · subst hj; exact ⟨rem, hobs, hrem⟩
          · exact hbefore j (by omega) hj2

/-- C12 (collector poll outcome). Run against any sequence of observations of the
pledge details, one per pass, the poll loop of `initPledgeQuorumToken` returns after a
number `k` of passes with `1 ≤ k ≤ 300`, provided it is given at least 300 passes. Every
pass before `k` saw the details registered with a remaining pledge other than 0. If
pass `k` sees a remaining pledge of 0 the loop returns without error; if it sees the
details dropped the loop returns the error "invalid pledge request"; and otherwise `k`
is 300 and the loop returns the error "unable to pledge token". -/
theorem initPledgePoll_outcome (id : String) (cores : Nat → Core) (fuel : Nat)
    (hfuel : 300 ≤ fuel) :
    ∃ k res, initPledgePoll id cores fuel = some (k, res) ∧ 1 ≤ k ∧ k ≤ 300 ∧
      (∀ j, 1 ≤ j → j < k → ∃ r, pledgeObservation (cores j) id = some r ∧ r ≠ 0) ∧
      (pledgeObservation (cores k) id = some 0 → res = none) ∧
      (pledgeObservation (cores k) id = none → res = some "invalid pledge request") ∧
      (∀ r, pledgeObservation (cores k) id = some r → r ≠ 0 →
        k = 300 ∧ res = some "unable to pledge token") := by
  obtain ⟨k, res, hrun, hk1, hk2, hbefore, h0, hnone, hlate⟩ :=
    pledgePollLoop_spec (fun k => pledgeObservation (cores k) id) fuel 0 (by omega) (by omega)
  exact ⟨k, res, hrun, by omega, hk2, fun j hj1 hj2 => hbefore j (by omega) hj2, h0, hnone,
    hlate⟩

/-- Witness for C12: the remaining pledge is seen to be 0 at the third pass. -/
theorem initPledgePoll_outcome_witness :
    ∃ k res, initPledgePoll "req" sampleCores 300 = some (k, res) ∧ 1 ≤ k ∧ k ≤ 300 ∧
      (∀ j, 1 ≤ j → j < k →
        ∃ r, pledgeObservation (sampleCores j) "req" = some r ∧ r ≠ 0) ∧
      (pledgeObservation (sampleCores k) "req" = some 0 → res = none) ∧
      (pledgeObservation (sampleCores k) "req" = none →
        res = some "invalid pledge request") ∧
      (∀ r, pledgeObservation (sampleCores k) "req" = some r → r ≠ 0 →
        k = 300 ∧ res = some "unable to pledge token") :=
  initPledgePoll_outcome "req" sampleCores 300 (le_refl 300)

/-! ## Consensus failure and the dials -/

theorem BarrierRound.step_keeps_coherent (id : String) (s s' : BarrierRound) (e : RoundEvent)
    (hinv : s.round.Coherent id) (hstep : s.step id e = some s') :
    s'.round.Coherent id ∧ s'.round.dials.length = s.round.dials.length ∧
      (s'.exit = some (some "consensus failed") →
        s.exit = none ∧ s'.round = s.round ∧
          (barrierObserve s.round.core id).loop = false ∧
          (barrierObserve s.round.core id).err = some "consensus failed") := by
  cases e with
  | dial e =>
    simp only [BarrierRound.step] at hstep
    cases hexit : s.exit with
    | some x => simp [hexit] at hstep
    | none =>
      simp only [hexit] at hstep
      cases hr : s.round.step id e with
      | none => simp [hr] at hstep
      | some r =>
        simp only [hr, Option.some.injEq] at hstep
        subst hstep
        refine ⟨Round.step_coherent id s.round r e hinv hr, ?_, ?_⟩
        · exact Round.run_dials_length id [e] s.round r (by simp [Round.run, hr])
        · intro h
          simp [hexit] at h
  | poll =>
    simp only [BarrierRound.step] at hstep
    cases hexit : s.exit with
    | some x => simp [hexit] at hstep
    | none =>
      simp only [hexit] at hstep
      by_cases hloop : (barrierObserve s.round.core id).loop = true
      · simp only [hloop, if_true, Option.some.injEq] at hstep
        subst hstep
        refine ⟨hinv, rfl, ?_⟩
        intro h
        simp [hexit] at h
      · have hl : (barrierObserve s.round.core id).loop = false := by simpa using hloop
        simp only [hl, Bool.false_eq_true, if_false, Option.some.injEq] at hstep
        subst hstep
        refine ⟨hinv, rfl, ?_⟩
        intro h
        simp only [Option.some.injEq] at h
        exact ⟨rfl, rfl, hl, h⟩

theorem BarrierRound.run_keeps_coherent (id : String) (events : List RoundEvent) :
    ∀ s s' : BarrierRound, s.round.Coherent id →
      (s.exit = some (some "consensus failed") →
        (barrierObserve s.round.core id).loop = false ∧
        (barrierObserve s.round.core id).err = some "consensus failed") →
      BarrierRound.run id s events = some s' →
      s'.round.Coherent id ∧ s'.round.dials.length = s.round.dials.length ∧
        (s'.exit = some (some "consensus failed") →
          (barrierObserve s'.round.core id).loop = false ∧
          (barrierObserve s'.round.core id).err = some "consensus failed") := by
  induction events with
  | nil =>
    intro s s' hinv hex hrun
    simp only [BarrierRound.run, Option.some.injEq] at hrun
    subst hrun
    exact ⟨hinv, rfl, hex⟩
  | cons e rest ih =>
    intro s s' hinv hex hrun
    simp only [BarrierRound.run] at hrun
    cases hstep : s.step id e with
    | none => simp [hstep] at hrun
    | some s1 =>
      simp only [hstep] at hrun
      obtain ⟨hinv1, hlen1, hex1⟩ := BarrierRound.step_keeps_coherent id s s1 e hinv hstep
      have hex1' : s1.exit = some (some "consensus failed") →
          (barrierObserve s1.round.core id).loop = false ∧
          (barrierObserve s1.round.core id).err = some "consensus failed" := by
        intro h
        obtain ⟨_, hround, hl, he⟩ := hex1 h
        rw [hround]
        exact ⟨hl, he⟩
      obtain ⟨hinv2, hlen2, hex2⟩ := ih s1 s' hinv1 hex1' hrun
      exact ⟨hinv2, hlen2.trans hlen1, hex2⟩

theorem DialPhase.count_total (l : List DialPhase) :
    l.count DialPhase.idle + l.count DialPhase.running + l.count DialPhase.done = l.length := by
  induction l with
  | nil => simp
  | cons a rest ih =>
    cases a <;> simp [List.count_cons] <;> omega

/-- C13 fails as stated: with five candidates, a pass of the polling loop that runs
before any dial has reached `startConsensus` sees `RunningCount = 0` and leaves the
barrier with "consensus failed", while no dial has reported: success + failed is 0,
not 5. -/
theorem consensus_failed_counterexample :
    BarrierRound.run "req" (BarrierRound.init sampleCore ["a", "b", "c", "d", "e"])
        [RoundEvent.poll] = some earlyPollEnd ∧
      earlyPollEnd.exit = some (some "consensus failed") ∧
      earlyPollEnd.counters "req" = some (0, 0, 0) ∧
      earlyPollEnd.round.dials =
        [DialPhase.idle, DialPhase.idle, DialPhase.idle, DialPhase.idle, DialPhase.idle] := by
  refine ⟨by decide, by decide, by decide, by decide⟩

/-- C13, amended. In the step model whose steps are the `startConsensus` and the
`finishConsensus` of each dial and the passes of the polling loop, in any order after
the fan-out on a request registered with counters zero: whenever the barrier exits with
"consensus failed", `SuccessCount < 5`, `RunningCount = 0`, no dial is between its
`startConsensus` and its `finishConsensus`, and `SuccessCount + FailedCount` is the
number of dials that have reported; if moreover every dial has reached `startConsensus`
by then, every dial has reported: `SuccessCount + FailedCount = |quorum list|`. -/
theorem consensus_failed_after_dials (c : Core) (id : String) (cs : ConsensusStatus)
    (ql : List String) (events : List RoundEvent) (s : BarrierRound)
    (hreg : c.quorumRequest.get id = some cs) (hzero : cs.Result = ⟨0, 0, 0⟩)
    (hrun : BarrierRound.run id (BarrierRound.init c ql) events = some s)
    (hexit : s.exit = some (some "consensus failed")) :
    ∃ cs', s.round.core.quorumRequest.get id = some cs' ∧
      cs'.Result.SuccessCount < MinConsensusRequired ∧ cs'.Result.RunningCount = 0 ∧
      s.round.dials.count DialPhase.running = 0 ∧
      cs'.Result.SuccessCount + cs'.Result.FailedCount
        = (s.round.dials.count DialPhase.done : Int) ∧
      (s.round.dials.count DialPhase.idle = 0 →
        cs'.Result.SuccessCount + cs'.Result.FailedCount = (ql.length : Int)) := by
  have hinit : (BarrierRound.init c ql).round.Coherent id := by
    refine ⟨cs, hreg, ?_, ?_, ?_, ?_⟩ <;>
      simp [hzero, BarrierRound.init, Round.init, List.count_replicate]
  obtain ⟨⟨cs', hreg', hr, hd, _, _⟩, hlen, hex⟩ :=
    BarrierRound.run_keeps_coherent id events _ s hinit
      (by intro h; simp [BarrierRound.init] at h) hrun
  obtain ⟨hl, he⟩ := hex hexit
  have hlen' : s.round.dials.length = ql.length := by
    rw [hlen]; simp [BarrierRound.init, Round.init]
  have htotal := DialPhase.count_total s.round.dials
  simp only [barrierObserve, hreg'] at hl he
  by_cases hs : cs'.Result.SuccessCount ≥ MinConsensusRequired
  · simp [hs] at he
  · by_cases hr0 : cs'.Result.RunningCount = 0
    · have hrun0 : s.round.dials.count DialPhase.running = 0 := by omega
      refine ⟨cs', hreg', not_le.mp hs, hr0, hrun0, hd, ?_⟩
      intro hidle
      rw [hd]
      omega
    · simp [hs, hr0] at hl

/-- Witness for the amended C13: two candidates are both refused before the pass of the
polling loop that leaves the barrier. -/
theorem consensus_failed_after_dials_witness :
    ∃ cs', refusedScheduleEnd.round.core.quorumRequest.get "req" = some cs' ∧
      cs'.Result.SuccessCount < MinConsensusRequired ∧ cs'.Result.RunningCount = 0 ∧
      refusedScheduleEnd.round.dials.count DialPhase.running = 0 ∧
      cs'.Result.SuccessCount + cs'.Result.FailedCount
        = (refusedScheduleEnd.round.dials.count DialPhase.done : Int) ∧
      (refusedScheduleEnd.round.dials.count DialPhase.idle = 0 →
        cs'.Result.SuccessCount + cs'.Result.FailedCount
          = ((["a", "b"] : List String).length : Int)) :=
  consensus_failed_after_dials sampleCore "req" freshStatus ["a", "b"] refusedSchedule
    refusedScheduleEnd (by decide) rfl (by decide) (by decide)

/-! ## Block assembly and the retained peers -/

theorem marshalCredit_ok {β : Type} (lib : AssemblerLib β) (l : List CreditSignature)
    (h : ∀ v ∈ l, ∃ jb, lib.marshal v = some jb) :
    ∃ credit, marshalCredit lib l = .ok credit := by
  induction l with
  | nil => exact ⟨[], rfl⟩
  | cons v rest ih =>
    obtain ⟨jb, hjb⟩ := h v (List.mem_cons_self _ _)
    obtain ⟨credit, hc⟩ := ih (fun w hw => h w (List.mem_cons_of_mem _ hw))
    exact ⟨jb :: credit, by simp only [marshalCredit, hjb, hc]⟩

theorem pledgeDetailsOf_ok {β : Type} (lib : AssemblerLib β) (pd : PledgeDetails) (k : String)
    (ts : List String)
    (h : ∀ t ∈ ts, ∃ blk ptb bid, pd.PledgedTokenChainBlock.get t = some blk ∧
      lib.initBlock blk = some ptb ∧ lib.getBlockID ptb t = some bid) :
    ∃ ptds, pledgeDetailsOf lib pd k ts = .ok ptds := by
  induction ts with
  | nil => exact ⟨[], rfl⟩
  | cons t rest ih =>
    obtain ⟨blk, ptb, bid, h1, h2, h3⟩ := h t (List.mem_cons_self _ _)
    obtain ⟨ptds, hp⟩ := ih (fun w hw => h w (List.mem_cons_of_mem _ hw))
    simp only [pledgeDetailsOf, h1, h2, h3, hp]
    exact ⟨_, rfl⟩

theorem pledgeDetailList_ok {β : Type} (lib : AssemblerLib β) (pd : PledgeDetails)
    (order : List (String × List String))
    (h : ∀ kv ∈ order, ∀ t ∈ kv.2, ∃ blk ptb bid, pd.PledgedTokenChainBlock.get t = some blk ∧
      lib.initBlock blk = some ptb ∧ lib.getBlockID ptb t = some bid) :
    ∃ ptds, pledgeDetailList lib pd order = .ok ptds := by
  induction order with
  | nil => exact ⟨[], rfl⟩
  | cons kv rest ih =>
    obtain ⟨k, v⟩ := kv
    obtain ⟨ptds, hp⟩ := pledgeDetailsOf_ok lib pd k v (h (k, v) (List.mem_cons_self _ _))
    obtain ⟨more, hm⟩ := ih (fun w hw => h w (List.mem_cons_of_mem _ hw))
    exact ⟨ptds ++ more, by simp only [pledgeDetailList, hp, hm]⟩

theorem transTokens_ok {β : Type} (lib : AssemblerLib β) (sc : Contract)
    (h : sc.TransTokenInfo ≠ []) : ∃ r, transTokens lib sc = some r := by
  obtain ⟨t0, rest, hti⟩ := List.exists_cons_of_ne_nil h
  simp only [transTokens, hti, List.getElem?_cons_zero]
  split
  · exact ⟨_, rfl⟩
  · split
    · exact ⟨_, rfl⟩
    · exact ⟨_, rfl⟩

theorem signatureLoop_all_ok {β : Type} (env : AssemblyEnv β) (P : GoMap Peer)
    (hsig : ∀ p, ∃ msg sig, env.signature p = .reply true msg sig)
    (hrep : ∀ nb k sig, ∃ nb', env.replaceSignature nb k sig = some nb')
    (order : List (String × List String)) (hpeers : ∀ kv ∈ order, ∃ p, P.get kv.1 = some p) :
    ∀ nb : β, ∃ nb1, (signatureLoop env P order nb).2 = .ok nb1 := by
  induction order with
  | nil => intro nb; exact ⟨nb, rfl⟩
  | cons kv rest ih =>
    obtain ⟨k, v⟩ := kv
    intro nb
    obtain ⟨p, hp⟩ := hpeers (k, v) (List.mem_cons_self _ _)
    obtain ⟨msg, sig, hs⟩ := hsig p
    obtain ⟨nb', hr⟩ := hrep nb k sig
    obtain ⟨nb1, h1⟩ := ih (fun w hw => hpeers w (List.mem_cons_of_mem _ hw)) nb'
    exact ⟨nb1, by simp [signatureLoop, hp, hs, hr, h1]⟩

theorem pledgeUpdateLoop_all_ok {β : Type} (env : AssemblyEnv β) (P : GoMap Peer) (nb : β)
    (hupd : ∀ p v b, ∃ msg, env.updatePledge p v b = .reply true msg)
    (order : List (String × List String)) (hpeers : ∀ kv ∈ order, ∃ p, P.get kv.1 = some p) :
    (pledgeUpdateLoop env P nb order).2 = .ok nb := by
  induction order with
  | nil => rfl
  | cons kv rest ih =>
    obtain ⟨k, v⟩ := kv
    obtain ⟨p, hp⟩ := hpeers (k, v) (List.mem_cons_self _ _)
    obtain ⟨msg, hu⟩ := hupd p v nb
    have h1 := ih (fun w hw => hpeers w (List.mem_cons_of_mem _ hw))
    simp [pledgeUpdateLoop, hp, hu, h1]

theorem signatureLoop_missing_peer {β : Type} (env : AssemblyEnv β) (P : GoMap Peer)
    (hsig : ∀ p, ∃ msg sig, env.signature p = .reply true msg sig)
    (hrep : ∀ nb k sig, ∃ nb', env.replaceSignature nb k sig = some nb')
    (order : List (String × List String)) (hmiss : ∃ kv ∈ order, P.get kv.1 = none) :
    ∀ nb : β, (signatureLoop env P order nb).2 =
      .error "invalid pledge request, failed to get peer connection" := by
  induction order with
  | nil => obtain ⟨kv, hkv, _⟩ := hmiss; simp at hkv
  | cons kv rest ih =>
    obtain ⟨k, v⟩ := kv
    intro nb
    cases hp : P.get k with
    | none => simp [signatureLoop, hp]
    | some p =>
      obtain ⟨msg, sig, hs⟩ := hsig p
      obtain ⟨nb', hr⟩ := hrep nb k sig
      have hmiss' : ∃ kv ∈ rest, P.get kv.1 = none := by
        obtain ⟨kv, hkv, hnone⟩ := hmiss
        rcases List.mem_cons.mp hkv with h | h
        · subst h; rw [hp] at hnone; cases hnone
        · exact ⟨kv, h, hnone⟩
      simp [signatureLoop, hp, hs, hr, ih hmiss' nb']

/-- Starting from a request state without credit and without peers, every DID that has a
peer in the peers map is the DID of one of the at most five credit signatures. -/
theorem finishAll_peers_capped (id : String) (calls : List FinishCall) :
    ∀ (c c' : Core) (cs cs' : ConsensusStatus),
      c.quorumRequest.get id = some cs → c'.quorumRequest.get id = some cs' →
      finishAll c id calls = some c' →
      ((cs.Result.SuccessCount < 5 → (cs.Credit.length : Int) = cs.Result.SuccessCount) ∧
        cs.Credit.length ≤ 5 ∧
        ∀ k p, cs.P.get k = some p → k ∈ cs.Credit.map (fun v => v.DID)) →
      ((cs'.Result.SuccessCount < 5 → (cs'.Credit.length : Int) = cs'.Result.SuccessCount) ∧
        cs'.Credit.length ≤ 5 ∧
        ∀ k p, cs'.P.get k = some p → k ∈ cs'.Credit.map (fun v => v.DID)) := by
  induction calls with
  | nil =>
    intro c c' cs cs' hreg hreg' hrun hinv
    simp only [finishAll, Option.some.injEq] at hrun
    subst hrun
    rw [hreg] at hreg'
    cases hreg'
    exact hinv
  | cons call rest ih =>
    intro c c' cs cs' hreg hreg' hrun hinv
    obtain ⟨p, status, hash, ss, ps⟩ := call
    simp only [finishAll] at hrun
    obtain ⟨h1, h2, h3⟩ := hinv
    cases status with
    | false =>
      rw [finishConsensus_failed c id cs p hash ss ps hreg] at hrun
      refine ih _ c' _ cs' (GoMap.get_set_self _ _ _) hreg' hrun ⟨?_, ?_, ?_⟩
      · exact h1
      · exact h2
      · exact h3
    | true =>
      cases p with
      | none => simp [finishConsensus, hreg, AlphaQuorumType] at hrun
      | some q =>
        by_cases hlt : cs.Result.SuccessCount < MinConsensusRequired
        · rw [finishConsensus_success_retained c id cs q hash ss ps hreg hlt] at hrun
          have hlt5 : cs.Result.SuccessCount < 5 := hlt
          refine ih _ c' _ cs' (GoMap.get_set_self _ _ _) hreg' hrun ⟨?_, ?_, ?_⟩
          · intro _
            simp only [List.length_append, List.length_singleton]
            have := h1 hlt5
            push_cast
            omega
          · simp only [List.length_append, List.length_singleton]
            have := h1 hlt5
            omega
          · intro k p hk
            simp only [List.map_append, List.map_cons, List.map_nil, List.mem_append,
              List.mem_singleton]
            by_cases hkq : k = q.did
            · exact Or.inr hkq
            · rw [GoMap.get_set_ne _ _ _ _ hkq] at hk
              exact Or.inl (h3 k p hk)
        · rw [finishConsensus_success_surplus c id cs q hash ss ps hreg hlt] at hrun
          have hge : ¬ cs.Result.SuccessCount < 5 := hlt
          refine ih _ c' _ cs' (GoMap.get_set_self _ _ _) hreg' hrun ⟨?_, ?_, ?_⟩
          · intro h
            simp only at h
            omega
          · exact h2
          · exact h3

/-- C14 fails as stated: ten validators each pledge one token of value 0.5 towards a
transfer of 5 and all ten report consensus success; the remaining pledge is 0, all
blocks decode and every validator would answer every request with status true. The ten
DIDs are keys of `PledgedTokens`, the peers map holds the first five successful
validators only, and `pledgeQuorumToken` returns an error before issuing any request. -/
theorem partial_pledge_counterexample :
    (pledgedRound 10 (1 / 2)).bind (fun c => (c.pd.get "req").map (fun pd =>
        (pd.RemPledgeTokens, pd.PledgedTokens.keys.length))) = some (0, 10) ∧
      (pledgedRound 10 (1 / 2)).bind (fun c => (c.quorumRequest.get "req").map (fun cs =>
        (cs.Result.SuccessCount, cs.P.keys.length))) = some (10, 5) ∧
      (pledgedRound 10 (1 / 2)).bind sampleAssembly =
        some ([], some "invalid pledge request, failed to get peer connection") := by
  refine ⟨by decide!, by decide!, by decide!⟩

/-- C14, amended. Let the pledge details and the request state be registered, the credit
list serialize, every pledged block be stored, decode and yield a block id, the contract
carry a token, the block library create the new block and replace every signature, and
every validator answer `SIGNATURE_REQUEST` and `UPDATE_PLEDGE_TOKEN` with status true.
Then `pledgeQuorumToken` succeeds if every validator DID that is a key of
`PledgedTokens` has a peer in the peers map of the request state, and it returns the
error "invalid pledge request, failed to get peer connection" if one of them has none.
The peers map, filled by `finishConsensus` from an empty request state, holds peers for
at most five DIDs: whenever more than five distinct DIDs are keys of `PledgedTokens`,
one of them has no peer. -/
theorem assembly_needs_retained_peers {β : Type} (lib : AssemblerLib β) (env : AssemblyEnv β)
    (c : Core) (id : String) (mode : Int) (smartContractToken : String) (sc : Contract)
    (tid : String) (order0 order1 order2 : List (String × List String))
    (pd : PledgeDetails) (cs : ConsensusStatus)
    (hpd : c.pd.get id = some pd) (hcs : c.quorumRequest.get id = some cs)
    (h0 : order0.Perm pd.PledgedTokens) (h1 : order1.Perm pd.PledgedTokens)
    (h2 : order2.Perm pd.PledgedTokens)
    (hmarshal : ∀ v ∈ cs.Credit, ∃ jb, lib.marshal v = some jb)
    (hblocks : ∀ kv ∈ pd.PledgedTokens, ∀ t ∈ kv.2, ∃ blk ptb bid,
      pd.PledgedTokenChainBlock.get t = some blk ∧ lib.initBlock blk = some ptb ∧
      lib.getBlockID ptb t = some bid)
    (htokens : sc.TransTokenInfo ≠ [])
    (hcreate : ∀ ctcb tcb, ∃ nb, lib.createNewBlock ctcb tcb = some nb)
    (hget : ∀ nb, ∃ blk, lib.getBlock nb = some blk)
    (hsig : ∀ p, ∃ msg sig, env.signature p = .reply true msg sig)
    (hrep : ∀ nb k sig, ∃ nb', env.replaceSignature nb k sig = some nb')
    (hupd : ∀ p v b, ∃ msg, env.updatePledge p v b = .reply true msg) :
    ((∀ k ∈ pd.PledgedTokens.keys, ∃ p, cs.P.get k = some p) →
        ∃ tr nb, pledgeQuorumToken lib env c id mode smartContractToken sc tid
          order0 order1 order2 = some (tr, .ok nb)) ∧
      ((∃ k ∈ pd.PledgedTokens.keys, cs.P.get k = none) →
        ∃ tr, pledgeQuorumToken lib env c id mode smartContractToken sc tid
          order0 order1 order2 =
            some (tr, .error "invalid pledge request, failed to get peer connection")) ∧
      (∀ (c0 c1 : Core) (cs0 : ConsensusStatus) (calls : List FinishCall),
        c0.quorumRequest.get id = some cs0 → cs0.Credit = [] → cs0.P = [] →
        cs0.Result.SuccessCount = 0 → finishAll c0 id calls = some c1 →
        c1.quorumRequest.get id = some cs →
        ∀ ks : List String, ks.Nodup → ks ⊆ pd.PledgedTokens.keys → 5 < ks.length →
          ∃ k ∈ pd.PledgedTokens.keys, cs.P.get k = none) := by
  obtain ⟨credit, hcredit⟩ := marshalCredit_ok lib cs.Credit hmarshal
  obtain ⟨ptds, hptds⟩ := pledgeDetailList_ok lib pd order0
    (fun kv hkv => hblocks kv (h0.mem_iff.mp hkv))
  obtain ⟨⟨tks, ctcb⟩, htt⟩ := transTokens_ok lib sc htokens
  obtain ⟨nb, hnb⟩ := hcreate ctcb
    (composeTokenChainBlock mode smartContractToken sc
      { Comment := sc.Comment, TID := tid, Tokens := tks } credit ptds)
  obtain ⟨blk, hblk⟩ := hget nb
  have hrun : pledgeQuorumToken lib env c id mode smartContractToken sc tid
      order0 order1 order2 = some (pledgeQuorumTokenSend env cs.P order1 order2 nb) := by
    simp only [pledgeQuorumToken, hpd, hcs, hcredit, hptds, htt, hnb, hblk]
  have hkey1 : ∀ kv ∈ order1, kv.1 ∈ pd.PledgedTokens.keys := fun kv hkv =>
    List.mem_map_of_mem Prod.fst (h1.mem_iff.mp hkv)
  have hkey2 : ∀ kv ∈ order2, kv.1 ∈ pd.PledgedTokens.keys := fun kv hkv =>
    List.mem_map_of_mem Prod.fst (h2.mem_iff.mp hkv)
  refine ⟨?_, ?_, ?_⟩
  · intro hpeers
    obtain ⟨nb1, hs⟩ := signatureLoop_all_ok env cs.P hsig hrep order1
      (fun kv hkv => hpeers _ (hkey1 kv hkv)) nb
    have hu := pledgeUpdateLoop_all_ok env cs.P nb1 hupd order2
      (fun kv hkv => hpeers _ (hkey2 kv hkv))
    rw [hrun]
    cases hres : signatureLoop env cs.P order1 nb with
    | mk tr res =>
      rw [hres] at hs
      simp only at hs
      subst hs
      exact ⟨tr ++ (pledgeUpdateLoop env cs.P nb1 order2).1, nb1,
        by simp only [pledgeQuorumTokenSend, hres, hu]⟩
  · rintro ⟨k, hk, hnone⟩
    obtain ⟨kv, hkv, rfl⟩ := List.mem_map.mp hk
    have hs := signatureLoop_missing_peer env cs.P hsig hrep order1
      ⟨kv, h1.mem_iff.mpr hkv, hnone⟩ nb
    rw [hrun]
    cases hres : signatureLoop env cs.P order1 nb with
    | mk tr res =>
      rw [hres] at hs
      simp only at hs
      subst hs
      exact ⟨tr, by simp only [pledgeQuorumTokenSend, hres]⟩
  · intro c0 c1 cs0 calls hreg0 hcredit0 hP0 hs0 hfin hreg1 ks hnodup hsub hlen
    obtain ⟨_, hcap, hdid⟩ := finishAll_peers_capped id calls c0 c1 cs0 cs hreg0 hreg1 hfin
      ⟨by intro _; simp [hcredit0, hs0], by simp [hcredit0], by
        intro k p hk; simp [hP0, GoMap.get] at hk⟩
    by_contra hall
    have hall' : ∀ k ∈ pd.PledgedTokens.keys, ∃ p, cs.P.get k = some p := by
      intro k hk
      cases hp : cs.P.get k with
      | none => exact absurd ⟨k, hk, hp⟩ hall
      | some p => exact ⟨p, rfl⟩
    have hsub' : ks ⊆ cs.Credit.map (fun v => v.DID) := by
      intro k hk
      obtain ⟨p, hp⟩ := hall' k (hsub hk)
      exact hdid k p hp
    have hle := (List.Nodup.subperm hnodup hsub').length_le
    simp only [List.length_map] at hle
    omega

/-- Witness for the amended C14: five validators pledge one token of value 1 each
towards a transfer of 5, all five report consensus success and keep their peers, and
block assembly succeeds. -/
theorem assembly_needs_retained_peers_witness :
    pledgedRound 5 1 = some fivePledgersCore ∧
    ∃ tr nb, pledgeQuorumToken sampleAssemblerLib okAssemblyEnv fivePledgersCore "req"
      RBTTransferMode "" sampleContract "tid" fivePledged fivePledged fivePledged
      = some (tr, .ok nb) :=
  ⟨by decide!, (assembly_needs_retained_peers sampleAssemblerLib okAssemblyEnv fivePledgersCore "req"
    RBTTransferMode "" sampleContract "tid" fivePledged fivePledged fivePledged _ _ rfl rfl
    (List.Perm.refl _) (List.Perm.refl _) (List.Perm.refl _)
    (fun v _ => ⟨v.DID, rfl⟩)
    (fun kv hkv t ht =>
      ⟨[1], { transType := TokenTransferredType }, "block-" ++ t,
        (by decide : ∀ kv ∈ fivePledged, ∀ t ∈ kv.2, fiveBlocks.get t = some [1]) kv hkv t ht,
        rfl, rfl⟩)
    (by decide)
    (fun _ _ => ⟨[], rfl⟩)
    (fun _ => ⟨[0], rfl⟩)
    (fun p => ⟨"", "sig" ++ p.did, rfl⟩)
    (fun nb k _ => ⟨nb ++ [k], rfl⟩)
    (fun _ _ _ => ⟨"", rfl⟩)).1
    (fun k hk => Option.isSome_iff_exists.mp
      ((by decide : ∀ k ∈ GoMap.keys fivePledged, (fivePeers.get k).isSome = true) k hk))⟩

/-! ## Registry lock balance -/

theorem qlockAfter_append (a b : List LockOp) :
    ∀ held : Bool, qlockAfter held (a ++ b) =
      match qlockAfter held a with
      | none => none
      | some h => qlockAfter h b := by
  induction a with
  | nil => intro held; rfl
  | cons op rest ih =>
    intro held
    cases op <;> cases held <;> simp [qlockAfter, ih]

theorem qlockAfter_poll (k : Nat) : qlockAfter false (pollLockOps k) = some false := by
  induction k with
  | zero => rfl
  | succ k ih => simpa [pollLockOps, qlockAfter] using ih

theorem qlockAfter_section (pd : PledgeDetails) (rpc : PledgeRPC) :
    qlockAfter false (pledgeSectionLockOps pd rpc) = some false := by
  simp only [pledgeSectionLockOps]
  split
  · cases rpc with
    | error => rfl
    | reply prs =>
      simp only
      split <;> rfl
  · rfl

/-- C16 (registry lock balance) does not hold of the code. When the request has no
entry in the request-state registry, the alpha-role call of `initPledgeQuorumToken`
locks the registry lock once and unlocks it twice before it returns "invalid request":
the second unlock releases a lock the call does not hold. On every other path on which
the call returns, each acquisition of the registry lock is followed by exactly one
release and the lock is never released while not held. -/
theorem registry_lock_double_unlock (initBlock : Bytes → Option Block) (c : Core)
    (id : String) (p : Peer) (qt : Int) (rpc : PledgeRPC) (cores : Nat → Core) (fuel : Nat) :
    (qt = AlphaQuorumType → c.quorumRequest.get id = none →
        initPledgeQuorumToken initBlock c id p qt rpc cores fuel =
          some ([LockOp.qLock, LockOp.qUnlock, LockOp.qUnlock], some "invalid request") ∧
        qlockAfter false [LockOp.qLock, LockOp.qUnlock] = some false ∧
        qlockAfter false [LockOp.qLock, LockOp.qUnlock, LockOp.qUnlock] = none ∧
        qlockBalanced [LockOp.qLock, LockOp.qUnlock, LockOp.qUnlock] = false) ∧
      (¬ (qt = AlphaQuorumType ∧ c.quorumRequest.get id = none) →
        ∀ ops err, initPledgeQuorumToken initBlock c id p qt rpc cores fuel = some (ops, err) →
          qlockBalanced ops = true) := by
  constructor
  · intro hqt hreg
    refine ⟨?_, rfl, rfl, rfl⟩
    simp only [initPledgeQuorumToken, hqt, hreg, if_true]
  · intro hnot ops err h
    have hpoll : ∀ pre : List LockOp, qlockAfter false pre = some false →
        ∀ k, qlockBalanced (pre ++ pollLockOps k) = true := by
      intro pre hpre k
      simp only [qlockBalanced, qlockAfter_append, hpre, qlockAfter_poll, decide_True]
    have hpre : ∀ pd, qlockAfter false
        ([LockOp.qLock, .qUnlock, .pledgeLock, .qLock, .qUnlock] ++
          pledgeSectionLockOps pd rpc) = some false := by
      intro pd
      rw [qlockAfter_append]
      simp only [qlockAfter, Bool.false_eq_true, if_false, if_true]
      exact qlockAfter_section pd rpc
    simp only [initPledgeQuorumToken] at h
    split at h
    · rename_i hqt
      split at h
      · rename_i hreg
        exact absurd ⟨hqt, hreg⟩ hnot
      · split at h
        · simp only [Option.some.injEq, Prod.mk.injEq] at h
          rw [← h.1]
          rfl
        · rename_i pd hpd
          split at h
          · cases h
          · simp only [Option.some.injEq, Prod.mk.injEq] at h
            rw [← h.1]
            simp only [qlockBalanced, hpre pd, decide_True]
          · split at h
            · cases h
            · simp only [Option.some.injEq, Prod.mk.injEq] at h
              rw [← h.1]
              exact hpoll _ (hpre pd) _
    · split at h
      · cases h
      · simp only [Option.some.injEq, Prod.mk.injEq] at h
        rw [← h.1]
        exact hpoll [] rfl _

/-- Witness for C16: a dial calls `initPledgeQuorumToken` for a request that is not
registered. -/
theorem registry_lock_double_unlock_witness :
    initPledgeQuorumToken sampleInitBlock sampleCore "gone" (samplePeer 6) AlphaQuorumType
        PledgeRPC.error (fun _ => sampleCore) 300 =
      some ([LockOp.qLock, LockOp.qUnlock, LockOp.qUnlock], some "invalid request") ∧
    qlockAfter false [LockOp.qLock, LockOp.qUnlock] = some false ∧
    qlockAfter false [LockOp.qLock, LockOp.qUnlock, LockOp.qUnlock] = none ∧
    qlockBalanced [LockOp.qLock, LockOp.qUnlock, LockOp.qUnlock] = false :=
  (registry_lock_double_unlock sampleInitBlock sampleCore "gone" (samplePeer 6)
    AlphaQuorumType PledgeRPC.error (fun _ => sampleCore) 300).1 rfl (by decide)

/-! ## Remaining pledge -/

/-- C6 fails as stated: with a transfer amount of 1 and a single reply offering one
token of value 2, the remaining pledge after the accepted token is -1. -/
theorem remaining_negative_counterexample :
    (0 : ℚ) ≤ 1 ∧
      (collectPledges sampleInitBlock (newPledgeDetails 1)
          [(samplePeer 1, PledgeRPC.reply overPledgeReply)]).map
        (fun pd => pd.RemPledgeTokens) = some (-1) ∧
      (-1 : ℚ) < 0 := by
  refine ⟨by norm_num, by decide!, by norm_num⟩

/-- C6, amended. Whenever an iteration of the acceptance loop of `initPledgeQuorumToken`
accepts a token, the new `RemPledgeTokens` is the `float64` difference of the old one and
the token's value, rounded by `floatPrecision` to 10 fractional digits; it is
non-negative whenever the token's value does not exceed the old `RemPledgeTokens`, and
it is zero or negative whenever the token's value is at least the old
`RemPledgeTokens`. -/
theorem remaining_nonneg_of_value_le (initBlock : Bytes → Option Block) (pd pd' : PledgeDetails)
    (did : String) (prs : PledgeReply) (i : Nat) (t : String)
    (hstep : acceptToken initBlock pd did prs i t = some pd')
    (haccepted : pd'.NumPledgedTokens = pd.NumPledgedTokens + 1) :
    ∃ v, prs.TokenValue[i]? = some v ∧
      pd'.RemPledgeTokens = floatPrecision (f64Sub pd.RemPledgeTokens v) 10 ∧
      (v ≤ pd.RemPledgeTokens → 0 ≤ pd'.RemPledgeTokens) ∧
      (pd.RemPledgeTokens ≤ v → pd'.RemPledgeTokens ≤ 0) := by
  simp only [acceptToken] at hstep
  split at hstep
  · cases hstep
  · split at hstep
    · cases hstep
    · simp only [Option.some.injEq] at hstep
      subst hstep
      omega
    · split at hstep
      · cases hstep
      · rename_i v hv
        simp only [Option.some.injEq] at hstep
        subst hstep
        refine ⟨v, hv, rfl, ?_, ?_⟩
        · intro hle
          exact floatPrecision_nonneg _ _ (roundF64_nonneg _ (by linarith))
        · intro hle
          exact floatPrecision_nonpos _ _ (roundF64_nonpos _ (by linarith))

/-- Witness for the amended C6: the token `"t1"` of value 1 is accepted against a
remaining pledge of 2. -/
theorem remaining_nonneg_of_value_le_witness :
    ∃ v, mixedReply.TokenValue[0]? = some v ∧
      afterFirstToken.RemPledgeTokens =
        floatPrecision (f64Sub (newPledgeDetails 2).RemPledgeTokens v) 10 ∧
      (v ≤ (newPledgeDetails 2).RemPledgeTokens → 0 ≤ afterFirstToken.RemPledgeTokens) ∧
      ((newPledgeDetails 2).RemPledgeTokens ≤ v → afterFirstToken.RemPledgeTokens ≤ 0) :=
  remaining_nonneg_of_value_le sampleInitBlock (newPledgeDetails 2) afterFirstToken "did1"
    mixedReply 0 "t1" (by decide!) (by decide)

/-! ## Pledge conservation -/

theorem GoMap.delete_of_not_mem_keys {V : Type} (m : GoMap V) (k : String)
    (h : k ∉ m.keys) : GoMap.delete m k = m := by
  simp only [GoMap.delete]
  rw [List.filter_eq_self]
  intro e he
  have : e.1 ≠ k := fun heq => h (heq ▸ List.mem_map_of_mem Prod.fst he)
  simpa using this

theorem GoMap.set_head {V : Type} (rest : GoMap V) (k : String) (v w : V)
    (h : k ∉ GoMap.keys rest) : GoMap.set ((k, v) :: rest) k w = (k, w) :: rest := by
  have hd : GoMap.delete ((k, v) :: rest) k = GoMap.delete rest k := by
    simp [GoMap.delete, List.filter_cons]
  simp only [GoMap.set, hd, GoMap.delete_of_not_mem_keys rest k h]

theorem remainingAfter_append (vs : List ℚ) (v : ℚ) : ∀ rem : ℚ,
    remainingAfter rem (vs ++ [v]) = floatPrecision (f64Sub (remainingAfter rem vs) v) 10 := by
  induction vs with
  | nil => intro rem; rfl
  | cons w ws ih =>
    intro rem
    show remainingAfter (floatPrecision (f64Sub rem w) 10) (ws ++ [v]) = _
    rw [ih]
    rfl

theorem deductionLosses_append (vs : List ℚ) (v : ℚ) : ∀ rem : ℚ,
    deductionLosses rem (vs ++ [v]) = deductionLosses rem vs ++
      [remainingAfter rem vs - v - floatPrecision (f64Sub (remainingAfter rem vs) v) 10] := by
  induction vs with
  | nil => intro rem; rfl
  | cons w ws ih =>
    intro rem
    show (rem - w - floatPrecision (f64Sub rem w) 10) ::
      deductionLosses (floatPrecision (f64Sub rem w) 10) (ws ++ [v]) = _
    rw [ih]
    rfl

theorem deductionLosses_length (vs : List ℚ) : ∀ rem : ℚ,
    (deductionLosses rem vs).length = vs.length := by
  induction vs with
  | nil => intro rem; rfl
  | cons w ws ih => intro rem; simp only [deductionLosses, List.length_cons, ih]

/-- One iteration of the acceptance loop keeps the shape of `PledgedTokens`, keeps the
transfer amount and keeps the pledge details balanced. -/
theorem acceptToken_balanced (initBlock : Bytes → Option Block) (val : String → ℚ)
    (pd pd' : PledgeDetails) (did : String) (prs : PledgeReply) (i : Nat) (t : String)
    (l : List String) (rest : GoMap (List String))
    (hshape : pd.PledgedTokens = (did, l) :: rest) (hnot : did ∉ GoMap.keys rest)
    (hval : ∀ v, prs.TokenValue[i]? = some v → v = val t)
    (hbal : PledgeBalanced val pd)
    (hstep : acceptToken initBlock pd did prs i t = some pd') :
    (∃ l', pd'.PledgedTokens = (did, l') :: rest) ∧
      pd'.TransferAmount = pd.TransferAmount ∧ PledgeBalanced val pd' := by
  simp only [acceptToken] at hstep
  split at hstep
  · cases hstep
  · split at hstep
    · cases hstep
    · simp only [Option.some.injEq] at hstep
      subst hstep
      exact ⟨⟨l, hshape⟩, rfl, hbal⟩
    · split at hstep
      · cases hstep
      · rename_i v hv
        simp only [Option.some.injEq] at hstep
        subst hstep
        have hv' := hval v hv
        subst hv'
        have hget : pd.PledgedTokens.get did = some l := by
          simp [hshape, GoMap.get]
        have hset : pd.PledgedTokens.set did (((pd.PledgedTokens.get did).getD []) ++ [t])
            = (did, l ++ [t]) :: rest := by
          rw [hget, hshape]
          exact GoMap.set_head rest did l _ hnot
        obtain ⟨hrem, hnum, hsum⟩ := hbal
        refine ⟨⟨l ++ [t], hset⟩, rfl, ?_, ?_, ?_⟩
        · simp only [List.map_append, List.map_cons, List.map_nil, remainingAfter_append]
          rw [← hrem]
        · simp only [List.length_append, List.length_singleton, hnum]
          push_cast
          rfl
        · simp only [List.map_append, List.map_cons, List.map_nil, deductionLosses_append,
            List.sum_append, List.sum_cons, List.sum_nil, pledgedValue]
          rw [hset, ← hrem]
          simp only [pledgedValue, hshape] at hsum
          simp only [List.map_cons, List.sum_cons, List.map_append, List.sum_append,
            List.map_nil, List.sum_nil] at hsum ⊢
          linarith

theorem acceptLoop_balanced (initBlock : Bytes → Option Block) (val : String → ℚ)
    (did : String) (prs : PledgeReply) (rest : GoMap (List String))
    (hnot : did ∉ GoMap.keys rest)
    (hval : ∀ (i : Nat) (t : String) (v : ℚ),
      prs.Tokens[i]? = some t → prs.TokenValue[i]? = some v → v = val t)
    (ts : List String) :
    ∀ (i : Nat) (pd pd' : PledgeDetails) (l : List String),
      (∀ j t, ts[j]? = some t → prs.Tokens[i + j]? = some t) →
      pd.PledgedTokens = (did, l) :: rest →
      PledgeBalanced val pd →
      acceptLoop initBlock did prs i ts pd = some pd' →
      (∃ l', pd'.PledgedTokens = (did, l') :: rest) ∧
        pd'.TransferAmount = pd.TransferAmount ∧ PledgeBalanced val pd' := by
  induction ts with
  | nil =>
    intro i pd pd' l _ hshape hbal hrun
    simp only [acceptLoop, Option.some.injEq] at hrun
    subst hrun
    exact ⟨⟨l, hshape⟩, rfl, hbal⟩
  | cons t ts ih =>
    intro i pd pd' l hidx hshape hbal hrun
    simp only [acceptLoop] at hrun
    cases hstep : acceptToken initBlock pd did prs i t with
    | none => simp [hstep] at hrun
    | some pd1 =>
      simp only [hstep] at hrun
      have ht : prs.Tokens[i]? = some t := by simpa using hidx 0 t (by simp)
      obtain ⟨⟨l1, hshape1⟩, hT1, hB1⟩ :=
        acceptToken_balanced initBlock val pd pd1 did prs i t l rest hshape hnot
          (fun v hv => hval i t v ht hv) hbal hstep
      have hidx1 : ∀ j t', ts[j]? = some t' → prs.Tokens[i + 1 + j]? = some t' := by
        intro j t' hj
        have := hidx (j + 1) t' (by simpa using hj)
        rwa [show i + 1 + j = i + (j + 1) by omega]
      obtain ⟨hshape2, hT2, hB2⟩ := ih (i + 1) pd1 pd' l1 hidx1 hshape1 hB1 hrun
      exact ⟨hshape2, hT2.trans hT1, hB2⟩

theorem reportsValues_get (val : String → ℚ) (rs : List (Peer × PledgeRPC))
    (h : reportsValues val rs = true) (p : Peer) (prs : PledgeReply)
    (hmem : (p, PledgeRPC.reply prs) ∈ rs) (i : Nat) (t : String) (v : ℚ)
    (ht : prs.Tokens[i]? = some t) (hv : prs.TokenValue[i]? = some v) : v = val t := by
  simp only [reportsValues, List.all_eq_true] at h
  have h1 := h _ hmem
  simp only [List.all_eq_true, decide_eq_true_eq] at h1
  have hz : (prs.Tokens.zip prs.TokenValue)[i]? = some (t, v) :=
    List.getElem?_zip_eq_some.mpr ⟨ht, hv⟩
  exact h1 (t, v) (List.getElem?_mem hz)

theorem pledgeTokens_balanced (initBlock : Bytes → Option Block) (val : String → ℚ)
    (pd pd' : PledgeDetails) (p : Peer) (rpc : PledgeRPC) (e : Option String)
    (hnot : p.did ∉ GoMap.keys pd.PledgedTokens)
    (hval : ∀ prs, rpc = PledgeRPC.reply prs → ∀ (i : Nat) (t : String) (v : ℚ),
      prs.Tokens[i]? = some t → prs.TokenValue[i]? = some v → v = val t)
    (hbal : PledgeBalanced val pd)
    (hstep : pledgeTokens initBlock pd p rpc = some (pd', e)) :
    pd'.TransferAmount = pd.TransferAmount ∧ PledgeBalanced val pd' ∧
      ∀ k ∈ GoMap.keys pd'.PledgedTokens, k = p.did ∨ k ∈ GoMap.keys pd.PledgedTokens := by
  have hsame : pd' = pd → pd'.TransferAmount = pd.TransferAmount ∧ PledgeBalanced val pd' ∧
      ∀ k ∈ GoMap.keys pd'.PledgedTokens, k = p.did ∨ k ∈ GoMap.keys pd.PledgedTokens := by
    intro h; subst h; exact ⟨rfl, hbal, fun k hk => Or.inr hk⟩
  simp only [pledgeTokens] at hstep
  split at hstep
  · cases rpc with
    | error =>
      simp only [Option.some.injEq, Prod.mk.injEq] at hstep
      exact hsame hstep.1.symm
    | reply prs =>
      simp only at hstep
      split at hstep
      · cases hloop : acceptLoop initBlock p.did prs 0 prs.Tokens
            { pd with PledgedTokens := pd.PledgedTokens.set p.did [] } with
        | none => simp [hloop] at hstep
        | some pd1 =>
          simp only [hloop, Option.some.injEq, Prod.mk.injEq] at hstep
          obtain ⟨h1, _⟩ := hstep
          subst h1
          have hreset : pd.PledgedTokens.set p.did [] = (p.did, []) :: pd.PledgedTokens := by
            simp only [GoMap.set, GoMap.delete_of_not_mem_keys _ _ hnot]
          have hbal0 : PledgeBalanced val
              { pd with PledgedTokens := pd.PledgedTokens.set p.did [] } := by
            obtain ⟨hrem, hnum, hsum⟩ := hbal
            refine ⟨hrem, hnum, ?_⟩
            simp only [pledgedValue] at hsum ⊢
            rw [hreset]
            simpa using hsum
          obtain ⟨⟨l', hshape'⟩, hT, hB⟩ :=
            acceptLoop_balanced initBlock val p.did prs pd.PledgedTokens hnot
              (hval prs rfl) prs.Tokens 0
              { pd with PledgedTokens := pd.PledgedTokens.set p.did [] } pd1 []
              (fun j t hj => by simpa using hj) hreset hbal0 hloop
          refine ⟨hT, hB, ?_⟩
          intro k hk
          rw [hshape'] at hk
          simpa [GoMap.keys] using hk
      · simp only [Option.some.injEq, Prod.mk.injEq] at hstep
        exact hsame hstep.1.symm
  · simp only [Option.some.injEq, Prod.mk.injEq] at hstep
    exact hsame hstep.1.symm

theorem collectPledges_balanced (initBlock : Bytes → Option Block) (val : String → ℚ)
    (all : List (Peer × PledgeRPC)) (hval : reportsValues val all = true)
    (rs : List (Peer × PledgeRPC)) :
    ∀ pd pd' : PledgeDetails, (∀ x ∈ rs, x ∈ all) →
      (rs.map (fun x => x.1.did)).Nodup →
      (∀ x ∈ rs, x.1.did ∉ GoMap.keys pd.PledgedTokens) →
      PledgeBalanced val pd →
      collectPledges initBlock pd rs = some pd' →
      pd'.TransferAmount = pd.TransferAmount ∧ PledgeBalanced val pd' := by
  induction rs with
  | nil =>
    intro pd pd' _ _ _ hbal hrun
    simp only [collectPledges, Option.some.injEq] at hrun
    subst hrun
    exact ⟨rfl, hbal⟩
  | cons x rest ih =>
    obtain ⟨p, rpc⟩ := x
    intro pd pd' hall hnodup hkeys hbal hrun
    simp only [collectPledges] at hrun
    cases hstep : pledgeTokens initBlock pd p rpc with
    | none => simp [hstep] at hrun
    | some r =>
      obtain ⟨pd1, e⟩ := r
      simp only [hstep] at hrun
      simp only [List.map_cons, List.nodup_cons] at hnodup
      obtain ⟨hT1, hB1, hk1⟩ := pledgeTokens_balanced initBlock val pd pd1 p rpc e
        (hkeys (p, rpc) (List.mem_cons_self _ _))
        (fun prs hprs i t v ht hv =>
          reportsValues_get val all hval p prs (hprs ▸ hall _ (List.mem_cons_self _ _)) i t v ht hv)
        hbal hstep
      have hkeys1 : ∀ y ∈ rest, y.1.did ∉ GoMap.keys pd1.PledgedTokens := by
        intro y hy hmem
        rcases hk1 _ hmem with h | h
        · exact hnodup.1 (h ▸ List.mem_map_of_mem (fun x => x.1.did) hy)
        · exact hkeys y (List.mem_cons_of_mem _ hy) h
      obtain ⟨hT2, hB2⟩ := ih pd1 pd' (fun y hy => hall y (List.mem_cons_of_mem _ hy))
        hnodup.2 hkeys1 hB1 hrun
      exact ⟨hT2.trans hT1, hB2⟩

/-- C7 fails as stated, for two reasons. First, a deduction can lower the remaining
pledge by more than the value of the token. Two validators with distinct DIDs pledge
against a transfer of `2^22`: the first a token of value `3 · 2^(-33)`, for which the
`float64` subtraction deducts `2^(-31)`, the second a token of exactly the remaining
`2^22 - 2^(-31)`; the remaining pledge reaches 0 and the recorded tokens are worth
`2^22 - 2^(-33)`, short of the transfer amount by more than `10^(-10)`. Likewise three
validators each pledge one token of the `float64` value of `0.51e-10` against a transfer
of the `float64` value of `3e-10`: each deduction is rounded down to the next multiple
of `10^(-10)`, the remaining pledge reaches 0, and the recorded tokens are short by
more than `1.46 · 10^(-10)`. Second, two dials whose peers have the same DID each pledge
one token of value 1 against a transfer of 2: the second reply resets the list of that
DID, the remaining pledge reaches 0, and the recorded tokens are worth 1. -/
theorem pledge_conservation_counterexample :
    ((collectPledges sampleInitBlock (newPledgeDetails 4194304) roundingPledges).map
        (fun pd => (pd.RemPledgeTokens, pledgedValue roundingValue pd))
        = some (0, 4194304 - 1 / 2 ^ 33) ∧
      reportsValues roundingValue roundingPledges = true ∧
      (roundingPledges.map (fun x => x.1.did)).Nodup ∧
      (4194304 - 1 / 2 ^ 33 : ℚ) < 4194304 - 1 / 10 ^ 10) ∧
    ((collectPledges sampleInitBlock (newPledgeDetails (roundF64 (3 / 10 ^ 10)))
          smallPledges).map
        (fun pd => (pd.RemPledgeTokens, pledgedValue (fun _ => smallValue) pd))
        = some (0, 3 * smallValue) ∧
      reportsValues (fun _ => smallValue) smallPledges = true ∧
      (smallPledges.map (fun x => x.1.did)).Nodup ∧
      3 * smallValue < roundF64 (3 / 10 ^ 10) - 146 / 10 ^ 12) ∧
    ((collectPledges sampleInitBlock (newPledgeDetails 2) repeatedPledges).map
        (fun pd => (pd.RemPledgeTokens, pledgedValue (fun _ => 1) pd)) = some (0, 1) ∧
      reportsValues (fun _ => 1) repeatedPledges = true ∧
      (1 : ℚ) < 2 - 1 / 10 ^ 10) := by
  refine ⟨⟨by decide!, by decide!, by decide, by norm_num⟩,
    ⟨by decide!, by decide!, by decide, by decide!⟩,
    ⟨by decide!, by decide!, by norm_num⟩⟩

/-- C7, amended. The validators that answer have pairwise distinct DIDs and report each
token with its value. Then after their pledge sections, in the order in which they ran,
the transfer amount is unchanged, `NumPledgedTokens` is the number of tokens of
`TokenList`, and, whenever `RemPledgeTokens` is 0, the values of the tokens recorded in
`PledgedTokens` add up to the transfer amount less the losses of the deductions made
for the tokens of `TokenList`, where the loss of a deduction is the exact difference
less the result of the `float64` subtraction and `floatPrecision`. So the recorded
value is at least the transfer amount less `ε` for every token accepted, for every `ε`
that bounds the loss of each deduction. -/
theorem pledge_conservation_amended (initBlock : Bytes → Option Block) (val : String → ℚ)
    (amount : ℚ) (rs : List (Peer × PledgeRPC)) (pd : PledgeDetails)
    (hval : reportsValues val rs = true)
    (hdid : (rs.map (fun x => x.1.did)).Nodup)
    (hrun : collectPledges initBlock (newPledgeDetails amount) rs = some pd)
    (hzero : pd.RemPledgeTokens = 0) :
    pd.TransferAmount = amount ∧
      pd.NumPledgedTokens = (pd.TokenList.length : ℤ) ∧
      remainingAfter amount (pd.TokenList.map val) = 0 ∧
      pledgedValue val pd = amount - (deductionLosses amount (pd.TokenList.map val)).sum ∧
      ∀ ε : ℚ, (∀ x ∈ deductionLosses amount (pd.TokenList.map val), x ≤ ε) →
        amount - (pd.NumPledgedTokens : ℚ) * ε ≤ pledgedValue val pd := by
  have hbal0 : PledgeBalanced val (newPledgeDetails amount) := by
    simp [PledgeBalanced, newPledgeDetails, pledgedValue, remainingAfter, deductionLosses]
  obtain ⟨hT, hrem, hnum, hsum⟩ := collectPledges_balanced initBlock val rs hval rs
    (newPledgeDetails amount) pd (fun _ h => h) hdid
    (fun _ _ h => by simp [newPledgeDetails, GoMap.keys] at h) hbal0 hrun
  have hT' : pd.TransferAmount = amount := hT
  rw [hT'] at hrem hsum
  rw [hzero] at hrem hsum
  have hid : pledgedValue val pd =
      amount - (deductionLosses amount (pd.TokenList.map val)).sum := by linarith
  refine ⟨hT', hnum, hrem.symm, hid, ?_⟩
  intro ε hε
  have hle := List.sum_le_card_nsmul (deductionLosses amount (pd.TokenList.map val)) ε hε
  rw [deductionLosses_length, List.length_map, nsmul_eq_mul] at hle
  rw [hid, hnum]
  push_cast
  linarith

/-- Witness for the amended C7: the two validators of `roundingPledges` pledge against a
transfer of `2^22`; the only loss is the `2^(-33)` of the first deduction. -/
theorem pledge_conservation_amended_witness :
    afterRoundingPledges.TransferAmount = 4194304 ∧
      afterRoundingPledges.NumPledgedTokens = (afterRoundingPledges.TokenList.length : ℤ) ∧
      remainingAfter 4194304 (afterRoundingPledges.TokenList.map roundingValue) = 0 ∧
      pledgedValue roundingValue afterRoundingPledges = 4194304 -
        (deductionLosses 4194304 (afterRoundingPledges.TokenList.map roundingValue)).sum ∧
      ∀ ε : ℚ,
        (∀ x ∈ deductionLosses 4194304 (afterRoundingPledges.TokenList.map roundingValue),
          x ≤ ε) →
        4194304 - (afterRoundingPledges.NumPledgedTokens : ℚ) * ε
          ≤ pledgedValue roundingValue afterRoundingPledges :=
  pledge_conservation_amended sampleInitBlock roundingValue 4194304 roundingPledges
    afterRoundingPledges (by decide!) (by decide) (by decide!) rfl

/-! ## Lifecycle of the registry entries -/

theorem initiateConsensusReturn_exit (c : Core) (id : String)
    (assembly delivery : Option String) :
    initiateConsensusReturn c id assembly delivery =
      if (barrierObserve c id).loop then none
      else some (initiateConsensusExit c id (barrierObserve c id).err assembly delivery) := by
  cases hl : (barrierObserve c id).loop <;> cases he : (barrierObserve c id).err <;>
    cases assembly <;> cases delivery <;>
    simp [initiateConsensusReturn, initiateConsensusExit, hl, he]

theorem initiateConsensusExit_dropped (c : Core) (id : String)
    (err assembly delivery : Option String) :
    (initiateConsensusExit c id err assembly delivery).1.Dropped id := by
  have hclean : ∀ c' : Core, (deferredCleanup c' id).Dropped id := fun c' =>
    ⟨GoMap.get_delete_self _ _, GoMap.get_delete_self _ _⟩
  simp only [initiateConsensusExit]
  split
  · exact hclean _
  · split
    · exact hclean _
    · split
      · exact hclean _
      · exact hclean _

theorem startConsensus_registry (c : Core) (id : String) (qt : Int) :
    ((startConsensus c id qt).quorumRequest.get id).isSome = (c.quorumRequest.get id).isSome ∧
      (startConsensus c id qt).pd = c.pd := by
  simp only [startConsensus]
  cases h : c.quorumRequest.get id with
  | none => simp [h]
  | some cs =>
    simp only
    split
    · simp [GoMap.get_set_self]
    · simp [h]

theorem Core.closeIfSet_registry (c : Core) (p : Option Peer) :
    (c.closeIfSet p).quorumRequest = c.quorumRequest ∧ (c.closeIfSet p).pd = c.pd := by
  cases p <;> simp [Core.closeIfSet, Core.close]

theorem finishConsensus_registry (c c' : Core) (id : String) (qt : Int) (p : Option Peer)
    (status : Bool) (hash : String) (ss ps : Bytes)
    (h : finishConsensus c id qt p status hash ss ps = some c') :
    (c'.quorumRequest.get id).isSome = (c.quorumRequest.get id).isSome ∧ c'.pd = c.pd := by
  simp only [finishConsensus] at h
  cases hget : c.quorumRequest.get id with
  | none =>
    simp only [hget, Option.some.injEq] at h
    subst h
    obtain ⟨h1, h2⟩ := Core.closeIfSet_registry c p
    simp [h1, h2, hget]
  | some cs =>
    simp only [hget] at h
    split at h
    · split at h
      · cases p with
        | none => cases h
        | some q =>
          simp only at h
          split at h
          · simp only [Option.some.injEq] at h
            subst h
            simp [GoMap.get_set_self]
          · simp only [Option.some.injEq] at h
            subst h
            simp [GoMap.get_set_self, Core.close]
      · simp only [Option.some.injEq] at h
        subst h
        simp [GoMap.get_set_self, (Core.closeIfSet_registry c p).2]
    · simp only [Option.some.injEq] at h
      subst h
      obtain ⟨h1, h2⟩ := Core.closeIfSet_registry c p
      simp [h1, h2, hget]

theorem Round.step_registry (id : String) (r r' : Round) (e : DialEvent)
    (h : r.step id e = some r') :
    (r'.core.quorumRequest.get id).isSome = (r.core.quorumRequest.get id).isSome ∧
      r'.core.pd = r.core.pd ∧ r'.dials.length = r.dials.length ∧ r.dials ≠ [] := by
  cases e with
  | start i =>
    simp only [Round.step] at h
    split at h
    · rename_i hi
      simp only [Option.some.injEq] at h
      subst h
      obtain ⟨h1, h2⟩ := startConsensus_registry r.core id AlphaQuorumType
      refine ⟨h1, h2, by simp, ?_⟩
      intro hnil
      simp [hnil] at hi
    · cases h
  | finish i o =>
    simp only [Round.step] at h
    split at h
    · rename_i hi
      split at h
      · rename_i c' hf
        simp only [Option.some.injEq] at h
        subst h
        obtain ⟨h1, h2⟩ := finishConsensus_registry _ _ _ _ _ _ _ _ _ hf
        refine ⟨h1, h2, by simp, ?_⟩
        intro hnil
        simp [hnil] at hi
      · cases h
    · cases h

theorem Core.registered_of_isSome (c c' : Core) (id : String) (h : c.Registered id)
    (hq : (c'.quorumRequest.get id).isSome = (c.quorumRequest.get id).isSome)
    (hp : (c'.pd.get id).isSome = (c.pd.get id).isSome) : c'.Registered id :=
  ⟨hq.trans h.1, hp.trans h.2⟩

theorem Core.dropped_of_isSome (c c' : Core) (id : String) (h : c.Dropped id)
    (hq : (c'.quorumRequest.get id).isSome = (c.quorumRequest.get id).isSome)
    (hp : (c'.pd.get id).isSome = (c.pd.get id).isSome) : c'.Dropped id := by
  obtain ⟨h1, h2⟩ := h
  rw [h1] at hq
  rw [h2] at hp
  exact ⟨by simpa using hq, by simpa using hp⟩

/-- Every enabled step keeps the lifecycle invariant. -/
theorem Initiator.step_lifecycle (initBlock : Bytes → Option Block) (c : Core) (id : String)
    (ql : List String) (reqPledgeTokens : ℚ) (s s' : Initiator) (e : InitiatorEvent)
    (hfresh : c.Dropped id) (hinv : s.Lifecycle c id ql)
    (hstep : s.step initBlock id ql reqPledgeTokens e = some s') : s'.Lifecycle c id ql := by
  obtain ⟨hlen, hph⟩ := hinv
  cases e with
  | register =>
    simp only [Initiator.step] at hstep
    split at hstep
    · rename_i hentry
      rw [hentry] at hph
      obtain ⟨hc, hl⟩ := hph
      split at hstep
      · rename_i hshort
        simp only [Option.some.injEq] at hstep
        subst hstep
        refine ⟨hlen, ?_⟩
        simp only
        exact ⟨hc ▸ hfresh, Or.inl ⟨hshort, hc, hl, trivial⟩⟩
      · rename_i hshort
        simp only [Option.some.injEq] at hstep
        subst hstep
        refine ⟨hlen, ?_⟩
        simp only
        refine ⟨hshort, ⟨?_, ?_⟩, by simp [hl]⟩
        · simp [initiateConsensusRegister, GoMap.get_set_self]
        · simp [initiateConsensusRegister, GoMap.get_set_self]
    · cases hstep
  | launch =>
    simp only [Initiator.step] at hstep
    split at hstep
    · rename_i a rest hfan
      rw [hfan] at hph
      obtain ⟨hshort, hreg, hql⟩ := hph
      simp only [Option.some.injEq] at hstep
      subst hstep
      refine ⟨by simp [hlen], ?_⟩
      simp only
      exact ⟨hshort, hreg, by simpa using hql⟩
    · cases hstep
  | dial ev =>
    simp only [Initiator.step] at hstep
    split at hstep
    · rename_i r hr
      simp only [Option.some.injEq] at hstep
      subst hstep
      obtain ⟨hq, hp, hd, hne⟩ := Round.step_registry id s.round r ev hr
      have hp' : (r.core.pd.get id).isSome = (s.round.core.pd.get id).isSome := by rw [hp]
      refine ⟨hd.trans hlen, ?_⟩
      simp only
      cases hphase : s.phase with
      | entry =>
        rw [hphase] at hph
        simp only
        obtain ⟨_, hl⟩ := hph
        rw [hl] at hlen
        exact absurd (List.length_eq_zero.mp hlen) hne
      | fanOut rest =>
        rw [hphase] at hph
        simp only
        exact ⟨hph.1, Core.registered_of_isSome _ _ id hph.2.1 hq hp', hph.2.2⟩
      | leaving err =>
        rw [hphase] at hph
        simp only
        exact ⟨hph.1, Core.registered_of_isSome _ _ id hph.2.1 hq hp', hph.2.2⟩
      | returned err =>
        rw [hphase] at hph
        simp only
        refine ⟨Core.dropped_of_isSome _ _ id hph.1 hq hp', ?_⟩
        rcases hph.2 with ⟨_, _, hl, _⟩ | h
        · rw [hl] at hlen
          exact absurd (List.length_eq_zero.mp hlen) hne
        · exact Or.inr h
    · cases hstep
  | pledge i p rpc =>
    simp only [Initiator.step] at hstep
    split at hstep
    · rename_i hi
      have hne : s.round.dials ≠ [] := by
        intro hnil
        simp [hnil] at hi
      split at hstep
      · simp only [Option.some.injEq] at hstep
        subst hstep
        exact ⟨hlen, hph⟩
      · split at hstep
        · simp only [Option.some.injEq] at hstep
          subst hstep
          exact ⟨hlen, hph⟩
        · rename_i _ cs hcs _ pd hpd
          split at hstep
          · cases hstep
          · rename_i pd' err hpl
            simp only [Option.some.injEq] at hstep
            subst hstep
            refine ⟨hlen, ?_⟩
            simp only
            have hreg : Core.Registered
                { s.round.core with pd := s.round.core.pd.set id pd' } id :=
              ⟨by simp [hcs], by simp [GoMap.get_set_self]⟩
            cases hphase : s.phase with
            | entry =>
              rw [hphase] at hph
              obtain ⟨_, hl⟩ := hph
              rw [hl] at hlen
              exact absurd (List.length_eq_zero.mp hlen) hne
            | fanOut rest =>
              rw [hphase] at hph
              exact ⟨hph.1, hreg, hph.2.2⟩
            | leaving err =>
              rw [hphase] at hph
              exact ⟨hph.1, hreg, hph.2.2⟩
            | returned err =>
              rw [hphase] at hph
              rw [hph.1.1] at hcs
              cases hcs
    · cases hstep
  | poll =>
    simp only [Initiator.step] at hstep
    split at hstep
    · rename_i hfan
      rw [hfan] at hph
      split at hstep
      · simp only [Option.some.injEq] at hstep
        subst hstep
        exact ⟨hlen, by rw [hfan]; exact hph⟩
      · simp only [Option.some.injEq] at hstep
        subst hstep
        refine ⟨hlen, ?_⟩
        simp only
        exact ⟨hph.1, hph.2.1, by simpa using hph.2.2⟩
    · cases hstep
  | finish assembly delivery =>
    simp only [Initiator.step] at hstep
    split at hstep
    · rename_i err hleave
      rw [hleave] at hph
      simp only [Option.some.injEq] at hstep
      subst hstep
      refine ⟨hlen, ?_⟩
      simp only
      exact ⟨initiateConsensusExit_dropped _ id err assembly delivery, Or.inr ⟨hph.1, hph.2.2⟩⟩
    · cases hstep

theorem Initiator.run_lifecycle (initBlock : Bytes → Option Block) (c : Core) (id : String)
    (ql : List String) (reqPledgeTokens : ℚ) (hfresh : c.Dropped id)
    (events : List InitiatorEvent) :
    ∀ s s' : Initiator, s.Lifecycle c id ql →
      Initiator.run initBlock id ql reqPledgeTokens s events = some s' →
      s'.Lifecycle c id ql := by
  induction events with
  | nil =>
    intro s s' hinv hrun
    simp only [Initiator.run, Option.some.injEq] at hrun
    exact hrun ▸ hinv
  | cons e rest ih =>
    intro s s' hinv hrun
    simp only [Initiator.run] at hrun
    cases hstep : s.step initBlock id ql reqPledgeTokens e with
    | none => simp [hstep] at hrun
    | some s1 =>
      simp only [hstep] at hrun
      exact ih s1 s' (Initiator.step_lifecycle initBlock c id ql reqPledgeTokens s s1 e
        hfresh hinv hstep) hrun

/-- C15 (lifecycle). Let `initiateConsensus` be entered with no registry entry for the
request id, and let `s` be the state after any schedule of steps of the initiator and of
the dials it has launched. There is one dial per candidate launched so far. As long as
the quorum list has not been checked no dial is launched and the registry is as at the
entry. A dial is launched only in a state in which both the request state and the
pledge details are registered, and the launch leaves the registry as it is; both stay
registered through the fan-out loop and the polling loop, up to the `break`, whatever
the dials do. From the `break` the function returns, for every result of block
assembly and delivery. Whenever it has returned, with fewer than five candidates
("failed to get required quorums", registry as at the entry, no dial launched) or after
the `break` on any path, neither the request-state map nor the pledge-details map has
an entry for the id, and the steps of the dials still running do not bring one back. -/
theorem registry_lifecycle (initBlock : Bytes → Option Block) (c : Core) (id : String)
    (ql : List String) (reqPledgeTokens : ℚ) (events : List InitiatorEvent) (s : Initiator)
    (hfresh : c.quorumRequest.get id = none ∧ c.pd.get id = none)
    (hrun : Initiator.run initBlock id ql reqPledgeTokens (Initiator.init c) events = some s) :
    s.round.dials.length = s.launched.length ∧
      (s.phase = InitiatorPhase.entry → s.launched = [] ∧ s.round.core = c) ∧
      (∀ s', s.step initBlock id ql reqPledgeTokens InitiatorEvent.launch = some s' →
        s.round.core.Registered id ∧ s'.round.core = s.round.core ∧
          s'.round.dials = s.round.dials ++ [DialPhase.idle]) ∧
      (∀ rest, s.phase = InitiatorPhase.fanOut rest →
        s.round.core.Registered id ∧ s.launched ++ rest = ql) ∧
      (∀ err, s.phase = InitiatorPhase.leaving err →
        s.round.core.Registered id ∧ s.launched = ql ∧
          ∀ assembly delivery, ∃ s' e,
            s.step initBlock id ql reqPledgeTokens (InitiatorEvent.finish assembly delivery)
              = some s' ∧ s'.phase = InitiatorPhase.returned e ∧
            s'.round.core.quorumRequest.get id = none ∧ s'.round.core.pd.get id = none) ∧
      (∀ err, s.phase = InitiatorPhase.returned err →
        s.round.core.quorumRequest.get id = none ∧ s.round.core.pd.get id = none ∧
          ((ql.length : Int) < MinQuorumRequired →
            err = some "failed to get required quorums" ∧ s.round.core = c ∧
              s.launched = []) ∧
          (¬ (ql.length : Int) < MinQuorumRequired → s.launched = ql)) := by
  have hinit : (Initiator.init c).Lifecycle c id ql := ⟨rfl, rfl, rfl⟩
  obtain ⟨hlen, hph⟩ := Initiator.run_lifecycle initBlock c id ql reqPledgeTokens hfresh
    events _ s hinit hrun
  refine ⟨hlen, ?_, ?_, ?_, ?_, ?_⟩
  · intro hentry
    rw [hentry] at hph
    exact ⟨hph.2, hph.1⟩
  · intro s' hstep
    simp only [Initiator.step] at hstep
    split at hstep
    · rename_i a rest hfan
      rw [hfan] at hph
      simp only [Option.some.injEq] at hstep
      subst hstep
      exact ⟨hph.2.1, rfl, rfl⟩
    · cases hstep
  · intro rest hfan
    rw [hfan] at hph
    exact ⟨hph.2.1, hph.2.2⟩
  · intro err hleave
    rw [hleave] at hph
    refine ⟨hph.2.1, hph.2.2, ?_⟩
    intro assembly delivery
    obtain ⟨hq, hp⟩ := initiateConsensusExit_dropped s.round.core id err assembly delivery
    have hstep : s.step initBlock id ql reqPledgeTokens
        (InitiatorEvent.finish assembly delivery) =
        some { s with
          round := { s.round with
            core := (initiateConsensusExit s.round.core id err assembly delivery).1 }
          phase := InitiatorPhase.returned
            (initiateConsensusExit s.round.core id err assembly delivery).2 } := by
      simp only [Initiator.step, hleave]
    exact ⟨_, _, hstep, rfl, hq, hp⟩
  · intro err hret
    rw [hret] at hph
    refine ⟨hph.1.1, hph.1.2, ?_, ?_⟩
    · intro hshort
      rcases hph.2 with ⟨_, hc, hl, he⟩ | ⟨hn, _⟩
      · exact ⟨he, hc, hl⟩
      · exact absurd hshort hn
    · intro hn
      rcases hph.2 with ⟨hshort, _⟩ | ⟨_, hl⟩
      · exact absurd hshort hn
      · exact hl

/-- Witness for C15: a round over five candidates, four of which report success, that
returns "consensus failed" with both entries dropped. -/
theorem registry_lifecycle_witness :
    Initiator.run sampleInitBlock "req" ["a", "b", "c", "d", "e"] 5 (Initiator.init emptyCore)
        shortfallRun = some shortfallRunEnd ∧
      shortfallRunEnd.round.dials.length = shortfallRunEnd.launched.length ∧
      shortfallRunEnd.round.core.quorumRequest.get "req" = none ∧
      shortfallRunEnd.round.core.pd.get "req" = none ∧
      shortfallRunEnd.launched = ["a", "b", "c", "d", "e"] :=
  have h := registry_lifecycle sampleInitBlock emptyCore "req" ["a", "b", "c", "d", "e"] 5
    shortfallRun shortfallRunEnd ⟨rfl, rfl⟩ (by decide!)
  have hret := h.2.2.2.2.2 (some "consensus failed") rfl
  ⟨by decide!, h.1, hret.1, hret.2.1, hret.2.2.2 (by decide)⟩


end Rubix
